import Mathlib

/-!
# Transaction memory pool: entries and their orderings

A shallow embedding of `txmempool.h`: the mempool entry with its cached
accounting, the comparators of the multi-index container, and the dependency
graph between in-pool transactions.

Conventions of the embedding.

* `uint64_t` / `size_t` values are natural numbers, `int64_t` values are
  integers; a product of the two is reduced modulo `2 ^ 64` the way C++
  computes it.
* A `double` that holds an integer is represented by that integer.  Every
  `double` in the comparators is the conversion of a 64-bit integer or the
  product of two such doubles, hence an integer below `2 ^ 128`; conversions and
  products round to the nearest value with a 53-bit significand, ties to even.
-/

namespace TxMemPool

/-! ## Machine arithmetic -/

/-- Number of low-order bits of `n` that do not fit into a 53-bit significand
(the first argument bounds the recursion; `n` itself is always enough). -/
def excessBits : Nat → Nat → Nat
  | 0, _ => 0
  | fuel + 1, n => if n < 2 ^ 53 then 0 else excessBits fuel (n / 2) + 1

/-- Rounding of a natural number to the nearest `double`
(IEEE-754 binary64, round to nearest, ties to even). -/
def roundToDouble (n : Nat) : Nat :=
  let e := excessBits n n
  let q := n / 2 ^ e
  let r := n % 2 ^ e
  let h := 2 ^ (e - 1)
  if r < h then q * 2 ^ e
  else if h < r then (q + 1) * 2 ^ e
  else if q % 2 = 0 then q * 2 ^ e
  else (q + 1) * 2 ^ e

/-- Rounding of an integer to the nearest `double`; rounding is symmetric
around zero. -/
def roundInt (z : Int) : Int :=
  if z < 0 then -((roundToDouble z.natAbs : Nat) : Int) else ((roundToDouble z.natAbs : Nat) : Int)

/-- Conversion `uint64_t → double`. -/
def doubleOfUInt64 (n : Nat) : Int := roundInt (n : Int)

/-- Conversion `int64_t → double`. -/
def doubleOfInt64 (z : Int) : Int := roundInt z

/-- Product of two doubles: the exact product, correctly rounded. -/
def doubleMul (x y : Int) : Int := roundInt (x * y)

/-- An integer that a `double` holds exactly. -/
def ExactDouble (z : Int) : Prop := roundInt z = z

instance (z : Int) : Decidable (ExactDouble z) := by
  unfold ExactDouble; exact inferInstance

/-- Product `uint64_t * int64_t` as C++ evaluates it: the signed operand is
converted to `uint64_t` and the multiplication wraps modulo `2 ^ 64`. -/
def mulUInt64 (s : Nat) (f : Int) : Nat :=
  (s * (f % 2 ^ 64).toNat) % 2 ^ 64

/-! ## Amounts, transactions, entries -/

/-- Modelled from the spec: the type `Amount` of `consensus/amount.h`, which is
not part of these sources.  An amount is a signed 64-bit count of satoshis, the
unit in which the fees of the spec's scenarios (1000, 2000, 500) are written. -/
abbrev Amount := Int

/-- Modelled from the spec: the constant `SATOSHI` of `consensus/amount.h`, the
amount of one unit. -/
def SATOSHI : Amount := 1

/-- Modelled from the spec: `Amount / Amount` of `consensus/amount.h`, the
`int64_t` quotient of the two counts (C++ division truncates). -/
def Amount.div (a b : Amount) : Int := Int.tdiv a b

/-- Transaction identifier (`TxId`); the order on the naturals stands for the
total order in which the source compares ids. -/
abbrev TxId := Nat

/-- Reference to an output of a transaction: `(prev-txid, output-index)`. -/
structure COutPoint where
  txid : TxId
  n : Nat
  deriving DecidableEq, Repr

/-- The part of a transaction the mempool looks at: its id and the outputs it
spends. -/
structure CTransaction where
  id : TxId
  vin : List COutPoint
  deriving DecidableEq, Repr

/-- Cached lock points of an entry (`struct LockPoints`). -/
structure LockPoints where
  height : Int := 0
  time : Int := 0
  maxInputBlock : Option Nat := none
  deriving DecidableEq, Repr

/-- The class `CTxMemPoolEntry`.  The parent and child sets hold references to
other entries of the pool; they are kept as lists of transaction ids. -/
structure CTxMemPoolEntry where
  tx : CTransaction
  m_parents : List TxId := []
  m_children : List TxId := []
  nFee : Amount
  nTxSize : Nat
  nUsageSize : Nat
  nTime : Int
  entryHeight : Nat
  spendsCoinbase : Bool
  sigChecks : Int
  feeDelta : Amount := 0
  lockPoints : LockPoints := {}
  nCountWithDescendants : Nat := 1
  nSizeWithDescendants : Nat
  nModFeesWithDescendants : Amount
  nSigChecksWithDescendants : Int
  nCountWithAncestors : Nat := 1
  nSizeWithAncestors : Nat
  nModFeesWithAncestors : Amount
  nSigChecksWithAncestors : Int
  m_epoch_marker : Nat := 0
  deriving DecidableEq, Repr

namespace CTxMemPoolEntry

/-- Modelled from the spec: the constructor of `CTxMemPoolEntry`, declared in
`txmempool.h` and defined in `txmempool.cpp`, which is not part of these
sources.  The arguments fill the immutable fields; fee delta and the two
counts take the default member initialisers of the header (zero, one, one); the
remaining aggregates start as the entry's own values, since by the spec the
aggregates include the entry itself. -/
def create (tx : CTransaction) (fee : Amount) (txSize usageSize : Nat) (time : Int)
    (entry_height : Nat) (spends_coinbase : Bool) (sigchecks : Int) (lp : LockPoints) :
    CTxMemPoolEntry :=
  { tx := tx, nFee := fee, nTxSize := txSize, nUsageSize := usageSize, nTime := time,
    entryHeight := entry_height, spendsCoinbase := spends_coinbase, sigChecks := sigchecks,
    lockPoints := lp,
    nSizeWithDescendants := txSize, nModFeesWithDescendants := fee,
    nSigChecksWithDescendants := sigchecks,
    nSizeWithAncestors := txSize, nModFeesWithAncestors := fee,
    nSigChecksWithAncestors := sigchecks }

def GetTx (e : CTxMemPoolEntry) : CTransaction := e.tx
def GetId (e : CTxMemPoolEntry) : TxId := e.tx.id
def GetFee (e : CTxMemPoolEntry) : Amount := e.nFee
def GetTxSize (e : CTxMemPoolEntry) : Nat := e.nTxSize
def GetTime (e : CTxMemPoolEntry) : Int := e.nTime
def GetHeight (e : CTxMemPoolEntry) : Nat := e.entryHeight
def GetSigChecks (e : CTxMemPoolEntry) : Int := e.sigChecks
def GetModifiedFee (e : CTxMemPoolEntry) : Amount := e.nFee + e.feeDelta
def DynamicMemoryUsage (e : CTxMemPoolEntry) : Nat := e.nUsageSize
def GetLockPoints (e : CTxMemPoolEntry) : LockPoints := e.lockPoints
def GetCountWithDescendants (e : CTxMemPoolEntry) : Nat := e.nCountWithDescendants
def GetSizeWithDescendants (e : CTxMemPoolEntry) : Nat := e.nSizeWithDescendants
def GetModFeesWithDescendants (e : CTxMemPoolEntry) : Amount := e.nModFeesWithDescendants
def GetSigChecksWithDescendants (e : CTxMemPoolEntry) : Int := e.nSigChecksWithDescendants
def GetSpendsCoinbase (e : CTxMemPoolEntry) : Bool := e.spendsCoinbase
def GetCountWithAncestors (e : CTxMemPoolEntry) : Nat := e.nCountWithAncestors
def GetSizeWithAncestors (e : CTxMemPoolEntry) : Nat := e.nSizeWithAncestors
def GetModFeesWithAncestors (e : CTxMemPoolEntry) : Amount := e.nModFeesWithAncestors
def GetSigChecksWithAncestors (e : CTxMemPoolEntry) : Int := e.nSigChecksWithAncestors
def GetMemPoolParentsConst (e : CTxMemPoolEntry) : List TxId := e.m_parents
def GetMemPoolChildrenConst (e : CTxMemPoolEntry) : List TxId := e.m_children

end CTxMemPoolEntry

/-- The three virtual-size getters of `CTxMemPoolEntry`
(`GetTxVirtualSize`, `GetVirtualSizeWithDescendants`,
`GetVirtualSizeWithAncestors`).  The header only declares them, so the
comparators take them as a parameter. -/
structure VirtualSizes where
  GetTxVirtualSize : CTxMemPoolEntry → Nat
  GetVirtualSizeWithDescendants : CTxMemPoolEntry → Nat
  GetVirtualSizeWithAncestors : CTxMemPoolEntry → Nat

/-- Virtual size equal to the serialized size: the instance used in the
examples, where no signature-check density is involved. -/
def plainSizes : VirtualSizes :=
  { GetTxVirtualSize := fun e => e.GetTxSize
    GetVirtualSizeWithDescendants := fun e => e.GetSizeWithDescendants
    GetVirtualSizeWithAncestors := fun e => e.GetSizeWithAncestors }

/-! ## Comparators -/

namespace CompareTxMemPoolEntryByDescendantScore

/-- The method `GetModFeeAndSize`: the pair `(mod_fee, size)` written to the two
`double&` arguments. -/
def GetModFeeAndSize (V : VirtualSizes) (a : CTxMemPoolEntry) : Int × Int :=
  let f1 := doubleOfUInt64
    (mulUInt64 (V.GetVirtualSizeWithDescendants a) (Amount.div a.GetModifiedFee SATOSHI))
  let f2 := doubleOfUInt64
    (mulUInt64 (V.GetTxVirtualSize a) (Amount.div a.GetModFeesWithDescendants SATOSHI))
  if f2 > f1 then
    (doubleOfInt64 (Amount.div a.GetModFeesWithDescendants SATOSHI),
      doubleOfUInt64 (V.GetVirtualSizeWithDescendants a))
  else
    (doubleOfInt64 (Amount.div a.GetModifiedFee SATOSHI), doubleOfUInt64 (V.GetTxVirtualSize a))

/-- The call operator `operator()(a, b)`. -/
def call (V : VirtualSizes) (a b : CTxMemPoolEntry) : Bool :=
  let a_mod_fee := (GetModFeeAndSize V a).1
  let a_size := (GetModFeeAndSize V a).2
  let b_mod_fee := (GetModFeeAndSize V b).1
  let b_size := (GetModFeeAndSize V b).2
  let f1 := doubleMul a_mod_fee b_size
  let f2 := doubleMul a_size b_mod_fee
  if f1 = f2 then decide (a.GetTime ≥ b.GetTime) else decide (f1 < f2)

end CompareTxMemPoolEntryByDescendantScore

namespace CompareTxMemPoolEntryByScore

/-- The call operator `operator()(a, b)` of the relay comparator. -/
def call (a b : CTxMemPoolEntry) : Bool :=
  let f1 := doubleOfUInt64 (mulUInt64 b.GetTxSize (Amount.div a.GetFee SATOSHI))
  let f2 := doubleOfUInt64 (mulUInt64 a.GetTxSize (Amount.div b.GetFee SATOSHI))
  if f1 = f2 then decide (b.GetTx.id < a.GetTx.id) else decide (f1 > f2)

end CompareTxMemPoolEntryByScore

namespace CompareTxMemPoolEntryByEntryTime

/-- The call operator `operator()(a, b)`. -/
def call (a b : CTxMemPoolEntry) : Bool := decide (a.GetTime < b.GetTime)

end CompareTxMemPoolEntryByEntryTime

namespace CompareTxMemPoolEntryByAncestorFee

/-- The method `GetModFeeAndSize`: the pair `(mod_fee, size)` written to the two
`double&` arguments. -/
def GetModFeeAndSize (V : VirtualSizes) (a : CTxMemPoolEntry) : Int × Int :=
  let f1 := doubleOfUInt64
    (mulUInt64 (V.GetVirtualSizeWithAncestors a) (Amount.div a.GetModifiedFee SATOSHI))
  let f2 := doubleOfUInt64
    (mulUInt64 (V.GetTxVirtualSize a) (Amount.div a.GetModFeesWithAncestors SATOSHI))
  if f1 > f2 then
    (doubleOfInt64 (Amount.div a.GetModFeesWithAncestors SATOSHI),
      doubleOfUInt64 (V.GetVirtualSizeWithAncestors a))
  else
    (doubleOfInt64 (Amount.div a.GetModifiedFee SATOSHI), doubleOfUInt64 (V.GetTxVirtualSize a))

/-- The call operator `operator()(a, b)`. -/
def call (V : VirtualSizes) (a b : CTxMemPoolEntry) : Bool :=
  let a_mod_fee := (GetModFeeAndSize V a).1
  let a_size := (GetModFeeAndSize V a).2
  let b_mod_fee := (GetModFeeAndSize V b).1
  let b_size := (GetModFeeAndSize V b).2
  let f1 := doubleMul a_mod_fee b_size
  let f2 := doubleMul a_size b_mod_fee
  if f1 = f2 then decide (a.GetTx.id < b.GetTx.id) else decide (f1 > f2)

end CompareTxMemPoolEntryByAncestorFee

/-! ## The orderings in exact arithmetic

The scores as the specification states them, over the rationals, and the two
score comparators evaluated without wrap-around and without rounding. -/

/-- Descendant score of the specification: the larger of the entry's own
modified feerate and the modified feerate of the entry with its descendants. -/
def descendantScore (V : VirtualSizes) (e : CTxMemPoolEntry) : ℚ :=
  max ((e.GetModifiedFee : ℚ) / (V.GetTxVirtualSize e : ℚ))
    ((e.GetModFeesWithDescendants : ℚ) / (V.GetVirtualSizeWithDescendants e : ℚ))

/-- Ancestor score of the specification: the smaller of the entry's own
modified feerate and the modified feerate of the entry with its ancestors. -/
def ancestorScore (V : VirtualSizes) (e : CTxMemPoolEntry) : ℚ :=
  min ((e.GetModifiedFee : ℚ) / (V.GetTxVirtualSize e : ℚ))
    ((e.GetModFeesWithAncestors : ℚ) / (V.GetVirtualSizeWithAncestors e : ℚ))

/-- Relay score of the specification: base fee over serialized size. -/
def relayScore (e : CTxMemPoolEntry) : ℚ := (e.GetFee : ℚ) / (e.GetTxSize : ℚ)

/-- The products `sizeWith * fee` and `size * feeWith` of `GetModFeeAndSize` fit
into 64 bits, and they, the two fees and the two sizes are held exactly by a
`double`. -/
def ExactOperands (size : Nat) (fee : Int) (sizeWith : Nat) (feeWith : Int) : Prop :=
  (sizeWith : Int) * fee < 2 ^ 64 ∧ (size : Int) * feeWith < 2 ^ 64 ∧
  ExactDouble ((sizeWith : Int) * fee) ∧ ExactDouble ((size : Int) * feeWith) ∧
  ExactDouble fee ∧ ExactDouble feeWith ∧
  ExactDouble (size : Int) ∧ ExactDouble (sizeWith : Int)

instance (size : Nat) (fee : Int) (sizeWith : Nat) (feeWith : Int) :
    Decidable (ExactOperands size fee sizeWith feeWith) := by
  unfold ExactOperands; exact inferInstance

/-- Exactness of the operands of the descendant-score `GetModFeeAndSize`. -/
def DescendantExact (V : VirtualSizes) (e : CTxMemPoolEntry) : Prop :=
  ExactOperands (V.GetTxVirtualSize e) e.GetModifiedFee
    (V.GetVirtualSizeWithDescendants e) e.GetModFeesWithDescendants

instance (V : VirtualSizes) (e : CTxMemPoolEntry) : Decidable (DescendantExact V e) := by
  unfold DescendantExact; exact inferInstance

/-- Exactness of the operands of the ancestor-score `GetModFeeAndSize`. -/
def AncestorExact (V : VirtualSizes) (e : CTxMemPoolEntry) : Prop :=
  ExactOperands (V.GetTxVirtualSize e) e.GetModifiedFee
    (V.GetVirtualSizeWithAncestors e) e.GetModFeesWithAncestors

instance (V : VirtualSizes) (e : CTxMemPoolEntry) : Decidable (AncestorExact V e) := by
  unfold AncestorExact; exact inferInstance

namespace CompareTxMemPoolEntryByDescendantScore

/-- The selection of `GetModFeeAndSize` with both products taken over the
integers: no wrap-around, no rounding. -/
def GetModFeeAndSizeExact (V : VirtualSizes) (a : CTxMemPoolEntry) : Int × Int :=
  let f1 := (V.GetVirtualSizeWithDescendants a : Int) * a.GetModifiedFee
  let f2 := (V.GetTxVirtualSize a : Int) * a.GetModFeesWithDescendants
  if f2 > f1 then (a.GetModFeesWithDescendants, (V.GetVirtualSizeWithDescendants a : Int))
  else (a.GetModifiedFee, (V.GetTxVirtualSize a : Int))

/-- The comparison of `operator()` with the cross-products taken over the
integers. -/
def callExact (V : VirtualSizes) (a b : CTxMemPoolEntry) : Bool :=
  let a_mod_fee := (GetModFeeAndSizeExact V a).1
  let a_size := (GetModFeeAndSizeExact V a).2
  let b_mod_fee := (GetModFeeAndSizeExact V b).1
  let b_size := (GetModFeeAndSizeExact V b).2
  let f1 := a_mod_fee * b_size
  let f2 := a_size * b_mod_fee
  if f1 = f2 then decide (a.GetTime ≥ b.GetTime) else decide (f1 < f2)

/-- Every product that `operator()(a, b)` forms is computed exactly: the
operands of both `GetModFeeAndSize` calls and the two cross-products. -/
def ExactProducts (V : VirtualSizes) (a b : CTxMemPoolEntry) : Prop :=
  DescendantExact V a ∧ DescendantExact V b ∧
  ExactDouble ((GetModFeeAndSize V a).1 * (GetModFeeAndSize V b).2) ∧
  ExactDouble ((GetModFeeAndSize V a).2 * (GetModFeeAndSize V b).1)

instance (V : VirtualSizes) (a b : CTxMemPoolEntry) : Decidable (ExactProducts V a b) := by
  unfold ExactProducts; exact inferInstance

end CompareTxMemPoolEntryByDescendantScore

namespace CompareTxMemPoolEntryByAncestorFee

/-- The selection of `GetModFeeAndSize` with both products taken over the
integers: no wrap-around, no rounding. -/
def GetModFeeAndSizeExact (V : VirtualSizes) (a : CTxMemPoolEntry) : Int × Int :=
  let f1 := (V.GetVirtualSizeWithAncestors a : Int) * a.GetModifiedFee
  let f2 := (V.GetTxVirtualSize a : Int) * a.GetModFeesWithAncestors
  if f1 > f2 then (a.GetModFeesWithAncestors, (V.GetVirtualSizeWithAncestors a : Int))
  else (a.GetModifiedFee, (V.GetTxVirtualSize a : Int))

/-- The comparison of `operator()` with the cross-products taken over the
integers. -/
def callExact (V : VirtualSizes) (a b : CTxMemPoolEntry) : Bool :=
  let a_mod_fee := (GetModFeeAndSizeExact V a).1
  let a_size := (GetModFeeAndSizeExact V a).2
  let b_mod_fee := (GetModFeeAndSizeExact V b).1
  let b_size := (GetModFeeAndSizeExact V b).2
  let f1 := a_mod_fee * b_size
  let f2 := a_size * b_mod_fee
  if f1 = f2 then decide (a.GetTx.id < b.GetTx.id) else decide (f1 > f2)

/-- Every product that `operator()(a, b)` forms is computed exactly: the
operands of both `GetModFeeAndSize` calls and the two cross-products. -/
def ExactProducts (V : VirtualSizes) (a b : CTxMemPoolEntry) : Prop :=
  AncestorExact V a ∧ AncestorExact V b ∧
  ExactDouble ((GetModFeeAndSize V a).1 * (GetModFeeAndSize V b).2) ∧
  ExactDouble ((GetModFeeAndSize V a).2 * (GetModFeeAndSize V b).1)

instance (V : VirtualSizes) (a b : CTxMemPoolEntry) : Decidable (ExactProducts V a b) := by
  unfold ExactProducts; exact inferInstance

end CompareTxMemPoolEntryByAncestorFee

namespace CompareTxMemPoolEntryByScore

/-- The two products that `operator()(a, b)` forms fit into 64 bits and are held
exactly by a `double`. -/
def ExactProducts (a b : CTxMemPoolEntry) : Prop :=
  (b.GetTxSize : Int) * a.GetFee < 2 ^ 64 ∧ (a.GetTxSize : Int) * b.GetFee < 2 ^ 64 ∧
  ExactDouble ((b.GetTxSize : Int) * a.GetFee) ∧ ExactDouble ((a.GetTxSize : Int) * b.GetFee)

instance (a b : CTxMemPoolEntry) : Decidable (ExactProducts a b) := by
  unfold ExactProducts; exact inferInstance

end CompareTxMemPoolEntryByScore

/-- Entries that differ at most in their fee delta and in their ancestor and
descendant aggregates: every other field is the same. -/
def SameUpToPriority (a a' : CTxMemPoolEntry) : Prop :=
  a'.tx = a.tx ∧ a'.m_parents = a.m_parents ∧ a'.m_children = a.m_children ∧
  a'.nFee = a.nFee ∧ a'.nTxSize = a.nTxSize ∧ a'.nUsageSize = a.nUsageSize ∧
  a'.nTime = a.nTime ∧ a'.entryHeight = a.entryHeight ∧
  a'.spendsCoinbase = a.spendsCoinbase ∧ a'.sigChecks = a.sigChecks ∧
  a'.lockPoints = a.lockPoints ∧ a'.m_epoch_marker = a.m_epoch_marker

instance (a a' : CTxMemPoolEntry) : Decidable (SameUpToPriority a a') := by
  unfold SameUpToPriority; exact inferInstance

/-- An entry for the examples: transaction `id` without in-pool inputs, base fee
`fee`, size `size`, entry time `time`, fee delta `delta`, and the aggregates
`(feeDesc, sizeDesc)` with descendants and `(feeAnc, sizeAnc)` with
ancestors. -/
def sampleEntry (id : TxId) (fee : Amount) (size : Nat) (time : Int) (delta : Amount)
    (feeDesc : Amount) (sizeDesc : Nat) (feeAnc : Amount) (sizeAnc : Nat) : CTxMemPoolEntry :=
  { CTxMemPoolEntry.create ⟨id, []⟩ fee size 0 time 0 false 0 {} with
    feeDelta := delta
    nModFeesWithDescendants := feeDesc
    nSizeWithDescendants := sizeDesc
    nModFeesWithAncestors := feeAnc
    nSizeWithAncestors := sizeAnc }

/-- Entry A of the spec's chain scenario: fee 1000, size 100, and with its
descendants B and C fee 3500 and size 300. -/
def chainEntryA : CTxMemPoolEntry := sampleEntry 1 1000 100 0 0 3500 300 1000 100

/-- Entry C of the spec's chain scenario: fee 500, size 100, and with its
ancestors A and B fee 3500 and size 300. -/
def chainEntryC : CTxMemPoolEntry := sampleEntry 3 500 100 2 0 500 100 3500 300

/-- An entry whose two descendant products are `4 * 2 ^ 51 = 2 ^ 53` and
`3 * 3002399751580331 = 2 ^ 53 + 1`: they differ, and they are the same
`double`. -/
def roundedDescendantEntry : CTxMemPoolEntry :=
  sampleEntry 1 (2 ^ 51) 3 0 0 3002399751580331 4 (2 ^ 51) 3

/-- An entry whose two ancestor products are `3 * 3002399751580331 = 2 ^ 53 + 1`
and `2 * 2 ^ 52 = 2 ^ 53`: they differ, and they are the same `double`. -/
def roundedAncestorEntry : CTxMemPoolEntry :=
  sampleEntry 1 3002399751580331 2 0 0 3002399751580331 2 (2 ^ 52) 3

/-- Two entries without in-pool relatives for the relay comparator: base fees
`2 ^ 53 + 1` and `2 ^ 53`, size 1 each. -/
def relayEntryHigh : CTxMemPoolEntry :=
  sampleEntry 1 (2 ^ 53 + 1) 1 0 0 (2 ^ 53 + 1) 1 (2 ^ 53 + 1) 1

/-- The second entry for the relay comparator. -/
def relayEntryLow : CTxMemPoolEntry := sampleEntry 2 (2 ^ 53) 1 0 0 (2 ^ 53) 1 (2 ^ 53) 1

/-- Entry A of the chain scenario after the operator has prioritised it by 5000:
the fee delta and the modified-fee aggregates change, nothing else. -/
def chainEntryAPrioritised : CTxMemPoolEntry :=
  { chainEntryA with
    feeDelta := 5000, nModFeesWithDescendants := 8500, nModFeesWithAncestors := 6000 }

/-- Entry C of the chain scenario after the operator has de-prioritised it by
400. -/
def chainEntryCPrioritised : CTxMemPoolEntry :=
  { chainEntryC with
    feeDelta := -400, nModFeesWithDescendants := 100, nModFeesWithAncestors := 3100 }

/-- An entry without in-pool relatives, txid 2, entry time 1, fee
3002399751580331 and size 1. -/
def crossEntryA : CTxMemPoolEntry :=
  sampleEntry 2 3002399751580331 1 1 0 3002399751580331 1 3002399751580331 1

/-- An entry without in-pool relatives, txid 1, entry time 0, fee `2 ^ 53` and
size 3.  Against `crossEntryA` the cross-products are
`3002399751580331 * 3 = 2 ^ 53 + 1` and `1 * 2 ^ 53`. -/
def crossEntryB : CTxMemPoolEntry :=
  sampleEntry 1 (2 ^ 53) 3 0 0 (2 ^ 53) 3 (2 ^ 53) 3

/-- An entry of base fee 1000 and size 100 that the operator has prioritised by
-2000, so that its modified fee is -1000; with its child (fee 3000, size 100)
and likewise with its parent (fee 3000, size 100) the package has modified fee
2000 and size 200. -/
def negativeFeeEntry : CTxMemPoolEntry := sampleEntry 1 1000 100 0 (-2000) 2000 200 2000 200

/-! ## The pool

The member functions of `CTxMemPool` that change the pool are declared in
`txmempool.h` and defined in `txmempool.cpp`, which is not part of these
sources.  They are modelled from the specification (sections 4.2 and 4.3),
with the names and the types the header declares.  The rolling minimum feerate,
the prioritisation map and the observer notifications are left out of the
model. -/

/-- Reason why a transaction was removed from the mempool. -/
inductive MemPoolRemovalReason where
  | EXPIRY
  | SIZELIMIT
  | REORG
  | BLOCK
  | CONFLICT
  | REPLACED
  deriving DecidableEq, Repr

/-- The update `x += d` of a `uint64_t` by a signed quantity: it wraps modulo
`2 ^ 64`. -/
def addInt64 (x : Nat) (d : Int) : Nat := (((x : Int) + d) % 2 ^ 64).toNat

/-- Insertion into a set of transaction ids. -/
def setInsert (x : TxId) (s : List TxId) : List TxId := if x ∈ s then s else x :: s

/-- Removal from a set of transaction ids. -/
def setErase (x : TxId) (s : List TxId) : List TxId := s.filter (fun y => y ≠ x)

namespace CTxMemPoolEntry

/-- Modelled from the spec: `UpdateDescendantState`, which the header declares
("Adjusts the descendant state") and `txmempool.cpp` defines: the four
quantities are added to the descendant aggregates. -/
def UpdateDescendantState (e : CTxMemPoolEntry) (modifySize : Int) (modifyFee : Amount)
    (modifyCount : Int) (modifySigChecks : Int) : CTxMemPoolEntry :=
  { e with
    nSizeWithDescendants := addInt64 e.nSizeWithDescendants modifySize
    nModFeesWithDescendants := e.nModFeesWithDescendants + modifyFee
    nCountWithDescendants := addInt64 e.nCountWithDescendants modifyCount
    nSigChecksWithDescendants := e.nSigChecksWithDescendants + modifySigChecks }

/-- Modelled from the spec: `UpdateAncestorState`, which the header declares
("Adjusts the ancestor state") and `txmempool.cpp` defines: the four quantities
are added to the ancestor aggregates. -/
def UpdateAncestorState (e : CTxMemPoolEntry) (modifySize : Int) (modifyFee : Amount)
    (modifyCount : Int) (modifySigChecks : Int) : CTxMemPoolEntry :=
  { e with
    nSizeWithAncestors := addInt64 e.nSizeWithAncestors modifySize
    nModFeesWithAncestors := e.nModFeesWithAncestors + modifyFee
    nCountWithAncestors := addInt64 e.nCountWithAncestors modifyCount
    nSigChecksWithAncestors := e.nSigChecksWithAncestors + modifySigChecks }

/-- The parent set of the entry with `parent` added or removed. -/
def updateParents (e : CTxMemPoolEntry) (parent : TxId) (add : Bool) : CTxMemPoolEntry :=
  { e with m_parents := if add then setInsert parent e.m_parents else setErase parent e.m_parents }

/-- The child set of the entry with `child` added or removed. -/
def updateChildren (e : CTxMemPoolEntry) (child : TxId) (add : Bool) : CTxMemPoolEntry :=
  { e with
    m_children := if add then setInsert child e.m_children else setErase child e.m_children }

end CTxMemPoolEntry

/-- Modelled from the spec: the class `Epoch` of `util/epochguard.h`, which the
header includes: the "monotonic counter" of the epoch-based visited marking and
the flag that tells whether a guard is active. -/
structure Epoch where
  m_raw_epoch : Nat := 0
  m_guarded : Bool := false
  deriving DecidableEq, Repr

/-- The state of the class `CTxMemPool`: the indexed container `mapTx` as the
list of its entries, the next-output index `mapNextTx`, the unbroadcast set,
the counters and the epoch of the graph traversals. -/
structure CTxMemPool where
  nTransactionsUpdated : Nat := 0
  totalTxSize : Nat := 0
  m_total_fee : Amount := 0
  cachedInnerUsage : Nat := 0
  m_sequence_number : Nat := 1
  m_is_loaded : Bool := false
  mapTx : List CTxMemPoolEntry := []
  m_unbroadcast_txids : List TxId := []
  mapNextTx : List (COutPoint × TxId) := []
  m_epoch : Epoch := {}
  deriving DecidableEq, Repr

namespace CTxMemPool

/-- The method `exists(txid)`: `mapTx.count(txid) != 0`. -/
def exists_ (pool : CTxMemPool) (txid : TxId) : Bool :=
  pool.mapTx.any (fun e => e.tx.id == txid)

/-- Modelled from the spec: `GetIter(txid)`, the lookup of section 4.1 through
the hash index ("lookup(txid) → optional handle"). -/
def GetIter (pool : CTxMemPool) (txid : TxId) : Option CTxMemPoolEntry :=
  pool.mapTx.find? (fun e => e.tx.id == txid)

/-- The method `GetAndIncrementSequence()`: `return m_sequence_number++`. -/
def GetAndIncrementSequence (pool : CTxMemPool) : Nat × CTxMemPool :=
  (pool.m_sequence_number,
    { pool with m_sequence_number := (pool.m_sequence_number + 1) % 2 ^ 64 })

/-- The method `GetSequence()`. -/
def GetSequence (pool : CTxMemPool) : Nat := pool.m_sequence_number

/-- Modelled from the spec: `mapTx.modify(handle, f)` of section 4.1, which
applies `f` to the entry in place. -/
def modify (pool : CTxMemPool) (it : TxId) (f : CTxMemPoolEntry → CTxMemPoolEntry) :
    CTxMemPool :=
  { pool with mapTx := pool.mapTx.map (fun e => if e.tx.id = it then f e else e) }

/-- Modelled from the spec: `mapTx.insert(entry)` of section 4.1, which fails and
leaves the container as it is when the txid is already present. -/
def insert (pool : CTxMemPool) (entry : CTxMemPoolEntry) : CTxMemPool :=
  if pool.exists_ entry.tx.id then pool else { pool with mapTx := pool.mapTx ++ [entry] }

/-- Modelled from the spec: `mapTx.erase(handle)` of section 4.1. -/
def erase (pool : CTxMemPool) (it : TxId) : CTxMemPool :=
  { pool with mapTx := pool.mapTx.filter (fun e => e.tx.id ≠ it) }

/-- Modelled from the spec: `UpdateParent(entry, parent, add)`, declared in the
header: adds `parent` to, or removes it from, the parent set of `entry`. -/
def UpdateParent (pool : CTxMemPool) (entry parent : TxId) (add : Bool) : CTxMemPool :=
  pool.modify entry (fun e => e.updateParents parent add)

/-- Modelled from the spec: `UpdateChild(entry, child, add)`, declared in the
header: adds `child` to, or removes it from, the child set of `entry`. -/
def UpdateChild (pool : CTxMemPool) (entry child : TxId) (add : Bool) : CTxMemPool :=
  pool.modify entry (fun e => e.updateChildren child add)

/-- In-pool direct parents of the entry `it`, read from its parent set. -/
def parentsOf (pool : CTxMemPool) (it : TxId) : List TxId :=
  match pool.GetIter it with
  | some e => e.m_parents.filter pool.exists_
  | none => []

/-- In-pool direct children of the entry `it`, read from its child set. -/
def childrenOf (pool : CTxMemPool) (it : TxId) : List TxId :=
  match pool.GetIter it with
  | some e => e.m_children.filter pool.exists_
  | none => []

/-- One round of a breadth-first traversal: the set `acc` together with the
successors of its members. -/
def expand (next : TxId → List TxId) (acc : List TxId) : List TxId :=
  (acc ++ acc.flatMap next).dedup

/-- Breadth-first traversal for `n` rounds. -/
def reach (next : TxId → List TxId) : Nat → List TxId → List TxId
  | 0, acc => acc
  | n + 1, acc => reach next n (expand next acc)

/-- Modelled from the spec: `CalculateDescendants(it, setDescendants)`, declared
in the header: adds to `setDescendants` the entry `it` and all its in-pool
descendants.  A path inside the pool has fewer edges than the pool has
entries, so that many rounds of the traversal reach every descendant. -/
def CalculateDescendants (pool : CTxMemPool) (it : TxId) (setDescendants : List TxId) :
    List TxId :=
  (setDescendants ++ reach pool.childrenOf pool.mapTx.length [it]).dedup

/-- Modelled from the spec: the transitive in-pool parents of the entry `it`
(what `CalculateMemPoolAncestors` walks to when it is given no limits and reads
the parents from the entry). -/
def inPoolAncestors (pool : CTxMemPool) (it : TxId) : List TxId :=
  reach pool.parentsOf pool.mapTx.length (pool.parentsOf it)

/-- Modelled from the spec: step 1 of `submit` (section 4.2), the in-pool
parents found by scanning the inputs of the transaction against the
container. -/
def inPoolParents (pool : CTxMemPool) (tx : CTransaction) : List TxId :=
  ((tx.vin.map (fun o => o.txid)).filter pool.exists_).dedup

/-- Modelled from the spec: step 4 of `submit`: for each parent `p`, add `e` to
`p.children` and `p` to `e.parents`. -/
def linkParents (pool : CTxMemPool) (it : TxId) (parents : List TxId) : CTxMemPool :=
  parents.foldl (fun p pit => (p.UpdateChild pit it true).UpdateParent it pit true) pool

/-- Modelled from the spec: step 5 of `submit`: each ancestor's descendant
aggregates grow by the size, the modified fee, one, and the sigchecks of the
entry `e`. -/
def addToAncestors (pool : CTxMemPool) (e : CTxMemPoolEntry) (ancestors : List TxId) :
    CTxMemPool :=
  ancestors.foldl (fun p a => p.modify a (fun x =>
    x.UpdateDescendantState (e.GetTxSize : Int) e.GetModifiedFee 1 e.GetSigChecks)) pool

/-- Modelled from the spec: `UpdateEntryForAncestors(it, setAncestors)`, declared
in the header ("Set ancestor state for an entry"); step 6 of `submit`: the
ancestor aggregates of the entry become the sums over the ancestor set plus the
entry itself. -/
def UpdateEntryForAncestors (pool : CTxMemPool) (it : TxId) (setAncestors : List TxId) :
    CTxMemPool :=
  let anc := setAncestors.filterMap pool.GetIter
  pool.modify it (fun e =>
    { e with
      nCountWithAncestors := (1 + anc.length) % 2 ^ 64
      nSizeWithAncestors := (e.GetTxSize + (anc.map (fun a => a.GetTxSize)).sum) % 2 ^ 64
      nModFeesWithAncestors := e.GetModifiedFee + (anc.map (fun a => a.GetModifiedFee)).sum
      nSigChecksWithAncestors := e.GetSigChecks + (anc.map (fun a => a.GetSigChecks)).sum })

/-- Modelled from the spec: `addUnchecked(entry, setAncestors)`, declared in the
header; steps 3 to 9 of `submit` (section 4.2), the ancestor set being the one
the caller has computed. -/
def addUnchecked (pool : CTxMemPool) (entry : CTxMemPoolEntry) (setAncestors : List TxId) :
    CTxMemPool :=
  let it := entry.tx.id
  let ancestors := (setAncestors.filter pool.exists_).dedup
  let p3 := pool.insert entry
  let p4 := p3.linkParents it (p3.inPoolParents entry.tx)
  match p4.GetIter it with
  | none => p4
  | some e =>
    let p5 := p4.addToAncestors e ancestors
    let p6 := p5.UpdateEntryForAncestors it ancestors
    { p6 with
      totalTxSize := (p6.totalTxSize + e.GetTxSize) % 2 ^ 64
      m_total_fee := p6.m_total_fee + e.GetFee
      cachedInnerUsage := (p6.cachedInnerUsage + e.DynamicMemoryUsage) % 2 ^ 64
      mapNextTx := p6.mapNextTx ++ e.tx.vin.map (fun o => (o, it))
      nTransactionsUpdated := (p6.nTransactionsUpdated + 1) % 2 ^ 32 }

/-- Modelled from the spec: the update of `remove-for-block` for one removed
entry `r`: every descendant outside the batch has `r` taken out of its ancestor
aggregates ("their aggregates are adjusted as if the parent were gone"). -/
def removeFromDescendants (stage : List TxId) (pool : CTxMemPool) (r : TxId) : CTxMemPool :=
  match pool.GetIter r with
  | none => pool
  | some e =>
    ((pool.CalculateDescendants r []).filter (fun d => d ∉ stage)).foldl
      (fun p d => p.modify d (fun x =>
        x.UpdateAncestorState (-(e.GetTxSize : Int)) (-e.GetModifiedFee) (-1) (-e.GetSigChecks)))
      pool

/-- Modelled from the spec: step 1 of `remove-recursive` (section 4.3) for one
entry `r` of the batch: every ancestor outside the batch has the size, modified
fee, count and sigchecks of `r` subtracted from its descendant aggregates. -/
def removeFromAncestors (stage : List TxId) (pool : CTxMemPool) (r : TxId) : CTxMemPool :=
  match pool.GetIter r with
  | none => pool
  | some e =>
    ((pool.inPoolAncestors r).filter (fun a => a ∉ stage)).foldl
      (fun p a => p.modify a (fun x =>
        x.UpdateDescendantState (-(e.GetTxSize : Int)) (-e.GetModifiedFee) (-1)
          (-e.GetSigChecks)))
      pool

/-- Modelled from the spec: step 2 of `remove-recursive` for one entry `r` of the
batch: the child-links to `r` are severed in each of its parents outside the
batch, and the parent-links to `r` in each of its children outside the
batch. -/
def severLinks (stage : List TxId) (pool : CTxMemPool) (r : TxId) : CTxMemPool :=
  match pool.GetIter r with
  | none => pool
  | some e =>
    let p1 := (e.m_parents.filter (fun x => x ∉ stage)).foldl
      (fun p parent => p.UpdateChild parent r false) pool
    (e.m_children.filter (fun x => x ∉ stage)).foldl
      (fun p child => p.UpdateParent child r false) p1

/-- Modelled from the spec: `UpdateForRemoveFromMempool(entriesToRemove,
updateDescendants)`, declared in the header ("For each transaction being
removed, update ancestors and any direct children.  If updateDescendants is
true, then also update in-mempool descendants' ancestor state"); steps 1 and 2
of `remove-recursive`. -/
def UpdateForRemoveFromMempool (pool : CTxMemPool) (entriesToRemove : List TxId)
    (updateDescendants : Bool) : CTxMemPool :=
  let p0 := if updateDescendants then
      entriesToRemove.foldl (removeFromDescendants entriesToRemove) pool
    else pool
  let p1 := entriesToRemove.foldl (removeFromAncestors entriesToRemove) p0
  entriesToRemove.foldl (severLinks entriesToRemove) p1

/-- Modelled from the spec: `removeUnchecked(entry, reason)`, declared in the
header; steps 3, 4 and 6 of `remove-recursive`: the entry leaves the next-output
index and the container, the global accounting is decremented and the sequence
number is bumped. -/
def removeUnchecked (pool : CTxMemPool) (entry : TxId) (_reason : MemPoolRemovalReason) :
    CTxMemPool :=
  match pool.GetIter entry with
  | none => pool
  | some e =>
    let p := pool.erase entry
    { p with
      mapNextTx := p.mapNextTx.filter (fun kv => kv.1 ∉ e.tx.vin)
      totalTxSize := addInt64 p.totalTxSize (-(e.GetTxSize : Int))
      m_total_fee := p.m_total_fee - e.GetFee
      cachedInnerUsage := addInt64 p.cachedInnerUsage (-(e.DynamicMemoryUsage : Int))
      m_sequence_number := (p.m_sequence_number + 1) % 2 ^ 64 }

/-- Modelled from the spec: `RemoveStaged(stage, updateDescendants, reason)`,
declared in the header ("Remove a set of transactions from the mempool").  The
stage is a set of handles: ids that are not in the pool and repetitions do not
count. -/
def RemoveStaged (pool : CTxMemPool) (stage : List TxId) (updateDescendants : Bool)
    (reason : MemPoolRemovalReason) : CTxMemPool :=
  let batch := (stage.filter pool.exists_).dedup
  batch.foldl (fun p it => p.removeUnchecked it reason)
    (pool.UpdateForRemoveFromMempool batch updateDescendants)

/-- Modelled from the spec: `removeRecursive(tx, reason)`, declared in the
header; `remove-recursive` of section 4.3: the descendant set is computed first
and then removed as one batch. -/
def removeRecursive (pool : CTxMemPool) (tx : CTransaction) (reason : MemPoolRemovalReason) :
    CTxMemPool :=
  pool.RemoveStaged (pool.CalculateDescendants tx.id []) false reason

/-- Modelled from the spec: `removeConflicts(tx)`, declared in the header: any
in-pool transaction that spends a prevout of `tx` is removed recursively with
reason "conflict". -/
def removeConflicts (pool : CTxMemPool) (tx : CTransaction) : CTxMemPool :=
  tx.vin.foldl (fun p prevout =>
    match p.mapNextTx.find? (fun kv => kv.1 = prevout) with
    | none => p
    | some kv =>
      if kv.2 = tx.id then p
      else
        match p.GetIter kv.2 with
        | none => p
        | some txConflict => p.removeRecursive txConflict.tx MemPoolRemovalReason.CONFLICT) pool

/-- Modelled from the spec: `removeForBlock(vtx, nBlockHeight)`, declared in the
header; `remove-for-block` of section 4.3: each block transaction that is in the
pool is erased, its descendants staying with adjusted aggregates, and then the
conflicts of each block transaction are removed. -/
def removeForBlock (pool : CTxMemPool) (vtx : List CTransaction) (_nBlockHeight : Nat) :
    CTxMemPool :=
  let p1 := vtx.foldl (fun p tx => p.RemoveStaged [tx.id] true MemPoolRemovalReason.BLOCK) pool
  vtx.foldl (fun p tx => p.removeConflicts tx) p1

end CTxMemPool

/-! ## The dependency graph -/

/-- Property P1 of the specification, graph symmetry: for all in-pool entries
`e` and `p`, `p` is in the parent set of `e` if and only if `e` is in the child
set of `p`. -/
def GraphSymmetric (pool : CTxMemPool) : Prop :=
  ∀ e ∈ pool.mapTx, ∀ p ∈ pool.mapTx, p.tx.id ∈ e.m_parents ↔ e.tx.id ∈ p.m_children

instance (pool : CTxMemPool) : Decidable (GraphSymmetric pool) := by
  unfold GraphSymmetric; exact inferInstance

/-- The parent and child sets refer to entries of the pool only (in the source
they hold references to entries of `mapTx`). -/
def NoDangling (pool : CTxMemPool) : Prop :=
  ∀ e ∈ pool.mapTx,
    (∀ x ∈ e.m_parents, pool.exists_ x = true) ∧
    (∀ x ∈ e.m_children, pool.exists_ x = true)

instance (pool : CTxMemPool) : Decidable (NoDangling pool) := by
  unfold NoDangling; exact inferInstance

/-- An entry as its constructor leaves it: no parent and no child is recorded
yet. -/
def CTxMemPoolEntry.Unlinked (e : CTxMemPoolEntry) : Prop :=
  e.m_parents = [] ∧ e.m_children = []

instance (e : CTxMemPoolEntry) : Decidable e.Unlinked := by
  unfold CTxMemPoolEntry.Unlinked; exact inferInstance

/-- A node of the dependency graph: the id of an entry, its parents and its
children. -/
abbrev Node := TxId × List TxId × List TxId

/-- What the dependency graph sees of an entry: its id, its parents and its
children. -/
def linkView (e : CTxMemPoolEntry) : Node :=
  (e.tx.id, e.m_parents, e.m_children)

/-- The dependency graph of a pool. -/
def graph (pool : CTxMemPool) : List Node :=
  pool.mapTx.map linkView

/-- Symmetric and without dangling references, stated on a graph. -/
def WellLinkedGraph (G : List Node) : Prop :=
  (∀ e ∈ G, ∀ p ∈ G, p.1 ∈ e.2.1 ↔ e.1 ∈ p.2.2) ∧
  (∀ e ∈ G, (∀ x ∈ e.2.1, ∃ p ∈ G, p.1 = x) ∧ (∀ x ∈ e.2.2, ∃ p ∈ G, p.1 = x))

/-- The effect on a node of linking `pit` as parent of `it`. -/
def linkNode (it pit : TxId) (v : Node) : Node :=
  (v.1, (if v.1 = it then setInsert pit v.2.1 else v.2.1),
    if v.1 = pit then setInsert it v.2.2 else v.2.2)

/-- Lookup of a node by id. -/
def findNode (G : List Node) (r : TxId) :
    Option Node :=
  G.find? (fun v => v.1 == r)

/-- The effect on a node of severing the links to `r`: the parent-link in the
nodes listed in `Lc`, the child-link in the nodes listed in `Lp`. -/
def severNode (Lp Lc : List TxId) (r : TxId) (v : Node) :
    Node :=
  (v.1, (if v.1 ∈ Lc then setErase r v.2.1 else v.2.1),
    if v.1 ∈ Lp then setErase r v.2.2 else v.2.2)

/-- The effect of `severLinks` on the graph. -/
def severGraph (S : List TxId) (G : List Node) (r : TxId) :
    List Node :=
  match findNode G r with
  | none => G
  | some w =>
    G.map (severNode (w.2.1.filter (fun x => x ∉ S)) (w.2.2.filter (fun x => x ∉ S)) r)

/-- What a run of `severLinks` over the entries `done` of the batch `S` has made
of the graph `G`: ids and the nodes of the batch are as before, and a link to
`y` is left exactly when it was there and no entry of `done` has cut it. -/
def Severed (G : List Node) (S done : List TxId)
    (G' : List Node) : Prop :=
  ∃ F : Node → Node,
    G' = G.map F ∧ ∀ v, (F v).1 = v.1 ∧ (v.1 ∈ S → F v = v) ∧
      (∀ y, y ∈ (F v).2.1 ↔ y ∈ v.2.1 ∧
        ∀ r ∈ done, ∀ w, findNode G r = some w → v.1 ∈ w.2.2 → v.1 ∉ S → y ≠ r) ∧
      (∀ y, y ∈ (F v).2.2 ↔ y ∈ v.2.2 ∧
        ∀ r ∈ done, ∀ w, findNode G r = some w → v.1 ∈ w.2.1 → v.1 ∉ S → y ≠ r)

/-- Transaction A of the spec's chain scenario; it spends a confirmed output. -/
def txA : CTransaction := ⟨1, [⟨100, 0⟩]⟩

/-- Transaction B of the chain scenario; it spends A. -/
def txB : CTransaction := ⟨2, [⟨1, 0⟩]⟩

/-- Transaction C of the chain scenario; it spends B. -/
def txC : CTransaction := ⟨3, [⟨2, 0⟩]⟩

/-- A transaction that spends the same confirmed output as A. -/
def txD : CTransaction := ⟨4, [⟨100, 0⟩]⟩

/-- The pool of the spec's chain scenario: A (size 100, fee 1000), B spends A
(size 100, fee 2000), C spends B (size 100, fee 500), submitted in this
order. -/
def chainPool : CTxMemPool :=
  ((({} : CTxMemPool).addUnchecked
      (CTxMemPoolEntry.create txA 1000 100 500 10 0 false 1 {}) []).addUnchecked
      (CTxMemPoolEntry.create txB 2000 100 500 11 0 false 1 {}) [1]).addUnchecked
    (CTxMemPoolEntry.create txC 500 100 500 12 0 false 1 {}) [1, 2]

/-! ## The unbroadcast set -/

/-- Source: `CTxMemPool::AddUnbroadcastTx`: the txid joins the unbroadcast set
only when the pool holds an entry with that txid. -/
def CTxMemPool.AddUnbroadcastTx (pool : CTxMemPool) (txid : TxId) : CTxMemPool :=
  if pool.exists_ txid then
    { pool with m_unbroadcast_txids := setInsert txid pool.m_unbroadcast_txids }
  else pool

/-- Source: `CTxMemPool::GetUnbroadcastTxs`: a copy of the unbroadcast set. -/
def CTxMemPool.GetUnbroadcastTxs (pool : CTxMemPool) : List TxId :=
  pool.m_unbroadcast_txids

/-- Source: `CTxMemPool::IsUnbroadcastTx`: `m_unbroadcast_txids.count(txid) != 0`. -/
def CTxMemPool.IsUnbroadcastTx (pool : CTxMemPool) (txid : TxId) : Bool :=
  decide (txid ∈ pool.m_unbroadcast_txids)

/-- The values returned by `n` successive calls of `GetAndIncrementSequence`,
with the pool after them. -/
def CTxMemPool.sequenceCalls (pool : CTxMemPool) : Nat → List Nat × CTxMemPool
  | 0 => ([], pool)
  | n + 1 =>
    let r := pool.GetAndIncrementSequence
    let rest := CTxMemPool.sequenceCalls r.2 n
    (r.1 :: rest.1, rest.2)

/-! ## The script-check budget (validation.h) -/

/-- The value an `int64_t` holds after an arithmetic result `z` wraps. -/
def wrapInt64 (z : Int) : Int := (z + 2 ^ 63) % 2 ^ 64 - 2 ^ 63

/-- Source: `CheckInputsLimiter`: a budget `remaining` of type
`std::atomic<int64_t>`; each member function is one atomic operation, so a
run is a sequence of calls. -/
structure CheckInputsLimiter where
  remaining : Int
  deriving DecidableEq, Repr

/-- Source: the constructor `CheckInputsLimiter(int64_t limit)`. -/
def CheckInputsLimiter.create (limit : Int) : CheckInputsLimiter := ⟨limit⟩

/-- Source: `consume_and_check`: `newvalue = (remaining -= consumed)`, and the
result is `newvalue >= 0`. -/
def CheckInputsLimiter.consume_and_check (l : CheckInputsLimiter) (consumed : Int) :
    Bool × CheckInputsLimiter :=
  let newvalue := wrapInt64 (l.remaining - consumed)
  (decide (newvalue ≥ 0), ⟨newvalue⟩)

/-- Source: `check`: `remaining >= 0`. -/
def CheckInputsLimiter.check (l : CheckInputsLimiter) : Bool := decide (l.remaining ≥ 0)

/-- The limiter after a sequence of `consume_and_check` calls. -/
def CheckInputsLimiter.after (l : CheckInputsLimiter) (calls : List Int) : CheckInputsLimiter :=
  calls.foldl (fun s c => (s.consume_and_check c).2) l

/-! ## The disconnected-block buffer -/

/-- Source: `DisconnectedBlockTransactions`: `queuedTx` lists the queued
transactions in the order of the `insertion_order` index, and
`cachedInnerUsage` is the `uint64_t` usage counter. -/
structure DisconnectedBlockTransactions where
  queuedTx : List CTransaction := []
  cachedInnerUsage : Nat := 0
  deriving DecidableEq, Repr

namespace DisconnectedBlockTransactions

/-- The `txid_index` of the container is `hashed_unique`: no two queued
transactions have the same txid. -/
def UniqueTxIds (d : DisconnectedBlockTransactions) : Prop :=
  (d.queuedTx.map (fun t => t.id)).Nodup

instance (d : DisconnectedBlockTransactions) : Decidable d.UniqueTxIds := by
  unfold UniqueTxIds; infer_instance

/-- Source: `addTransaction`: `queuedTx.insert(tx)` appends the transaction
to the sequence unless its txid is already queued, and the usage of `tx` is
added to `cachedInnerUsage` in both cases. `RecursiveDynamicUsage` is declared
elsewhere and is a parameter. -/
def addTransaction (RecursiveDynamicUsage : CTransaction → Nat)
    (d : DisconnectedBlockTransactions) (tx : CTransaction) : DisconnectedBlockTransactions :=
  { queuedTx :=
      if d.queuedTx.any (fun t => t.id == tx.id) then d.queuedTx else d.queuedTx ++ [tx],
    cachedInnerUsage := (d.cachedInnerUsage + RecursiveDynamicUsage tx) % 2 ^ 64 }

/-- Source: the destructor, `assert(queuedTx.empty())`: `some ()` when the
assertion holds and `none` when it fails. -/
def destroy (d : DisconnectedBlockTransactions) : Option Unit :=
  if d.queuedTx.isEmpty then some () else none

/-- One round of the loop of `removeForBlock`: `queuedTx.find(tx->GetId())`,
and when it finds `it`, the usage of `*it` is subtracted and `it` is erased. -/
def removeForBlockStep (RecursiveDynamicUsage : CTransaction → Nat)
    (d : DisconnectedBlockTransactions) (tx : CTransaction) : DisconnectedBlockTransactions :=
  match d.queuedTx.find? (fun t => t.id == tx.id) with
  | none => d
  | some it =>
    { queuedTx := d.queuedTx.eraseP (fun t => t.id == tx.id),
      cachedInnerUsage := addInt64 d.cachedInnerUsage (-(RecursiveDynamicUsage it : Int)) }

/-- Source: `removeForBlock`: nothing happens on an empty buffer; otherwise
each transaction of `vtx` that is queued is erased. -/
def removeForBlock (RecursiveDynamicUsage : CTransaction → Nat)
    (d : DisconnectedBlockTransactions) (vtx : List CTransaction) :
    DisconnectedBlockTransactions :=
  if d.queuedTx.isEmpty then d
  else vtx.foldl (removeForBlockStep RecursiveDynamicUsage) d

/-- Source: `removeEntry`: the iterator `entry` of the `insertion_order`
index is the position in the sequence; a position past the end is no
iterator and leaves the buffer as it is. -/
def removeEntry (RecursiveDynamicUsage : CTransaction → Nat)
    (d : DisconnectedBlockTransactions) (entry : Nat) : DisconnectedBlockTransactions :=
  match d.queuedTx.get? entry with
  | none => d
  | some tx =>
    { queuedTx := d.queuedTx.eraseIdx entry,
      cachedInnerUsage := addInt64 d.cachedInnerUsage (-(RecursiveDynamicUsage tx : Int)) }

/-- Source: `isEmpty`: `queuedTx.empty()`. -/
def isEmpty (d : DisconnectedBlockTransactions) : Bool := d.queuedTx.isEmpty

/-- Source: `clear`: the counter is reset and the container is emptied. -/
def clear (_d : DisconnectedBlockTransactions) : DisconnectedBlockTransactions :=
  { queuedTx := [], cachedInnerUsage := 0 }

/-- Source: `DynamicMemoryUsage` of the buffer; `perEntry` stands for
`memusage::MallocUsage(sizeof(CTransactionRef) + 6 * sizeof(void *))`. -/
def DynamicMemoryUsage (perEntry : Nat) (d : DisconnectedBlockTransactions) : Nat :=
  (perEntry * d.queuedTx.length + d.cachedInnerUsage) % 2 ^ 64

end DisconnectedBlockTransactions

/-- A usage estimate for the examples: 100 bytes and 40 per input. -/
def sampleUsage (tx : CTransaction) : Nat := 100 + 40 * tx.vin.length

/-- The buffer that holds the chain A, B, C in this order. -/
def chainBuffer : DisconnectedBlockTransactions :=
  [txA, txB, txC].foldl (DisconnectedBlockTransactions.addTransaction sampleUsage) {}

/-! ## Aggregates of an entry -/

/-- The entry's own size, modified fee and signature-check count. -/
def CTxMemPoolEntry.own (e : CTxMemPoolEntry) : Nat × Amount × Int :=
  (e.GetTxSize, e.GetModifiedFee, e.GetSigChecks)

/-- The descendant aggregates of the entry: count, size, modified fees and
signature checks. -/
def CTxMemPoolEntry.descendantState (e : CTxMemPoolEntry) : Nat × Nat × Amount × Int :=
  (e.GetCountWithDescendants, e.GetSizeWithDescendants, e.GetModFeesWithDescendants,
    e.GetSigChecksWithDescendants)

/-- The ancestor aggregates of the entry: count, size, modified fees and
signature checks. -/
def CTxMemPoolEntry.ancestorState (e : CTxMemPoolEntry) : Nat × Nat × Amount × Int :=
  (e.GetCountWithAncestors, e.GetSizeWithAncestors, e.GetModFeesWithAncestors,
    e.GetSigChecksWithAncestors)

/-- The entry with its ancestor aggregates set to the sums over the entries
`anc` plus the entry itself, the update that `UpdateEntryForAncestors` makes. -/
def CTxMemPoolEntry.withAncestors (e : CTxMemPoolEntry) (anc : List CTxMemPoolEntry) :
    CTxMemPoolEntry :=
  { e with
    nCountWithAncestors := (1 + anc.length) % 2 ^ 64
    nSizeWithAncestors := (e.GetTxSize + (anc.map (fun a => a.GetTxSize)).sum) % 2 ^ 64
    nModFeesWithAncestors := e.GetModifiedFee + (anc.map (fun a => a.GetModifiedFee)).sum
    nSigChecksWithAncestors := e.GetSigChecks + (anc.map (fun a => a.GetSigChecks)).sum }

/-- The entries of the pool that the ids of `s` stand for. -/
def CTxMemPool.entriesOf (pool : CTxMemPool) (s : List TxId) : List CTxMemPoolEntry :=
  s.filterMap pool.GetIter

/-- The pool after the container insertion and the linking of the parents,
the first steps of `addUnchecked`. -/
def CTxMemPool.insertLinked (pool : CTxMemPool) (entry : CTxMemPoolEntry) : CTxMemPool :=
  (pool.insert entry).linkParents entry.tx.id ((pool.insert entry).inPoolParents entry.tx)

/-! ## Descendants -/

/-- The entry `d` is `t` or an in-pool descendant of `t`: it is reached from
`t` along child links between entries of the pool. -/
def CTxMemPool.IsDescendant (pool : CTxMemPool) (t d : TxId) : Prop :=
  Relation.ReflTransGen (fun x y => y ∈ pool.childrenOf x) t d

/-! ## Ancestor calculation with limits -/

instance : DecidableEq (Except String (List TxId)) := fun a b =>
  match a, b with
  | Except.ok x, Except.ok y =>
    if h : x = y then isTrue (congrArg Except.ok h)
    else isFalse (fun h2 => h (Except.ok.inj h2))
  | Except.error x, Except.error y =>
    if h : x = y then isTrue (congrArg Except.error h)
    else isFalse (fun h2 => h (Except.error.inj h2))
  | Except.ok _, Except.error _ => isFalse (fun h => Except.noConfusion h)
  | Except.error _, Except.ok _ => isFalse (fun h => Except.noConfusion h)

namespace CTxMemPool

/-- Modelled from the spec: the parents of `stage` that the traversal of
`compute-ancestors` has not met yet: they are neither ancestors already nor
staged. -/
def newParents (pool : CTxMemPool) (stage : TxId) (setAncestors staged : List TxId) :
    List TxId :=
  (pool.parentsOf stage).dedup.filter
    (fun p => decide (p ∉ setAncestors) && decide (p ∉ staged))

/-- Modelled from the spec: the loop of `CalculateAncestorsAndCheckLimits`,
after step 2 of section 4.2: one step of the breadth-first traversal moves the
first staged entry to the ancestors, checks the four limits and stages the
parents that are new. The first argument bounds the number of steps. -/
def ancestorLoop (pool : CTxMemPool) (entry_size entry_count : Nat)
    (limitAncestorCount limitAncestorSize limitDescendantCount limitDescendantSize : Nat) :
    Nat → List TxId → List TxId → Nat → Except String (List TxId)
  | _, [], setAncestors, _ => Except.ok setAncestors
  | 0, _ :: _, _, _ => Except.error "traversal bound reached"
  | fuel + 1, stage :: staged, setAncestors, totalSizeWithAncestors =>
    match pool.GetIter stage with
    | none =>
      ancestorLoop pool entry_size entry_count limitAncestorCount limitAncestorSize
        limitDescendantCount limitDescendantSize fuel staged setAncestors
        totalSizeWithAncestors
    | some stageit =>
      let ancestors := setAncestors ++ [stage]
      let total := (totalSizeWithAncestors + stageit.GetTxSize) % 2 ^ 64
      if (stageit.GetSizeWithDescendants + entry_size) % 2 ^ 64 > limitDescendantSize then
        Except.error "descendant-limit"
      else if (stageit.GetCountWithDescendants + entry_count) % 2 ^ 64
          > limitDescendantCount then
        Except.error "descendant-limit"
      else if total > limitAncestorSize then
        Except.error "ancestor-limit"
      else
        let staged2 := staged ++ pool.newParents stage ancestors staged
        if (staged2.length + ancestors.length + entry_count) % 2 ^ 64 > limitAncestorCount then
          Except.error "ancestor-limit"
        else
          ancestorLoop pool entry_size entry_count limitAncestorCount limitAncestorSize
            limitDescendantCount limitDescendantSize fuel staged2 ancestors total

/-- Modelled from the spec: `CalculateAncestorsAndCheckLimits`, declared in the
header ("calculate all in-mempool ancestors of staged_ancestors and apply
ancestor and descendant limits (including staged_ancestors themselves,
entry_size and entry_count)"), after step 2 of section 4.2: a breadth-first
traversal from the staged parents that at each step enforces the descendant
count and size limits of the ancestor it visits and the ancestor count and size
limits of the entry, and fails with a reason on the first violation. The
result is the error string, or the ancestor set. Every step moves a staged
entry to the ancestors and an entry is staged at most once, so the bound on
the number of steps is never reached. -/
def CalculateAncestorsAndCheckLimits (pool : CTxMemPool) (entry_size entry_count : Nat)
    (setAncestors staged_ancestors : List TxId)
    (limitAncestorCount limitAncestorSize limitDescendantCount limitDescendantSize : Nat) :
    Except String (List TxId) :=
  pool.ancestorLoop entry_size entry_count limitAncestorCount limitAncestorSize
    limitDescendantCount limitDescendantSize
    (staged_ancestors.length + pool.mapTx.length) staged_ancestors setAncestors entry_size

/-- Modelled from the spec: `CalculateMemPoolAncestors`, declared in the
header: the in-pool parents are searched in the inputs of the transaction
(`fSearchForParents`, step 1 of section 4.2) or read from the entry, and the
ancestors are calculated from them with the limits applied to the size of the
entry and to one more entry. -/
def CalculateMemPoolAncestors (pool : CTxMemPool) (entry : CTxMemPoolEntry)
    (limitAncestorCount limitAncestorSize limitDescendantCount limitDescendantSize : Nat)
    (fSearchForParents : Bool) : Except String (List TxId) :=
  let staged_ancestors :=
    if fSearchForParents then pool.inPoolParents entry.tx
    else (pool.parentsOf entry.tx.id).dedup
  pool.CalculateAncestorsAndCheckLimits entry.GetTxSize 1 [] staged_ancestors
    limitAncestorCount limitAncestorSize limitDescendantCount limitDescendantSize

/-- A successful run of the loop of `CalculateAncestorsAndCheckLimits`: from
the staged entries, the ancestors found so far and the running size to the
ancestor set it returns, with the checks that each step has passed. -/
inductive AncestorRun (pool : CTxMemPool) (entry_size entry_count : Nat)
    (limitAncestorCount limitAncestorSize limitDescendantCount limitDescendantSize : Nat) :
    List TxId → List TxId → Nat → List TxId → Prop
  | done (setAncestors : List TxId) (total : Nat) :
    AncestorRun pool entry_size entry_count limitAncestorCount limitAncestorSize
      limitDescendantCount limitDescendantSize [] setAncestors total setAncestors
  | skip (stage : TxId) (staged setAncestors : List TxId) (total : Nat) (A : List TxId) :
    pool.GetIter stage = none →
    AncestorRun pool entry_size entry_count limitAncestorCount limitAncestorSize
      limitDescendantCount limitDescendantSize staged setAncestors total A →
    AncestorRun pool entry_size entry_count limitAncestorCount limitAncestorSize
      limitDescendantCount limitDescendantSize (stage :: staged) setAncestors total A
  | visit (stage : TxId) (staged setAncestors : List TxId) (total : Nat) (A : List TxId)
      (stageit : CTxMemPoolEntry) :
    pool.GetIter stage = some stageit →
    (stageit.GetSizeWithDescendants + entry_size) % 2 ^ 64 ≤ limitDescendantSize →
    (stageit.GetCountWithDescendants + entry_count) % 2 ^ 64 ≤ limitDescendantCount →
    (total + stageit.GetTxSize) % 2 ^ 64 ≤ limitAncestorSize →
    ((staged ++ pool.newParents stage (setAncestors ++ [stage]) staged).length
      + (setAncestors ++ [stage]).length + entry_count) % 2 ^ 64 ≤ limitAncestorCount →
    AncestorRun pool entry_size entry_count limitAncestorCount limitAncestorSize
      limitDescendantCount limitDescendantSize
      (staged ++ pool.newParents stage (setAncestors ++ [stage]) staged)
      (setAncestors ++ [stage]) ((total + stageit.GetTxSize) % 2 ^ 64) A →
    AncestorRun pool entry_size entry_count limitAncestorCount limitAncestorSize
      limitDescendantCount limitDescendantSize (stage :: staged) setAncestors total A

/-- The entry `a` is an in-pool ancestor of a transaction with the in-pool
parents `parents`: it is reached from one of them along parent links. -/
def IsAncestorFrom (pool : CTxMemPool) (parents : List TxId) (a : TxId) : Prop :=
  ∃ p ∈ parents, Relation.ReflTransGen (fun x y => y ∈ pool.parentsOf x) p a

end CTxMemPool

/-- The pool of the chain scenario with A and B only. -/
def chainPoolAB : CTxMemPool :=
  (({} : CTxMemPool).addUnchecked (CTxMemPoolEntry.create txA 1000 100 500 10 0 false 1 {})
    []).addUnchecked (CTxMemPoolEntry.create txB 2000 100 500 11 0 false 1 {}) [1]

/-- The entry for C of the chain scenario. -/
def chainEntryCNew : CTxMemPoolEntry := CTxMemPoolEntry.create txC 500 100 500 12 0 false 1 {}

/-! ## Trimming to a size -/

namespace CTxMemPool

/-- Modelled from the spec: the selection of `trim-to-size` (section 4.4),
"select the entry with the lowest descendant-score": the entries of `mapTx`
are gone through, and an entry takes the place of the one held when its
descendant score is lower; of several entries with the lowest score the first
one of `mapTx` is selected. -/
def lowestDescendantScore (V : VirtualSizes) (pool : CTxMemPool) : Option CTxMemPoolEntry :=
  pool.mapTx.foldl
    (fun best x =>
      match best with
      | none => some x
      | some b => if descendantScore V x < descendantScore V b then some x else some b)
    none

/-- Modelled from the spec: one eviction of `TrimToSize` (section 4.4): the
entry with the lowest descendant score is removed with its in-pool
descendants, with the reason `SIZELIMIT`. -/
def trimStep (V : VirtualSizes) (pool : CTxMemPool) : CTxMemPool :=
  match pool.lowestDescendantScore V with
  | none => pool
  | some it =>
    pool.RemoveStaged (pool.CalculateDescendants it.tx.id []) false
      MemPoolRemovalReason.SIZELIMIT

/-- Modelled from the spec: the loop of `TrimToSize` (section 4.4), "while
memory usage > byteLimit", with a bound on the number of evictions; an empty
pool has nothing to evict. -/
def trimLoop (V : VirtualSizes) (DynamicMemoryUsage : CTxMemPool → Nat) (sizelimit : Nat) :
    Nat → CTxMemPool → CTxMemPool
  | 0, pool => pool
  | fuel + 1, pool =>
    if pool.mapTx ≠ [] ∧ DynamicMemoryUsage pool > sizelimit then
      trimLoop V DynamicMemoryUsage sizelimit fuel (pool.trimStep V)
    else pool

/-- Modelled from the spec: `TrimToSize(sizelimit)`, declared in the header
("Remove transactions from the mempool until its dynamic size is <=
sizelimit"), after section 4.4: while the memory usage is above the limit, the
entry with the lowest descendant score is selected and removed recursively
with the reason size-limit. The memory-usage estimate `DynamicMemoryUsage()`
of the pool is declared in the header and is a parameter; the rolling
minimum-feerate tracker and the report of unspent outpoints are left out.
Every eviction removes at least one entry, so as many evictions as the pool
has entries are enough. -/
def TrimToSize (V : VirtualSizes) (DynamicMemoryUsage : CTxMemPool → Nat) (pool : CTxMemPool)
    (sizelimit : Nat) : CTxMemPool :=
  trimLoop V DynamicMemoryUsage sizelimit pool.mapTx.length pool

end CTxMemPool

/-! ## Epoch-based visited marking -/

namespace Epoch

/-- Modelled from the spec: `Epoch::guarded()`, whether a guard is active
("Enforce at runtime that a guard is active before calling"). -/
def guarded (e : Epoch) : Bool := e.m_guarded

/-- Modelled from the spec: the opening of the scoped guard `Epoch::Guard`
("callers open a scoped guard"): a guard inside a guard trips an assertion
(`none`); otherwise the monotonic counter goes up and the guard is active. -/
def acquire (e : Epoch) : Option Epoch :=
  if e.m_guarded then none
  else some { m_raw_epoch := (e.m_raw_epoch + 1) % 2 ^ 64, m_guarded := true }

/-- Modelled from the spec: the release of the scoped guard ("close the
guard"): the counter goes up once more, so that the epochs of two guards are
apart, and no guard is active. -/
def release (e : Epoch) : Option Epoch :=
  if e.m_guarded then some { m_raw_epoch := (e.m_raw_epoch + 1) % 2 ^ 64, m_guarded := false }
  else none

/-- Modelled from the spec: `Epoch::visited(marker)`, "entries hold their
last-seen value; `visited(e)` compares and updates": without an active guard
the assertion fails (`none`); a marker below the current epoch is a first
visit, the marker takes the current epoch and the answer is false; otherwise
the answer is true. The result is the answer with the marker. -/
def visited (e : Epoch) (marker : Nat) : Option (Bool × Nat) :=
  if e.m_guarded then
    if marker < e.m_raw_epoch then some (false, e.m_raw_epoch) else some (true, marker)
  else none

end Epoch

/-- The entry with its epoch marker set to `m`. -/
def CTxMemPoolEntry.setEpochMarker (e : CTxMemPoolEntry) (m : Nat) : CTxMemPoolEntry :=
  { e with m_epoch_marker := m }

namespace CTxMemPool

/-- Source: `CTxMemPool::visited(const txiter it)`:
`m_epoch.visited(it->m_epoch_marker)`. The iterator is the txid of an entry of
the pool; the result is `none` when the assertion fails (or when no entry has
the txid), and the answer with the pool otherwise. -/
def visited (pool : CTxMemPool) (it : TxId) : Option (Bool × CTxMemPool) :=
  match pool.GetIter it with
  | none => none
  | some e =>
    match pool.m_epoch.visited e.m_epoch_marker with
    | none => none
    | some r => some (r.1, pool.modify it (fun x => x.setEpochMarker r.2))

/-- Source: `CTxMemPool::visited(std::optional<txiter> it)`:
`assert(m_epoch.guarded()); return !it || visited(*it);`. -/
def visitedOptional (pool : CTxMemPool) (it : Option TxId) : Option (Bool × CTxMemPool) :=
  if pool.m_epoch.guarded then
    match it with
    | none => some (true, pool)
    | some i => pool.visited i
  else none

/-- The pool with a guard opened on its epoch. -/
def openGuard (pool : CTxMemPool) : Option CTxMemPool :=
  pool.m_epoch.acquire.map (fun e => { pool with m_epoch := e })

/-- The pool with the guard on its epoch closed. -/
def closeGuard (pool : CTxMemPool) : Option CTxMemPool :=
  pool.m_epoch.release.map (fun e => { pool with m_epoch := e })

/-- The answers of successive calls of `visited` for the entries `its`, with
the pool after them. -/
def visitedAll (pool : CTxMemPool) : List TxId → Option (List Bool × CTxMemPool)
  | [] => some ([], pool)
  | it :: rest =>
    match pool.visited it with
    | none => none
    | some r =>
      match visitedAll r.2 rest with
      | none => none
      | some rs => some (r.1 :: rs.1, rs.2)

/-- No entry carries a marker above the epoch counter: markers are written by
`visited` only, with the counter of that time. -/
def MarkersBelowEpoch (pool : CTxMemPool) : Prop :=
  ∀ e ∈ pool.mapTx, e.m_epoch_marker ≤ pool.m_epoch.m_raw_epoch

instance (pool : CTxMemPool) : Decidable pool.MarkersBelowEpoch := by
  unfold MarkersBelowEpoch; exact inferInstance

/-- Source: `ROLLING_FEE_HALFLIFE`, `static const int ... = 60 * 60 * 12`. -/
def ROLLING_FEE_HALFLIFE : Int := 60 * 60 * 12

end CTxMemPool

/-- For each id of the list, whether it is in `seen` or occurs earlier in the
list. -/
def seenBefore : List TxId → List TxId → List Bool
  | _, [] => []
  | seen, x :: xs => decide (x ∈ seen) :: seenBefore (x :: seen) xs

/-! ## Results of mempool acceptance (validation.h) -/

/-- Source: `MempoolAcceptResult::ResultType`. -/
inductive ResultType
  | VALID
  | INVALID
  | MEMPOOL_ENTRY
  deriving DecidableEq, Repr

/-- Source: `struct MempoolAcceptResult`. The class `TxValidationState` is
declared elsewhere and is a parameter. -/
structure MempoolAcceptResult (TxValidationState : Type) where
  m_result_type : ResultType
  m_state : TxValidationState
  m_vsize : Option Int
  m_base_fees : Option Amount

namespace MempoolAcceptResult

/-- Source: `Failure(state)`, through the private constructor of the failure
case: type `INVALID`, the state, and no size and no fees; its body is
`Assume(!state.IsValid())`. `Assume` is a macro of another header: it is the
parameter that tells whether the program goes on (`some ()`) for the value of
the condition. `IsValid` of the state is a parameter as well. -/
def Failure {S : Type} (Assume : Bool → Option Unit) (IsValid : S → Bool) (state : S) :
    Option (MempoolAcceptResult S) :=
  (Assume (!IsValid state)).map (fun _ =>
    { m_result_type := ResultType.INVALID, m_state := state, m_vsize := none,
      m_base_fees := none })

/-- Source: `Success(vsize, fees)`, through the generic constructor of the
success cases with `ResultType::VALID`; `m_state` is default-constructed, and
`fresh` stands for that value. -/
def Success {S : Type} (fresh : S) (vsize : Int) (fees : Amount) : MempoolAcceptResult S :=
  { m_result_type := ResultType.VALID, m_state := fresh, m_vsize := some vsize,
    m_base_fees := some fees }

/-- Source: `MempoolTx(vsize, fees)`, through the generic constructor of the
success cases with `ResultType::MEMPOOL_ENTRY`. -/
def MempoolTx {S : Type} (fresh : S) (vsize : Int) (fees : Amount) : MempoolAcceptResult S :=
  { m_result_type := ResultType.MEMPOOL_ENTRY, m_state := fresh, m_vsize := some vsize,
    m_base_fees := some fees }

/-- The results that the three static methods make; the constructors are
private. -/
def Constructed {S : Type} (Assume : Bool → Option Unit) (IsValid : S → Bool) (fresh : S)
    (r : MempoolAcceptResult S) : Prop :=
  (∃ state, Failure Assume IsValid state = some r) ∨
  (∃ vsize fees, r = Success fresh vsize fees) ∨
  (∃ vsize fees, r = MempoolTx fresh vsize fees)

end MempoolAcceptResult

/-- An entry whose product of size with descendants and modified fee is
2^64: base fee 1000 prioritised by a fee delta of 2^48 - 1000, so modified fee
2^48, for size 256; with descendants modified fee 2^48 + 1000 for size
2^16. -/
def wrappingEntry : CTxMemPoolEntry :=
  sampleEntry 9 1000 256 0 281474976709656 281474976711656 65536 281474976710656 256

/-- The counter `cachedInnerUsage` holds the sum of the usage of the queued
transactions, as a `uint64_t` does (modulo 2^64). -/
def DisconnectedBlockTransactions.UsageCached (RecursiveDynamicUsage : CTransaction → Nat)
    (d : DisconnectedBlockTransactions) : Prop :=
  d.cachedInnerUsage = (d.queuedTx.map RecursiveDynamicUsage).sum % 2 ^ 64

instance (U : CTransaction → Nat) (d : DisconnectedBlockTransactions) :
    Decidable (d.UsageCached U) := by
  unfold DisconnectedBlockTransactions.UsageCached; exact inferInstance

/-- The state of the pool inside a guard in which the entries `seen` have been
visited: a guard is active, no marker is above the epoch counter, and the
marker of an entry is the counter exactly when the entry is in `seen`. -/
def CTxMemPool.InGuard (pool : CTxMemPool) (seen : List TxId) : Prop :=
  pool.m_epoch.m_guarded = true ∧
  (∀ e ∈ pool.mapTx, e.m_epoch_marker ≤ pool.m_epoch.m_raw_epoch) ∧
  ∀ x e, pool.GetIter x = some e →
    (x ∈ seen → e.m_epoch_marker = pool.m_epoch.m_raw_epoch) ∧
    (x ∉ seen → e.m_epoch_marker < pool.m_epoch.m_raw_epoch)

/-! ## Arithmetic lemmas -/

theorem excessBits_of_lt (fuel n : Nat) (h : n < 2 ^ 53) : excessBits fuel n = 0 := by
  cases fuel with
  | zero => rfl
  | succ k => unfold excessBits; rw [if_pos h]

theorem roundToDouble_of_lt (n : Nat) (h : n < 2 ^ 53) : roundToDouble n = n := by
  unfold roundToDouble
  rw [excessBits_of_lt n n h]
  simp [Nat.mod_one]

theorem roundToDouble_of_le (n : Nat) (h : n ≤ 2 ^ 53) : roundToDouble n = n := by
  rcases Nat.lt_or_ge n (2 ^ 53) with h1 | h1
  · exact roundToDouble_of_lt n h1
  · have : n = 2 ^ 53 := Nat.le_antisymm h h1
    subst this
    decide

theorem roundInt_natCast (n : Nat) : roundInt (n : Int) = (roundToDouble n : Nat) := by
  simp [roundInt]

theorem exactDouble_of_natAbs_le (z : Int) (h : z.natAbs ≤ 2 ^ 53) : ExactDouble z := by
  unfold ExactDouble roundInt
  rw [roundToDouble_of_le _ h]
  split
  · omega
  · omega

theorem two_pow_64_cast : ((2 : Int) ^ 64) = ((2 ^ 64 : Nat) : Int) := by
  norm_num

theorem mulUInt64_of_nonneg (s : Nat) (f : Int) (hf : 0 ≤ f) (h : (s : Int) * f < 2 ^ 64) :
    ((mulUInt64 s f : Nat) : Int) = (s : Int) * f := by
  obtain ⟨m, rfl⟩ := Int.eq_ofNat_of_zero_le hf
  rw [two_pow_64_cast] at h
  have h2 : s * m < 2 ^ 64 := by
    have h' : ((s * m : Nat) : Int) < ((2 ^ 64 : Nat) : Int) := by
      rw [Nat.cast_mul]; exact h
    exact Int.ofNat_lt.mp h'
  unfold mulUInt64
  rcases Nat.eq_zero_or_pos s with hs | hs
  · subst hs; simp
  · have hm : m < 2 ^ 64 := lt_of_le_of_lt (Nat.le_mul_of_pos_left m hs) h2
    have h3 : ((m : Int) % 2 ^ 64).toNat = m := by
      rw [two_pow_64_cast, ← Int.natCast_mod, Int.toNat_ofNat, Nat.mod_eq_of_lt hm]
    rw [h3, Nat.mod_eq_of_lt h2, Nat.cast_mul]

theorem Amount_div_SATOSHI (a : Amount) : Amount.div a SATOSHI = a := by
  simp [Amount.div, SATOSHI]

/-! ## The selection made by `GetModFeeAndSize` -/

theorem ratio_le_iff (fa fb sa sb : Int) (hsa : 0 < sa) (hsb : 0 < sb) :
    (fa : ℚ) / (sa : ℚ) ≤ (fb : ℚ) / (sb : ℚ) ↔ fa * sb ≤ sa * fb := by
  have ha : (0 : ℚ) < (sa : ℚ) := by exact_mod_cast hsa
  have hb : (0 : ℚ) < (sb : ℚ) := by exact_mod_cast hsb
  rw [div_le_div_iff₀ ha hb]
  constructor
  · intro h
    have h2 : ((fa * sb : Int) : ℚ) ≤ ((sa * fb : Int) : ℚ) := by
      push_cast; linarith
    exact_mod_cast h2
  · intro h
    have h2 : ((fa * sb : Int) : ℚ) ≤ ((sa * fb : Int) : ℚ) := by exact_mod_cast h
    push_cast at h2; linarith

theorem ratio_lt_iff (fa fb sa sb : Int) (hsa : 0 < sa) (hsb : 0 < sb) :
    (fa : ℚ) / (sa : ℚ) < (fb : ℚ) / (sb : ℚ) ↔ fa * sb < sa * fb := by
  have h := ratio_le_iff fb fa sb sa hsb hsa
  rw [← not_le, h, not_le]
  constructor
  · intro h1; linarith [mul_comm fb sa, mul_comm sb fa]
  · intro h1; linarith [mul_comm fb sa, mul_comm sb fa]

theorem ratio_eq_iff (fa fb sa sb : Int) (hsa : 0 < sa) (hsb : 0 < sb) :
    (fa : ℚ) / (sa : ℚ) = (fb : ℚ) / (sb : ℚ) ↔ fa * sb = sa * fb := by
  have h1 := ratio_le_iff fa fb sa sb hsa hsb
  have h2 := ratio_le_iff fb fa sb sa hsb hsa
  constructor
  · intro h
    have a1 := h1.mp (le_of_eq h)
    have a2 := h2.mp (le_of_eq h.symm)
    linarith [mul_comm fb sa, mul_comm sb fa]
  · intro h
    apply le_antisymm
    · exact h1.mpr (le_of_eq h)
    · apply h2.mpr
      linarith [mul_comm fb sa, mul_comm sb fa]

theorem exact_operands_select (size : Nat) (fee : Int) (sizeWith : Nat) (feeWith : Int)
    (hf : 0 ≤ fee) (hfw : 0 ≤ feeWith) (hex : ExactOperands size fee sizeWith feeWith) :
    doubleOfUInt64 (mulUInt64 sizeWith fee) = (sizeWith : Int) * fee ∧
    doubleOfUInt64 (mulUInt64 size feeWith) = (size : Int) * feeWith ∧
    doubleOfInt64 fee = fee ∧ doubleOfInt64 feeWith = feeWith ∧
    doubleOfUInt64 size = (size : Int) ∧ doubleOfUInt64 sizeWith = (sizeWith : Int) := by
  obtain ⟨h1, h2, e1, e2, e3, e4, e5, e6⟩ := hex
  unfold ExactDouble at e1 e2 e3 e4 e5 e6
  unfold doubleOfUInt64 doubleOfInt64
  rw [mulUInt64_of_nonneg sizeWith fee hf h1, mulUInt64_of_nonneg size feeWith hfw h2]
  exact ⟨e1, e2, e3, e4, e5, e6⟩

namespace CompareTxMemPoolEntryByDescendantScore

theorem descendant_GetModFeeAndSize_eq_exact (V : VirtualSizes) (a : CTxMemPoolEntry)
    (hf : 0 ≤ a.GetModifiedFee) (hfw : 0 ≤ a.GetModFeesWithDescendants)
    (hex : DescendantExact V a) :
    GetModFeeAndSize V a = GetModFeeAndSizeExact V a := by
  obtain ⟨p1, p2, p3, p4, p5, p6⟩ := exact_operands_select _ _ _ _ hf hfw hex
  unfold GetModFeeAndSize GetModFeeAndSizeExact
  simp only [Amount_div_SATOSHI, p1, p2, p3, p4, p5, p6]

theorem descendant_exact_size_pos (V : VirtualSizes) (a : CTxMemPoolEntry)
    (hs : 0 < V.GetTxVirtualSize a) (hsw : 0 < V.GetVirtualSizeWithDescendants a) :
    0 < (GetModFeeAndSizeExact V a).2 := by
  unfold GetModFeeAndSizeExact
  simp only
  split
  · simpa using hsw
  · simpa using hs

theorem descendant_exact_ratio (V : VirtualSizes) (a : CTxMemPoolEntry)
    (hs : 0 < V.GetTxVirtualSize a) (hsw : 0 < V.GetVirtualSizeWithDescendants a) :
    ((GetModFeeAndSizeExact V a).1 : ℚ) / ((GetModFeeAndSizeExact V a).2 : ℚ) =
      descendantScore V a := by
  have hs' : (0 : Int) < (V.GetTxVirtualSize a : Int) := by exact_mod_cast hs
  have hsw' : (0 : Int) < (V.GetVirtualSizeWithDescendants a : Int) := by exact_mod_cast hsw
  have key := ratio_le_iff a.GetModifiedFee a.GetModFeesWithDescendants _ _ hs' hsw'
  have key2 := ratio_le_iff a.GetModFeesWithDescendants a.GetModifiedFee _ _ hsw' hs'
  simp only [Int.cast_natCast] at key key2
  unfold GetModFeeAndSizeExact descendantScore
  simp only
  split
  · rename_i h
    simp only [Int.cast_natCast]
    rw [max_eq_right]
    apply key.mpr
    linarith [mul_comm a.GetModifiedFee (V.GetVirtualSizeWithDescendants a : Int)]
  · rename_i h
    simp only [Int.cast_natCast]
    rw [max_eq_left]
    apply key2.mpr
    linarith [mul_comm a.GetModFeesWithDescendants (V.GetTxVirtualSize a : Int)]

end CompareTxMemPoolEntryByDescendantScore

namespace CompareTxMemPoolEntryByAncestorFee

theorem ancestor_GetModFeeAndSize_eq_exact (V : VirtualSizes) (a : CTxMemPoolEntry)
    (hf : 0 ≤ a.GetModifiedFee) (hfw : 0 ≤ a.GetModFeesWithAncestors)
    (hex : AncestorExact V a) :
    GetModFeeAndSize V a = GetModFeeAndSizeExact V a := by
  obtain ⟨p1, p2, p3, p4, p5, p6⟩ := exact_operands_select _ _ _ _ hf hfw hex
  unfold GetModFeeAndSize GetModFeeAndSizeExact
  simp only [Amount_div_SATOSHI, p1, p2, p3, p4, p5, p6]

theorem ancestor_exact_size_pos (V : VirtualSizes) (a : CTxMemPoolEntry)
    (hs : 0 < V.GetTxVirtualSize a) (hsw : 0 < V.GetVirtualSizeWithAncestors a) :
    0 < (GetModFeeAndSizeExact V a).2 := by
  unfold GetModFeeAndSizeExact
  simp only
  split
  · simpa using hsw
  · simpa using hs

theorem ancestor_exact_ratio (V : VirtualSizes) (a : CTxMemPoolEntry)
    (hs : 0 < V.GetTxVirtualSize a) (hsw : 0 < V.GetVirtualSizeWithAncestors a) :
    ((GetModFeeAndSizeExact V a).1 : ℚ) / ((GetModFeeAndSizeExact V a).2 : ℚ) =
      ancestorScore V a := by
  have hs' : (0 : Int) < (V.GetTxVirtualSize a : Int) := by exact_mod_cast hs
  have hsw' : (0 : Int) < (V.GetVirtualSizeWithAncestors a : Int) := by exact_mod_cast hsw
  have key := ratio_le_iff a.GetModifiedFee a.GetModFeesWithAncestors _ _ hs' hsw'
  have key2 := ratio_le_iff a.GetModFeesWithAncestors a.GetModifiedFee _ _ hsw' hs'
  simp only [Int.cast_natCast] at key key2
  unfold GetModFeeAndSizeExact ancestorScore
  simp only
  split
  · rename_i h
    simp only [Int.cast_natCast]
    rw [min_eq_right]
    apply key2.mpr
    linarith [mul_comm a.GetModifiedFee (V.GetVirtualSizeWithAncestors a : Int)]
  · rename_i h
    simp only [Int.cast_natCast]
    rw [min_eq_left]
    apply key.mpr
    linarith [mul_comm a.GetModifiedFee (V.GetVirtualSizeWithAncestors a : Int)]

end CompareTxMemPoolEntryByAncestorFee

/-! ## The comparisons made by the score comparators -/

theorem descendant_call_eq_callExact (V : VirtualSizes) (a b : CTxMemPoolEntry)
    (hfa : 0 ≤ a.GetModifiedFee) (hfwa : 0 ≤ a.GetModFeesWithDescendants)
    (hfb : 0 ≤ b.GetModifiedFee) (hfwb : 0 ≤ b.GetModFeesWithDescendants)
    (hex : CompareTxMemPoolEntryByDescendantScore.ExactProducts V a b) :
    CompareTxMemPoolEntryByDescendantScore.call V a b =
      CompareTxMemPoolEntryByDescendantScore.callExact V a b := by
  obtain ⟨ha, hb, c1, c2⟩ := hex
  have ea := CompareTxMemPoolEntryByDescendantScore.descendant_GetModFeeAndSize_eq_exact
    V a hfa hfwa ha
  have eb := CompareTxMemPoolEntryByDescendantScore.descendant_GetModFeeAndSize_eq_exact
    V b hfb hfwb hb
  rw [ea, eb] at c1 c2
  unfold ExactDouble at c1 c2
  unfold CompareTxMemPoolEntryByDescendantScore.call
    CompareTxMemPoolEntryByDescendantScore.callExact
  simp only [ea, eb, doubleMul, c1, c2]

theorem descendant_callExact_spec (V : VirtualSizes) (a b : CTxMemPoolEntry)
    (hsa : 0 < V.GetTxVirtualSize a) (hswa : 0 < V.GetVirtualSizeWithDescendants a)
    (hsb : 0 < V.GetTxVirtualSize b) (hswb : 0 < V.GetVirtualSizeWithDescendants b) :
    (descendantScore V a < descendantScore V b →
      CompareTxMemPoolEntryByDescendantScore.callExact V a b = true) ∧
    (descendantScore V b < descendantScore V a →
      CompareTxMemPoolEntryByDescendantScore.callExact V a b = false) ∧
    (descendantScore V a = descendantScore V b →
      (CompareTxMemPoolEntryByDescendantScore.callExact V a b = true ↔
        a.GetTime ≥ b.GetTime)) := by
  have pa := CompareTxMemPoolEntryByDescendantScore.descendant_exact_size_pos V a hsa hswa
  have pb := CompareTxMemPoolEntryByDescendantScore.descendant_exact_size_pos V b hsb hswb
  have ra := CompareTxMemPoolEntryByDescendantScore.descendant_exact_ratio V a hsa hswa
  have rb := CompareTxMemPoolEntryByDescendantScore.descendant_exact_ratio V b hsb hswb
  have hlt := ratio_lt_iff (CompareTxMemPoolEntryByDescendantScore.GetModFeeAndSizeExact V a).1
    (CompareTxMemPoolEntryByDescendantScore.GetModFeeAndSizeExact V b).1 _ _ pa pb
  have hgt := ratio_lt_iff (CompareTxMemPoolEntryByDescendantScore.GetModFeeAndSizeExact V b).1
    (CompareTxMemPoolEntryByDescendantScore.GetModFeeAndSizeExact V a).1 _ _ pb pa
  have heq := ratio_eq_iff (CompareTxMemPoolEntryByDescendantScore.GetModFeeAndSizeExact V a).1
    (CompareTxMemPoolEntryByDescendantScore.GetModFeeAndSizeExact V b).1 _ _ pa pb
  rw [ra, rb] at hlt heq
  rw [ra, rb] at hgt
  unfold CompareTxMemPoolEntryByDescendantScore.callExact
  simp only
  refine ⟨?_, ?_, ?_⟩
  · intro h
    have h1 := hlt.mp h
    rw [if_neg (ne_of_lt h1)]
    exact decide_eq_true h1
  · intro h
    have h1 := hgt.mp h
    have h2 : (CompareTxMemPoolEntryByDescendantScore.GetModFeeAndSizeExact V a).2 *
        (CompareTxMemPoolEntryByDescendantScore.GetModFeeAndSizeExact V b).1 <
        (CompareTxMemPoolEntryByDescendantScore.GetModFeeAndSizeExact V a).1 *
        (CompareTxMemPoolEntryByDescendantScore.GetModFeeAndSizeExact V b).2 := by
      linarith [mul_comm (CompareTxMemPoolEntryByDescendantScore.GetModFeeAndSizeExact V a).2
          (CompareTxMemPoolEntryByDescendantScore.GetModFeeAndSizeExact V b).1,
        mul_comm (CompareTxMemPoolEntryByDescendantScore.GetModFeeAndSizeExact V a).1
          (CompareTxMemPoolEntryByDescendantScore.GetModFeeAndSizeExact V b).2]
    rw [if_neg (ne_of_gt h2)]
    exact decide_eq_false (not_lt.mpr (le_of_lt h2))
  · intro h
    have h1 := heq.mp h
    rw [if_pos h1]
    exact decide_eq_true_iff

theorem ancestor_call_eq_callExact (V : VirtualSizes) (a b : CTxMemPoolEntry)
    (hfa : 0 ≤ a.GetModifiedFee) (hfwa : 0 ≤ a.GetModFeesWithAncestors)
    (hfb : 0 ≤ b.GetModifiedFee) (hfwb : 0 ≤ b.GetModFeesWithAncestors)
    (hex : CompareTxMemPoolEntryByAncestorFee.ExactProducts V a b) :
    CompareTxMemPoolEntryByAncestorFee.call V a b =
      CompareTxMemPoolEntryByAncestorFee.callExact V a b := by
  obtain ⟨ha, hb, c1, c2⟩ := hex
  have ea := CompareTxMemPoolEntryByAncestorFee.ancestor_GetModFeeAndSize_eq_exact
    V a hfa hfwa ha
  have eb := CompareTxMemPoolEntryByAncestorFee.ancestor_GetModFeeAndSize_eq_exact
    V b hfb hfwb hb
  rw [ea, eb] at c1 c2
  unfold ExactDouble at c1 c2
  unfold CompareTxMemPoolEntryByAncestorFee.call
    CompareTxMemPoolEntryByAncestorFee.callExact
  simp only [ea, eb, doubleMul, c1, c2]

theorem ancestor_callExact_spec (V : VirtualSizes) (a b : CTxMemPoolEntry)
    (hsa : 0 < V.GetTxVirtualSize a) (hswa : 0 < V.GetVirtualSizeWithAncestors a)
    (hsb : 0 < V.GetTxVirtualSize b) (hswb : 0 < V.GetVirtualSizeWithAncestors b) :
    (ancestorScore V b < ancestorScore V a →
      CompareTxMemPoolEntryByAncestorFee.callExact V a b = true) ∧
    (ancestorScore V a < ancestorScore V b →
      CompareTxMemPoolEntryByAncestorFee.callExact V a b = false) ∧
    (ancestorScore V a = ancestorScore V b →
      (CompareTxMemPoolEntryByAncestorFee.callExact V a b = true ↔
        a.GetTx.id < b.GetTx.id)) := by
  have pa := CompareTxMemPoolEntryByAncestorFee.ancestor_exact_size_pos V a hsa hswa
  have pb := CompareTxMemPoolEntryByAncestorFee.ancestor_exact_size_pos V b hsb hswb
  have ra := CompareTxMemPoolEntryByAncestorFee.ancestor_exact_ratio V a hsa hswa
  have rb := CompareTxMemPoolEntryByAncestorFee.ancestor_exact_ratio V b hsb hswb
  have hlt := ratio_lt_iff (CompareTxMemPoolEntryByAncestorFee.GetModFeeAndSizeExact V a).1
    (CompareTxMemPoolEntryByAncestorFee.GetModFeeAndSizeExact V b).1 _ _ pa pb
  have hgt := ratio_lt_iff (CompareTxMemPoolEntryByAncestorFee.GetModFeeAndSizeExact V b).1
    (CompareTxMemPoolEntryByAncestorFee.GetModFeeAndSizeExact V a).1 _ _ pb pa
  have heq := ratio_eq_iff (CompareTxMemPoolEntryByAncestorFee.GetModFeeAndSizeExact V a).1
    (CompareTxMemPoolEntryByAncestorFee.GetModFeeAndSizeExact V b).1 _ _ pa pb
  rw [ra, rb] at hlt heq
  rw [ra, rb] at hgt
  unfold CompareTxMemPoolEntryByAncestorFee.callExact
  simp only
  refine ⟨?_, ?_, ?_⟩
  · intro h
    have h1 := hgt.mp h
    have h2 : (CompareTxMemPoolEntryByAncestorFee.GetModFeeAndSizeExact V a).2 *
        (CompareTxMemPoolEntryByAncestorFee.GetModFeeAndSizeExact V b).1 <
        (CompareTxMemPoolEntryByAncestorFee.GetModFeeAndSizeExact V a).1 *
        (CompareTxMemPoolEntryByAncestorFee.GetModFeeAndSizeExact V b).2 := by
      linarith [mul_comm (CompareTxMemPoolEntryByAncestorFee.GetModFeeAndSizeExact V a).2
          (CompareTxMemPoolEntryByAncestorFee.GetModFeeAndSizeExact V b).1,
        mul_comm (CompareTxMemPoolEntryByAncestorFee.GetModFeeAndSizeExact V a).1
          (CompareTxMemPoolEntryByAncestorFee.GetModFeeAndSizeExact V b).2]
    rw [if_neg (ne_of_gt h2)]
    exact decide_eq_true h2
  · intro h
    have h1 := hlt.mp h
    rw [if_neg (ne_of_lt h1)]
    exact decide_eq_false (not_lt.mpr (le_of_lt h1))
  · intro h
    have h1 := heq.mp h
    rw [if_pos h1]
    exact decide_eq_true_iff

/-! ## Claims on `GetModFeeAndSize` -/

section Claims

open CTxMemPoolEntry

/-- C1 (amended). For every entry with positive virtual size, positive virtual
size with descendants and non-negative modified fees, whose two products fit
into 64 bits and are, like the fees and the sizes, held exactly by a `double`,
`CompareTxMemPoolEntryByDescendantScore::GetModFeeAndSize` returns a
`(fee, size)` pair whose ratio is the maximum of modified-fee / virtual-size and
modified-fee-with-descendants / virtual-size-with-descendants.  For fee 1000,
size 100, with-descendants fee 3500 and size 300 it returns `(3500, 300)`. -/
theorem descendant_GetModFeeAndSize_max :
    (∀ (V : VirtualSizes) (a : CTxMemPoolEntry),
      0 < V.GetTxVirtualSize a → 0 < V.GetVirtualSizeWithDescendants a →
      0 ≤ a.GetModifiedFee → 0 ≤ a.GetModFeesWithDescendants → DescendantExact V a →
      ((CompareTxMemPoolEntryByDescendantScore.GetModFeeAndSize V a).1 : ℚ) /
        ((CompareTxMemPoolEntryByDescendantScore.GetModFeeAndSize V a).2 : ℚ) =
        max ((a.GetModifiedFee : ℚ) / (V.GetTxVirtualSize a : ℚ))
          ((a.GetModFeesWithDescendants : ℚ) / (V.GetVirtualSizeWithDescendants a : ℚ))) ∧
    CompareTxMemPoolEntryByDescendantScore.GetModFeeAndSize plainSizes chainEntryA =
      (3500, 300) := by
  refine ⟨?_, by decide⟩
  intro V a hs hsw hf hfw hex
  rw [CompareTxMemPoolEntryByDescendantScore.descendant_GetModFeeAndSize_eq_exact V a hf hfw hex]
  exact CompareTxMemPoolEntryByDescendantScore.descendant_exact_ratio V a hs hsw

/-- Witness for C1: the hypotheses hold at entry A of the chain scenario, whose
pair has ratio `max (1000 / 100) (3500 / 300)`. -/
theorem descendant_GetModFeeAndSize_max_witness :
    DescendantExact plainSizes chainEntryA ∧
    ((CompareTxMemPoolEntryByDescendantScore.GetModFeeAndSize plainSizes chainEntryA).1 : ℚ) /
      ((CompareTxMemPoolEntryByDescendantScore.GetModFeeAndSize plainSizes chainEntryA).2 : ℚ) =
      max ((chainEntryA.GetModifiedFee : ℚ) / (plainSizes.GetTxVirtualSize chainEntryA : ℚ))
        ((chainEntryA.GetModFeesWithDescendants : ℚ) /
          (plainSizes.GetVirtualSizeWithDescendants chainEntryA : ℚ)) :=
  ⟨by decide,
    descendant_GetModFeeAndSize_max.1 plainSizes chainEntryA (by decide) (by decide)
      (by decide) (by decide) (by decide)⟩

/-- C1 as stated fails.  The entry with virtual size 3, modified fee `2 ^ 51`,
virtual size with descendants 4 and modified fee with descendants
3002399751580331 has positive sizes, non-negative fees and both products below
`2 ^ 64` (they are `2 ^ 53` and `2 ^ 53 + 1`).  Both products convert to the
double `2 ^ 53`, so `f2 > f1` is false and the entry's own pair `(2 ^ 51, 3)` is
returned, although the ratio with descendants is the larger one. -/
theorem descendant_GetModFeeAndSize_rounds :
    0 < plainSizes.GetTxVirtualSize roundedDescendantEntry ∧
    0 < plainSizes.GetVirtualSizeWithDescendants roundedDescendantEntry ∧
    0 ≤ roundedDescendantEntry.GetModifiedFee ∧
    0 ≤ roundedDescendantEntry.GetModFeesWithDescendants ∧
    (plainSizes.GetVirtualSizeWithDescendants roundedDescendantEntry : Int) *
      roundedDescendantEntry.GetModifiedFee < 2 ^ 64 ∧
    (plainSizes.GetTxVirtualSize roundedDescendantEntry : Int) *
      roundedDescendantEntry.GetModFeesWithDescendants < 2 ^ 64 ∧
    CompareTxMemPoolEntryByDescendantScore.GetModFeeAndSize plainSizes roundedDescendantEntry =
      (2 ^ 51, 3) ∧
    ((2 ^ 51 : Int) : ℚ) / ((3 : Int) : ℚ) <
      max ((roundedDescendantEntry.GetModifiedFee : ℚ) /
          (plainSizes.GetTxVirtualSize roundedDescendantEntry : ℚ))
        ((roundedDescendantEntry.GetModFeesWithDescendants : ℚ) /
          (plainSizes.GetVirtualSizeWithDescendants roundedDescendantEntry : ℚ)) := by
  refine ⟨by decide, by decide, by decide, by decide, by decide, by decide, by decide, ?_⟩
  have h1 : roundedDescendantEntry.GetModFeesWithDescendants = 3002399751580331 := by decide
  have h2 : plainSizes.GetVirtualSizeWithDescendants roundedDescendantEntry = 4 := by decide
  rw [h1, h2]
  apply lt_max_of_lt_right
  norm_num

/-- C2 (amended). For every entry with positive virtual size, positive virtual
size with ancestors and non-negative modified fees, whose two products fit into
64 bits and are, like the fees and the sizes, held exactly by a `double`,
`CompareTxMemPoolEntryByAncestorFee::GetModFeeAndSize` returns a `(fee, size)`
pair whose ratio is the minimum of modified-fee / virtual-size and
modified-fee-with-ancestors / virtual-size-with-ancestors.  For fee 500, size
100, with-ancestors fee 3500 and size 300 it returns `(500, 100)`. -/
theorem ancestor_GetModFeeAndSize_min :
    (∀ (V : VirtualSizes) (a : CTxMemPoolEntry),
      0 < V.GetTxVirtualSize a → 0 < V.GetVirtualSizeWithAncestors a →
      0 ≤ a.GetModifiedFee → 0 ≤ a.GetModFeesWithAncestors → AncestorExact V a →
      ((CompareTxMemPoolEntryByAncestorFee.GetModFeeAndSize V a).1 : ℚ) /
        ((CompareTxMemPoolEntryByAncestorFee.GetModFeeAndSize V a).2 : ℚ) =
        min ((a.GetModifiedFee : ℚ) / (V.GetTxVirtualSize a : ℚ))
          ((a.GetModFeesWithAncestors : ℚ) / (V.GetVirtualSizeWithAncestors a : ℚ))) ∧
    CompareTxMemPoolEntryByAncestorFee.GetModFeeAndSize plainSizes chainEntryC =
      (500, 100) := by
  refine ⟨?_, by decide⟩
  intro V a hs hsw hf hfw hex
  rw [CompareTxMemPoolEntryByAncestorFee.ancestor_GetModFeeAndSize_eq_exact V a hf hfw hex]
  exact CompareTxMemPoolEntryByAncestorFee.ancestor_exact_ratio V a hs hsw

/-- Witness for C2: the hypotheses hold at entry C of the chain scenario, whose
pair has ratio `min (500 / 100) (3500 / 300)`. -/
theorem ancestor_GetModFeeAndSize_min_witness :
    AncestorExact plainSizes chainEntryC ∧
    ((CompareTxMemPoolEntryByAncestorFee.GetModFeeAndSize plainSizes chainEntryC).1 : ℚ) /
      ((CompareTxMemPoolEntryByAncestorFee.GetModFeeAndSize plainSizes chainEntryC).2 : ℚ) =
      min ((chainEntryC.GetModifiedFee : ℚ) / (plainSizes.GetTxVirtualSize chainEntryC : ℚ))
        ((chainEntryC.GetModFeesWithAncestors : ℚ) /
          (plainSizes.GetVirtualSizeWithAncestors chainEntryC : ℚ)) :=
  ⟨by decide,
    ancestor_GetModFeeAndSize_min.1 plainSizes chainEntryC (by decide) (by decide)
      (by decide) (by decide) (by decide)⟩

/-- C2 as stated fails.  The entry with virtual size 2, modified fee
3002399751580331, virtual size with ancestors 3 and modified fee with ancestors
`2 ^ 52` has positive sizes, non-negative fees and both products below `2 ^ 64`
(they are `2 ^ 53 + 1` and `2 ^ 53`).  Both products convert to the double
`2 ^ 53`, so `f1 > f2` is false and the entry's own pair is returned, although
the ratio with ancestors is the smaller one. -/
theorem ancestor_GetModFeeAndSize_rounds :
    0 < plainSizes.GetTxVirtualSize roundedAncestorEntry ∧
    0 < plainSizes.GetVirtualSizeWithAncestors roundedAncestorEntry ∧
    0 ≤ roundedAncestorEntry.GetModifiedFee ∧
    0 ≤ roundedAncestorEntry.GetModFeesWithAncestors ∧
    (plainSizes.GetVirtualSizeWithAncestors roundedAncestorEntry : Int) *
      roundedAncestorEntry.GetModifiedFee < 2 ^ 64 ∧
    (plainSizes.GetTxVirtualSize roundedAncestorEntry : Int) *
      roundedAncestorEntry.GetModFeesWithAncestors < 2 ^ 64 ∧
    CompareTxMemPoolEntryByAncestorFee.GetModFeeAndSize plainSizes roundedAncestorEntry =
      (3002399751580331, 2) ∧
    min ((roundedAncestorEntry.GetModifiedFee : ℚ) /
          (plainSizes.GetTxVirtualSize roundedAncestorEntry : ℚ))
        ((roundedAncestorEntry.GetModFeesWithAncestors : ℚ) /
          (plainSizes.GetVirtualSizeWithAncestors roundedAncestorEntry : ℚ)) <
      ((3002399751580331 : Int) : ℚ) / ((2 : Int) : ℚ) := by
  refine ⟨by decide, by decide, by decide, by decide, by decide, by decide, by decide, ?_⟩
  have h1 : roundedAncestorEntry.GetModFeesWithAncestors = 2 ^ 52 := by decide
  have h2 : plainSizes.GetVirtualSizeWithAncestors roundedAncestorEntry = 3 := by decide
  rw [h1, h2]
  apply min_lt_of_right_lt
  norm_num

/-! ## Claims on the comparators -/

/-- C3. For all entries `a` and `b` with positive virtual sizes, non-negative
modified fees and exact products, `CompareTxMemPoolEntryByDescendantScore(a, b)`
is true when the descendant score of `a` is strictly lower than that of `b`,
false when it is strictly higher, and when the two scores are equal it is true
exactly when the entry time of `a` is greater than or equal to that of `b`. -/
theorem descendant_compare_by_score (V : VirtualSizes) (a b : CTxMemPoolEntry)
    (hsa : 0 < V.GetTxVirtualSize a) (hswa : 0 < V.GetVirtualSizeWithDescendants a)
    (hsb : 0 < V.GetTxVirtualSize b) (hswb : 0 < V.GetVirtualSizeWithDescendants b)
    (hfa : 0 ≤ a.GetModifiedFee) (hfwa : 0 ≤ a.GetModFeesWithDescendants)
    (hfb : 0 ≤ b.GetModifiedFee) (hfwb : 0 ≤ b.GetModFeesWithDescendants)
    (hex : CompareTxMemPoolEntryByDescendantScore.ExactProducts V a b) :
    (descendantScore V a < descendantScore V b →
      CompareTxMemPoolEntryByDescendantScore.call V a b = true) ∧
    (descendantScore V b < descendantScore V a →
      CompareTxMemPoolEntryByDescendantScore.call V a b = false) ∧
    (descendantScore V a = descendantScore V b →
      (CompareTxMemPoolEntryByDescendantScore.call V a b = true ↔
        a.GetTime ≥ b.GetTime)) := by
  rw [descendant_call_eq_callExact V a b hfa hfwa hfb hfwb hex]
  exact descendant_callExact_spec V a b hsa hswa hsb hswb

/-- Witness for C3: entries C and A of the chain scenario, seen by the
descendant-score comparator. -/
theorem descendant_compare_by_score_witness :
    CompareTxMemPoolEntryByDescendantScore.ExactProducts plainSizes chainEntryC chainEntryA ∧
    ((descendantScore plainSizes chainEntryC < descendantScore plainSizes chainEntryA →
      CompareTxMemPoolEntryByDescendantScore.call plainSizes chainEntryC chainEntryA = true) ∧
    (descendantScore plainSizes chainEntryA < descendantScore plainSizes chainEntryC →
      CompareTxMemPoolEntryByDescendantScore.call plainSizes chainEntryC chainEntryA = false) ∧
    (descendantScore plainSizes chainEntryC = descendantScore plainSizes chainEntryA →
      (CompareTxMemPoolEntryByDescendantScore.call plainSizes chainEntryC chainEntryA = true ↔
        chainEntryC.GetTime ≥ chainEntryA.GetTime))) :=
  ⟨by decide,
    descendant_compare_by_score plainSizes chainEntryC chainEntryA (by decide) (by decide)
      (by decide) (by decide) (by decide) (by decide) (by decide) (by decide) (by decide)⟩

/-- C4. For all entries `a` and `b` with positive virtual sizes, non-negative
modified fees and exact products, `CompareTxMemPoolEntryByAncestorFee(a, b)` is
true when the ancestor score of `a` is strictly higher than that of `b`, false
when it is strictly lower, and when the two scores are equal it is true exactly
when the txid of `a` is less than the txid of `b`. -/
theorem ancestor_compare_by_score (V : VirtualSizes) (a b : CTxMemPoolEntry)
    (hsa : 0 < V.GetTxVirtualSize a) (hswa : 0 < V.GetVirtualSizeWithAncestors a)
    (hsb : 0 < V.GetTxVirtualSize b) (hswb : 0 < V.GetVirtualSizeWithAncestors b)
    (hfa : 0 ≤ a.GetModifiedFee) (hfwa : 0 ≤ a.GetModFeesWithAncestors)
    (hfb : 0 ≤ b.GetModifiedFee) (hfwb : 0 ≤ b.GetModFeesWithAncestors)
    (hex : CompareTxMemPoolEntryByAncestorFee.ExactProducts V a b) :
    (ancestorScore V b < ancestorScore V a →
      CompareTxMemPoolEntryByAncestorFee.call V a b = true) ∧
    (ancestorScore V a < ancestorScore V b →
      CompareTxMemPoolEntryByAncestorFee.call V a b = false) ∧
    (ancestorScore V a = ancestorScore V b →
      (CompareTxMemPoolEntryByAncestorFee.call V a b = true ↔
        a.GetTx.id < b.GetTx.id)) := by
  rw [ancestor_call_eq_callExact V a b hfa hfwa hfb hfwb hex]
  exact ancestor_callExact_spec V a b hsa hswa hsb hswb

/-- Witness for C4: entries A and C of the chain scenario, seen by the
ancestor-score comparator. -/
theorem ancestor_compare_by_score_witness :
    CompareTxMemPoolEntryByAncestorFee.ExactProducts plainSizes chainEntryA chainEntryC ∧
    ((ancestorScore plainSizes chainEntryC < ancestorScore plainSizes chainEntryA →
      CompareTxMemPoolEntryByAncestorFee.call plainSizes chainEntryA chainEntryC = true) ∧
    (ancestorScore plainSizes chainEntryA < ancestorScore plainSizes chainEntryC →
      CompareTxMemPoolEntryByAncestorFee.call plainSizes chainEntryA chainEntryC = false) ∧
    (ancestorScore plainSizes chainEntryA = ancestorScore plainSizes chainEntryC →
      (CompareTxMemPoolEntryByAncestorFee.call plainSizes chainEntryA chainEntryC = true ↔
        chainEntryA.GetTx.id < chainEntryC.GetTx.id))) :=
  ⟨by decide,
    ancestor_compare_by_score plainSizes chainEntryA chainEntryC (by decide) (by decide)
      (by decide) (by decide) (by decide) (by decide) (by decide) (by decide) (by decide)⟩

/-- C5 (amended). For all entries `a` and `b` with positive transaction sizes
and non-negative base fees, whose two products `size(b) * fee(a)` and
`size(a) * fee(b)` fit into 64 bits and are held exactly by a `double`,
`CompareTxMemPoolEntryByScore(a, b)` is true when base-fee(a)/size(a) is greater
than base-fee(b)/size(b), false when it is smaller, and when the two feerates
are equal it is true exactly when the txid of `a` is greater than that of
`b`. -/
theorem relay_compare_by_score (a b : CTxMemPoolEntry)
    (hsa : 0 < a.GetTxSize) (hsb : 0 < b.GetTxSize)
    (hfa : 0 ≤ a.GetFee) (hfb : 0 ≤ b.GetFee)
    (hex : CompareTxMemPoolEntryByScore.ExactProducts a b) :
    (relayScore b < relayScore a → CompareTxMemPoolEntryByScore.call a b = true) ∧
    (relayScore a < relayScore b → CompareTxMemPoolEntryByScore.call a b = false) ∧
    (relayScore a = relayScore b →
      (CompareTxMemPoolEntryByScore.call a b = true ↔ b.GetTx.id < a.GetTx.id)) := by
  obtain ⟨h1, h2, e1, e2⟩ := hex
  have pa : (0 : Int) < (a.GetTxSize : Int) := by exact_mod_cast hsa
  have pb : (0 : Int) < (b.GetTxSize : Int) := by exact_mod_cast hsb
  have hlt := ratio_lt_iff a.GetFee b.GetFee _ _ pa pb
  have hgt := ratio_lt_iff b.GetFee a.GetFee _ _ pb pa
  have heq := ratio_eq_iff a.GetFee b.GetFee _ _ pa pb
  simp only [Int.cast_natCast] at hlt hgt heq
  unfold ExactDouble at e1 e2
  unfold CompareTxMemPoolEntryByScore.call relayScore
  simp only [Amount_div_SATOSHI, doubleOfUInt64, mulUInt64_of_nonneg _ _ hfa h1,
    mulUInt64_of_nonneg _ _ hfb h2, e1, e2]
  refine ⟨?_, ?_, ?_⟩
  · intro h
    have h3 := hgt.mp h
    have h4 : (a.GetTxSize : Int) * b.GetFee < (b.GetTxSize : Int) * a.GetFee := by
      linarith [mul_comm b.GetFee (a.GetTxSize : Int)]
    rw [if_neg (ne_of_gt h4)]
    exact decide_eq_true h4
  · intro h
    have h3 := hlt.mp h
    have h4 : (b.GetTxSize : Int) * a.GetFee < (a.GetTxSize : Int) * b.GetFee := by
      linarith [mul_comm a.GetFee (b.GetTxSize : Int)]
    rw [if_neg (ne_of_lt h4)]
    exact decide_eq_false (not_lt.mpr (le_of_lt h4))
  · intro h
    have h3 := heq.mp h
    have h4 : (b.GetTxSize : Int) * a.GetFee = (a.GetTxSize : Int) * b.GetFee := by
      linarith [mul_comm a.GetFee (b.GetTxSize : Int)]
    rw [if_pos h4]
    exact decide_eq_true_iff

/-- Witness for C5: entries A and C of the chain scenario, seen by the relay
comparator. -/
theorem relay_compare_by_score_witness :
    CompareTxMemPoolEntryByScore.ExactProducts chainEntryA chainEntryC ∧
    ((relayScore chainEntryC < relayScore chainEntryA →
      CompareTxMemPoolEntryByScore.call chainEntryA chainEntryC = true) ∧
    (relayScore chainEntryA < relayScore chainEntryC →
      CompareTxMemPoolEntryByScore.call chainEntryA chainEntryC = false) ∧
    (relayScore chainEntryA = relayScore chainEntryC →
      (CompareTxMemPoolEntryByScore.call chainEntryA chainEntryC = true ↔
        chainEntryC.GetTx.id < chainEntryA.GetTx.id))) :=
  ⟨by decide,
    relay_compare_by_score chainEntryA chainEntryC (by decide) (by decide) (by decide)
      (by decide) (by decide)⟩

/-- C5 as stated fails.  Entry `a` has base fee `2 ^ 53 + 1`, entry `b` has base
fee `2 ^ 53`, both have size 1, and the txid of `a` is the smaller one.  The
feerate of `a` is the greater, but the two products are the same double
`2 ^ 53`, so the comparator falls to the txid tie-break and returns false. -/
theorem relay_compare_rounds :
    0 < relayEntryHigh.GetTxSize ∧ 0 < relayEntryLow.GetTxSize ∧
    relayScore relayEntryLow < relayScore relayEntryHigh ∧
    CompareTxMemPoolEntryByScore.call relayEntryHigh relayEntryLow = false := by
  refine ⟨by decide, by decide, ?_, by decide⟩
  have h1 : relayEntryLow.GetFee = 2 ^ 53 := by decide
  have h2 : relayEntryHigh.GetFee = 2 ^ 53 + 1 := by decide
  have h3 : relayEntryLow.GetTxSize = 1 := by decide
  have h4 : relayEntryHigh.GetTxSize = 1 := by decide
  unfold relayScore
  rw [h1, h2, h3, h4]
  norm_num

/-- C6. The relay comparator does not leak prioritisation: for entries `a`, `b`
and entries `a'`, `b'` that differ from them only in the fee delta and in the
ancestor and descendant aggregates,
`CompareTxMemPoolEntryByScore(a, b) = CompareTxMemPoolEntryByScore(a', b')`. -/
theorem relay_compare_ignores_priority (a b a' b' : CTxMemPoolEntry)
    (ha : SameUpToPriority a a') (hb : SameUpToPriority b b') :
    CompareTxMemPoolEntryByScore.call a b = CompareTxMemPoolEntryByScore.call a' b' := by
  obtain ⟨a1, -, -, a4, a5, -⟩ := ha
  obtain ⟨b1, -, -, b4, b5, -⟩ := hb
  unfold CompareTxMemPoolEntryByScore.call GetFee GetTxSize GetTx
  rw [a1, a4, a5, b1, b4, b5]

/-- Witness for C6: entries A and C of the chain scenario before and after the
operator has changed their fee deltas. -/
theorem relay_compare_ignores_priority_witness :
    SameUpToPriority chainEntryA chainEntryAPrioritised ∧
    SameUpToPriority chainEntryC chainEntryCPrioritised ∧
    chainEntryA.GetModifiedFee ≠ chainEntryAPrioritised.GetModifiedFee ∧
    CompareTxMemPoolEntryByScore.call chainEntryA chainEntryC =
      CompareTxMemPoolEntryByScore.call chainEntryAPrioritised chainEntryCPrioritised :=
  ⟨by decide, by decide, by decide,
    relay_compare_ignores_priority chainEntryA chainEntryC chainEntryAPrioritised
      chainEntryCPrioritised (by decide) (by decide)⟩

/-- C7 (amended). For every pair of entries with non-negative modified fees
whose products are computed exactly (they fit into 64 bits and are held exactly
by a `double`, as every product up to `2 ^ 53` is), the result of
`CompareTxMemPoolEntryByDescendantScore` and of
`CompareTxMemPoolEntryByAncestorFee` equals the result obtained by comparing the
same cross-products exactly. -/
theorem score_comparators_exact (V : VirtualSizes) (a b : CTxMemPoolEntry)
    (hfa : 0 ≤ a.GetModifiedFee) (hfb : 0 ≤ b.GetModifiedFee)
    (hda : 0 ≤ a.GetModFeesWithDescendants) (hdb : 0 ≤ b.GetModFeesWithDescendants)
    (haa : 0 ≤ a.GetModFeesWithAncestors) (hab : 0 ≤ b.GetModFeesWithAncestors)
    (hexd : CompareTxMemPoolEntryByDescendantScore.ExactProducts V a b)
    (hexa : CompareTxMemPoolEntryByAncestorFee.ExactProducts V a b) :
    CompareTxMemPoolEntryByDescendantScore.call V a b =
      CompareTxMemPoolEntryByDescendantScore.callExact V a b ∧
    CompareTxMemPoolEntryByAncestorFee.call V a b =
      CompareTxMemPoolEntryByAncestorFee.callExact V a b :=
  ⟨descendant_call_eq_callExact V a b hfa hda hfb hdb hexd,
    ancestor_call_eq_callExact V a b hfa haa hfb hab hexa⟩

/-- Witness for C7: entries A and C of the chain scenario. -/
theorem score_comparators_exact_witness :
    CompareTxMemPoolEntryByDescendantScore.ExactProducts plainSizes chainEntryA chainEntryC ∧
    CompareTxMemPoolEntryByAncestorFee.ExactProducts plainSizes chainEntryA chainEntryC ∧
    CompareTxMemPoolEntryByDescendantScore.call plainSizes chainEntryA chainEntryC =
      CompareTxMemPoolEntryByDescendantScore.callExact plainSizes chainEntryA chainEntryC ∧
    CompareTxMemPoolEntryByAncestorFee.call plainSizes chainEntryA chainEntryC =
      CompareTxMemPoolEntryByAncestorFee.callExact plainSizes chainEntryA chainEntryC :=
  ⟨by decide, by decide,
    score_comparators_exact plainSizes chainEntryA chainEntryC (by decide) (by decide)
      (by decide) (by decide) (by decide) (by decide) (by decide) (by decide)⟩

/-- C7 as stated fails.  Entry `a` (fee 3002399751580331, size 1, txid 2, time
1) and entry `b` (fee `2 ^ 53`, size 3, txid 1, time 0) have fees and sizes
within 64 bits and no in-pool relatives.  The exact cross-products are
`2 ^ 53 + 1` and `2 ^ 53`; in double precision both are `2 ^ 53`, so both
comparators fall to their tie-break and each returns the opposite of the exact
comparison. -/
theorem score_comparators_round :
    0 ≤ crossEntryA.GetModifiedFee ∧ crossEntryA.GetModifiedFee < 2 ^ 63 ∧
    0 ≤ crossEntryB.GetModifiedFee ∧ crossEntryB.GetModifiedFee < 2 ^ 63 ∧
    plainSizes.GetTxVirtualSize crossEntryA < 2 ^ 64 ∧
    plainSizes.GetTxVirtualSize crossEntryB < 2 ^ 64 ∧
    CompareTxMemPoolEntryByDescendantScore.call plainSizes crossEntryA crossEntryB = true ∧
    CompareTxMemPoolEntryByDescendantScore.callExact plainSizes crossEntryA crossEntryB = false ∧
    CompareTxMemPoolEntryByAncestorFee.call plainSizes crossEntryA crossEntryB = false ∧
    CompareTxMemPoolEntryByAncestorFee.callExact plainSizes crossEntryA crossEntryB = true := by
  refine ⟨by decide, by decide, by decide, by decide, by decide, by decide, by decide,
    by decide, by decide, by decide⟩

/-- C8, evaluated at the failing input.  The entry has modified fee -1000 and
virtual size 100; with descendants, and likewise with ancestors, the modified
fee is 2000 and the virtual size 200.  The product `200 * (-1000)` is formed in
`uint64_t` and is `2 ^ 64 - 200000`, which exceeds `100 * 2000`.  The descendant
comparator therefore returns the entry's own pair `(-1000, 100)`, the pair of
the smaller ratio, and the ancestor comparator returns `(2000, 200)`, the pair
of the larger ratio; the selections over the integers are the opposite ones. -/
theorem negative_fee_GetModFeeAndSize :
    negativeFeeEntry.GetModifiedFee = -1000 ∧
    mulUInt64 200 (-1000) = 2 ^ 64 - 200000 ∧
    CompareTxMemPoolEntryByDescendantScore.GetModFeeAndSize plainSizes negativeFeeEntry =
      (-1000, 100) ∧
    CompareTxMemPoolEntryByDescendantScore.GetModFeeAndSizeExact plainSizes negativeFeeEntry =
      (2000, 200) ∧
    CompareTxMemPoolEntryByAncestorFee.GetModFeeAndSize plainSizes negativeFeeEntry =
      (2000, 200) ∧
    CompareTxMemPoolEntryByAncestorFee.GetModFeeAndSizeExact plainSizes negativeFeeEntry =
      (-1000, 100) := by
  refine ⟨by decide, by decide, by decide, by decide, by decide, by decide⟩

/-- C9. For every entry `GetModifiedFee()` is the base fee plus the fee delta
and `GetFee()` is the base fee, whatever the fee delta is set to; a freshly
constructed entry has fee delta zero, so its modified fee is its base fee. -/
theorem modified_fee_is_fee_plus_delta :
    (∀ e : CTxMemPoolEntry, e.GetModifiedFee = e.GetFee + e.feeDelta) ∧
    (∀ (e : CTxMemPoolEntry) (d : Amount),
      GetFee { e with feeDelta := d } = e.nFee ∧
      GetModifiedFee { e with feeDelta := d } = e.nFee + d) ∧
    (∀ (tx : CTransaction) (fee : Amount) (txSize usageSize : Nat) (time : Int)
        (height : Nat) (spendsCoinbase : Bool) (sigchecks : Int) (lp : LockPoints),
      (create tx fee txSize usageSize time height spendsCoinbase sigchecks lp).feeDelta = 0 ∧
      (create tx fee txSize usageSize time height spendsCoinbase sigchecks lp).GetFee = fee ∧
      (create tx fee txSize usageSize time height spendsCoinbase sigchecks lp).GetModifiedFee =
        fee) := by
  refine ⟨fun e => rfl, fun e d => ⟨rfl, rfl⟩, ?_⟩
  intro tx fee txSize usageSize time height spendsCoinbase sigchecks lp
  refine ⟨rfl, rfl, ?_⟩
  simp [GetModifiedFee, create]

end Claims

/-! ## Lemmas on the dependency graph -/

section GraphLemmas

open CTxMemPool

theorem exists_iff (pool : CTxMemPool) (x : TxId) :
    pool.exists_ x = true ↔ ∃ e ∈ pool.mapTx, e.tx.id = x := by
  simp [CTxMemPool.exists_, List.any_eq_true]

theorem exists_iff_graph (pool : CTxMemPool) (x : TxId) :
    pool.exists_ x = true ↔ ∃ v ∈ graph pool, v.1 = x := by
  rw [exists_iff]
  simp [graph, linkView]

theorem wellLinked_iff_graph (pool : CTxMemPool) :
    (GraphSymmetric pool ∧ NoDangling pool) ↔ WellLinkedGraph (graph pool) := by
  unfold GraphSymmetric NoDangling WellLinkedGraph
  simp only [exists_iff_graph]
  simp [graph, linkView]

theorem wellLinked_of_graph_eq (Q Q' : CTxMemPool) (h : graph Q' = graph Q)
    (hw : GraphSymmetric Q ∧ NoDangling Q) : GraphSymmetric Q' ∧ NoDangling Q' := by
  rw [wellLinked_iff_graph] at hw ⊢
  rw [h]; exact hw

theorem graph_modify_of_links (pool : CTxMemPool) (it : TxId)
    (f : CTxMemPoolEntry → CTxMemPoolEntry) (hf : ∀ e, linkView (f e) = linkView e) :
    graph (pool.modify it f) = graph pool := by
  unfold graph CTxMemPool.modify
  simp only [List.map_map]
  apply List.map_congr_left
  intro e _
  simp only [Function.comp]
  split
  · exact hf e
  · rfl

theorem graph_foldl_modify_of_links (l : List TxId) (f : CTxMemPoolEntry → CTxMemPoolEntry)
    (hf : ∀ e, linkView (f e) = linkView e) (pool : CTxMemPool) :
    graph (l.foldl (fun p a => p.modify a f) pool) = graph pool := by
  induction l generalizing pool with
  | nil => rfl
  | cons a l ih =>
    simp only [List.foldl_cons]
    rw [ih, graph_modify_of_links pool a f hf]

theorem linkView_UpdateDescendantState (e : CTxMemPoolEntry) (a : Int) (b : Amount) (c d : Int) :
    linkView (e.UpdateDescendantState a b c d) = linkView e := rfl

theorem linkView_UpdateAncestorState (e : CTxMemPoolEntry) (a : Int) (b : Amount) (c d : Int) :
    linkView (e.UpdateAncestorState a b c d) = linkView e := rfl

theorem graph_addToAncestors (pool : CTxMemPool) (e : CTxMemPoolEntry) (l : List TxId) :
    graph (pool.addToAncestors e l) = graph pool :=
  graph_foldl_modify_of_links l _ (fun x => linkView_UpdateDescendantState x _ _ _ _) pool

theorem graph_UpdateEntryForAncestors (pool : CTxMemPool) (it : TxId) (l : List TxId) :
    graph (pool.UpdateEntryForAncestors it l) = graph pool :=
  graph_modify_of_links pool it _ (fun _ => rfl)

theorem graph_removeFromDescendants (stage : List TxId) (pool : CTxMemPool) (r : TxId) :
    graph (removeFromDescendants stage pool r) = graph pool := by
  unfold removeFromDescendants
  split
  · rfl
  · exact graph_foldl_modify_of_links _ _ (fun x => linkView_UpdateAncestorState x _ _ _ _) pool

theorem graph_removeFromAncestors (stage : List TxId) (pool : CTxMemPool) (r : TxId) :
    graph (removeFromAncestors stage pool r) = graph pool := by
  unfold removeFromAncestors
  split
  · rfl
  · exact graph_foldl_modify_of_links _ _ (fun x => linkView_UpdateDescendantState x _ _ _ _) pool

theorem graph_foldl_of_step (step : CTxMemPool → TxId → CTxMemPool)
    (h : ∀ p r, graph (step p r) = graph p) (l : List TxId) (pool : CTxMemPool) :
    graph (l.foldl step pool) = graph pool := by
  induction l generalizing pool with
  | nil => rfl
  | cons a l ih =>
    simp only [List.foldl_cons]
    rw [ih, h]

end GraphLemmas
section LinkLemmas

open CTxMemPool

theorem mem_setInsert (x y : TxId) (s : List TxId) : y ∈ setInsert x s ↔ y = x ∨ y ∈ s := by
  unfold setInsert
  split
  · constructor
    · intro h; exact Or.inr h
    · rintro (h | h)
      · subst h; assumption
      · exact h
  · simp

theorem mem_setErase (x y : TxId) (s : List TxId) : y ∈ setErase x s ↔ y ∈ s ∧ y ≠ x := by
  simp [setErase]

theorem graph_UpdateChild (Q : CTxMemPool) (entry child : TxId) (add : Bool) :
    graph (Q.UpdateChild entry child add) =
      (graph Q).map (fun v => (v.1, v.2.1,
        if v.1 = entry then (if add then setInsert child v.2.2 else setErase child v.2.2)
        else v.2.2)) := by
  unfold graph CTxMemPool.UpdateChild CTxMemPool.modify
  simp only [List.map_map]
  apply List.map_congr_left
  intro e _
  simp only [Function.comp]
  by_cases h : e.tx.id = entry
  · have h' : (linkView e).1 = entry := h
    rw [if_pos h, if_pos h']
    rfl
  · have h' : ¬ (linkView e).1 = entry := h
    rw [if_neg h, if_neg h']

theorem graph_UpdateParent (Q : CTxMemPool) (entry parent : TxId) (add : Bool) :
    graph (Q.UpdateParent entry parent add) =
      (graph Q).map (fun v => (v.1,
        (if v.1 = entry then (if add then setInsert parent v.2.1 else setErase parent v.2.1)
        else v.2.1), v.2.2)) := by
  unfold graph CTxMemPool.UpdateParent CTxMemPool.modify
  simp only [List.map_map]
  apply List.map_congr_left
  intro e _
  simp only [Function.comp]
  by_cases h : e.tx.id = entry
  · have h' : (linkView e).1 = entry := h
    rw [if_pos h, if_pos h']
    rfl
  · have h' : ¬ (linkView e).1 = entry := h
    rw [if_neg h, if_neg h']

theorem graph_link (Q : CTxMemPool) (it pit : TxId) :
    graph ((Q.UpdateChild pit it true).UpdateParent it pit true) =
      (graph Q).map (linkNode it pit) := by
  rw [graph_UpdateParent, graph_UpdateChild, List.map_map]
  apply List.map_congr_left
  intro v _
  simp [linkNode]

theorem wellLinkedGraph_link (G : List Node) (it pit : TxId)
    (hit : ∃ v ∈ G, v.1 = it) (hpit : ∃ v ∈ G, v.1 = pit) (hw : WellLinkedGraph G) :
    WellLinkedGraph (G.map (linkNode it pit)) := by
  obtain ⟨hs, hd⟩ := hw
  have hex : ∀ x, (∃ p ∈ G, p.1 = x) → ∃ p ∈ G.map (linkNode it pit), p.1 = x := by
    rintro x ⟨p, hp, rfl⟩
    exact ⟨linkNode it pit p, List.mem_map_of_mem _ hp, rfl⟩
  constructor
  · intro e he p hp
    rw [List.mem_map] at he hp
    obtain ⟨e0, he0, rfl⟩ := he
    obtain ⟨p0, hp0, rfl⟩ := hp
    have h := hs e0 he0 p0 hp0
    show p0.1 ∈ (if e0.1 = it then setInsert pit e0.2.1 else e0.2.1) ↔
      e0.1 ∈ (if p0.1 = pit then setInsert it p0.2.2 else p0.2.2)
    by_cases h1 : e0.1 = it
    · by_cases h2 : p0.1 = pit
      · rw [if_pos h1, if_pos h2, mem_setInsert, mem_setInsert]
        exact ⟨fun _ => Or.inl h1, fun _ => Or.inl h2⟩
      · rw [if_pos h1, if_neg h2, mem_setInsert]
        constructor
        · rintro (h3 | h3)
          · exact absurd h3 h2
          · exact h.mp h3
        · intro h3; exact Or.inr (h.mpr h3)
    · by_cases h2 : p0.1 = pit
      · rw [if_neg h1, if_pos h2, mem_setInsert]
        constructor
        · intro h3; exact Or.inr (h.mp h3)
        · rintro (h3 | h3)
          · exact absurd h3 h1
          · exact h.mpr h3
      · rw [if_neg h1, if_neg h2]
        exact h
  · intro e he
    rw [List.mem_map] at he
    obtain ⟨e0, he0, rfl⟩ := he
    obtain ⟨d1, d2⟩ := hd e0 he0
    constructor
    · intro x hx
      apply hex
      change x ∈ (if e0.1 = it then setInsert pit e0.2.1 else e0.2.1) at hx
      split at hx
      · rw [mem_setInsert] at hx
        rcases hx with rfl | hx
        · exact hpit
        · exact d1 x hx
      · exact d1 x hx
    · intro x hx
      apply hex
      change x ∈ (if e0.1 = pit then setInsert it e0.2.2 else e0.2.2) at hx
      split at hx
      · rw [mem_setInsert] at hx
        rcases hx with rfl | hx
        · exact hit
        · exact d2 x hx
      · exact d2 x hx

theorem ids_map_linkNode (G : List Node) (it pit : TxId) (x : TxId) :
    (∃ v ∈ G.map (linkNode it pit), v.1 = x) ↔ ∃ v ∈ G, v.1 = x := by
  constructor
  · rintro ⟨v, hv, rfl⟩
    rw [List.mem_map] at hv
    obtain ⟨v0, hv0, rfl⟩ := hv
    exact ⟨v0, hv0, rfl⟩
  · rintro ⟨v, hv, rfl⟩
    exact ⟨linkNode it pit v, List.mem_map_of_mem _ hv, rfl⟩

theorem wellLinked_linkParents (parents : List TxId) (it : TxId) (Q : CTxMemPool)
    (hit : Q.exists_ it = true) (hp : ∀ pit ∈ parents, Q.exists_ pit = true)
    (hw : WellLinkedGraph (graph Q)) :
    WellLinkedGraph (graph (Q.linkParents it parents)) ∧
      ∀ x, (Q.linkParents it parents).exists_ x = Q.exists_ x := by
  induction parents generalizing Q with
  | nil => exact ⟨hw, fun _ => rfl⟩
  | cons pit l ih =>
    unfold CTxMemPool.linkParents
    simp only [List.foldl_cons]
    have hg := graph_link Q it pit
    have hex : ∀ x, ((Q.UpdateChild pit it true).UpdateParent it pit true).exists_ x =
        Q.exists_ x := by
      intro x
      rw [Bool.eq_iff_iff, exists_iff_graph, exists_iff_graph, hg, ids_map_linkNode]
    have hit' := hit
    rw [exists_iff_graph] at hit'
    have hpit := hp pit (List.mem_cons_self _ _)
    rw [exists_iff_graph] at hpit
    have hw' : WellLinkedGraph (graph ((Q.UpdateChild pit it true).UpdateParent it pit true)) := by
      rw [hg]; exact wellLinkedGraph_link _ it pit hit' hpit hw
    have := ih ((Q.UpdateChild pit it true).UpdateParent it pit true)
      (by rw [hex]; exact hit)
      (fun q hq => by rw [hex]; exact hp q (List.mem_cons_of_mem _ hq)) hw'
    unfold CTxMemPool.linkParents at this
    refine ⟨this.1, fun x => ?_⟩
    rw [this.2 x, hex x]

end LinkLemmas
section InsertLemmas

open CTxMemPool

theorem wellLinked_insert (Q : CTxMemPool) (entry : CTxMemPoolEntry) (hu : entry.Unlinked)
    (hw : WellLinkedGraph (graph Q)) :
    WellLinkedGraph (graph (Q.insert entry)) ∧ (Q.insert entry).exists_ entry.tx.id = true := by
  unfold CTxMemPool.insert
  by_cases hex : Q.exists_ entry.tx.id = true
  · rw [if_pos hex]; exact ⟨hw, hex⟩
  · rw [if_neg hex]
    have hnew : ∀ v ∈ graph Q, v.1 ≠ entry.tx.id := by
      intro v hv h
      exact hex ((exists_iff_graph Q _).mpr ⟨v, hv, h⟩)
    have hg : graph { Q with mapTx := Q.mapTx ++ [entry] } =
        graph Q ++ [(entry.tx.id, [], [])] := by
      unfold graph
      simp only [List.map_append, List.map_cons, List.map_nil]
      congr 2
      unfold linkView
      rw [hu.1, hu.2]
    refine ⟨?_, ?_⟩
    · rw [hg]
      obtain ⟨hs, hd⟩ := hw
      constructor
      · intro e he p hp
        rw [List.mem_append, List.mem_singleton] at he hp
        rcases he with he | rfl
        · rcases hp with hp | rfl
          · exact hs e he p hp
          · constructor
            · intro h
              obtain ⟨q, hq, hq2⟩ := (hd e he).1 _ h
              exact absurd hq2 (hnew q hq)
            · intro h
              exact absurd h (List.not_mem_nil _)
        · rcases hp with hp | rfl
          · constructor
            · intro h
              exact absurd h (List.not_mem_nil _)
            · intro h
              obtain ⟨q, hq, hq2⟩ := (hd p hp).2 _ h
              exact absurd hq2 (hnew q hq)
          · constructor
            · intro h
              exact absurd h (List.not_mem_nil _)
            · intro h
              exact absurd h (List.not_mem_nil _)
      · intro e he
        rw [List.mem_append, List.mem_singleton] at he
        rcases he with he | rfl
        · constructor
          · intro x hx
            obtain ⟨q, hq, hq2⟩ := (hd e he).1 x hx
            exact ⟨q, List.mem_append_left _ hq, hq2⟩
          · intro x hx
            obtain ⟨q, hq, hq2⟩ := (hd e he).2 x hx
            exact ⟨q, List.mem_append_left _ hq, hq2⟩
        · constructor
          · intro x hx
            exact absurd hx (List.not_mem_nil _)
          · intro x hx
            exact absurd hx (List.not_mem_nil _)
    · rw [exists_iff]
      exact ⟨entry, by simp, rfl⟩

theorem wellLinked_addUnchecked (Q : CTxMemPool) (entry : CTxMemPoolEntry)
    (setAncestors : List TxId) (hu : entry.Unlinked) (hw : WellLinkedGraph (graph Q)) :
    WellLinkedGraph (graph (Q.addUnchecked entry setAncestors)) := by
  obtain ⟨h3, h3e⟩ := wellLinked_insert Q entry hu hw
  have hp : ∀ pit ∈ (Q.insert entry).inPoolParents entry.tx,
      (Q.insert entry).exists_ pit = true := by
    intro pit hpit
    unfold CTxMemPool.inPoolParents at hpit
    rw [List.mem_dedup, List.mem_filter] at hpit
    exact hpit.2
  have h4 := (wellLinked_linkParents _ entry.tx.id (Q.insert entry) h3e hp h3).1
  unfold CTxMemPool.addUnchecked
  simp only
  split
  · exact h4
  · rename_i e _
    have hg : ∀ (p : CTxMemPool) (a : Nat) (b : Amount) (c : Nat)
        (d : List (COutPoint × TxId)) (n : Nat),
        graph { p with totalTxSize := a, m_total_fee := b, cachedInnerUsage := c,
                       mapNextTx := d, nTransactionsUpdated := n } = graph p :=
      fun _ _ _ _ _ _ => rfl
    rw [hg, graph_UpdateEntryForAncestors, graph_addToAncestors]
    exact h4

end InsertLemmas
section SeverLemmas

open CTxMemPool

theorem findNode_graph (Q : CTxMemPool) (r : TxId) :
    findNode (graph Q) r = (Q.GetIter r).map linkView := by
  unfold findNode graph CTxMemPool.GetIter
  rw [List.find?_map]
  rfl

theorem setErase_idem (r : TxId) (s : List TxId) : setErase r (setErase r s) = setErase r s := by
  unfold setErase
  rw [List.filter_filter]
  congr 1
  funext y
  simp

theorem foldl_map_cond (H : Node → Node)
    (hidem : ∀ v, H (H v) = H v) (L : List TxId)
    (G : List Node) :
    L.foldl (fun g a => g.map (fun v => if v.1 = a then H v else v)) G =
      G.map (fun v => if v.1 ∈ L then H v else v) := by
  induction L generalizing G with
  | nil => simp
  | cons a L ih =>
    rw [List.foldl_cons, ih, List.map_map]
    apply List.map_congr_left
    intro v _
    simp only [Function.comp]
    by_cases h1 : v.1 = a
    · rw [if_pos h1]
      have h2 : v.1 ∈ a :: L := by rw [h1]; exact List.mem_cons_self _ _
      rw [if_pos h2]
      split
      · exact hidem v
      · rfl
    · rw [if_neg h1]
      by_cases h2 : v.1 ∈ L
      · rw [if_pos h2, if_pos (List.mem_cons_of_mem _ h2)]
      · have h3 : ¬ v.1 ∈ a :: L := by
          intro h
          rcases List.mem_cons.mp h with h | h
          · exact h1 h
          · exact h2 h
        rw [if_neg h2, if_neg h3]

theorem graph_foldl_commute (step : CTxMemPool → TxId → CTxMemPool)
    (stepG : List Node → TxId → List Node)
    (h : ∀ p a, graph (step p a) = stepG (graph p) a) (L : List TxId) (Q : CTxMemPool) :
    graph (L.foldl step Q) = L.foldl stepG (graph Q) := by
  induction L generalizing Q with
  | nil => rfl
  | cons a L ih => rw [List.foldl_cons, List.foldl_cons, ih, h]

theorem graph_severLinks (S : List TxId) (Q : CTxMemPool) (r : TxId) :
    graph (severLinks S Q r) = severGraph S (graph Q) r := by
  unfold severLinks severGraph
  rw [findNode_graph]
  cases hq : Q.GetIter r with
  | none => rfl
  | some e =>
    simp only [Option.map_some']
    rw [graph_foldl_commute (fun p child => p.UpdateParent child r false)
      (fun g a => g.map (fun v => if v.1 = a then (v.1, setErase r v.2.1, v.2.2) else v))]
    · rw [graph_foldl_commute (fun p parent => p.UpdateChild parent r false)
        (fun g a => g.map (fun v => if v.1 = a then (v.1, v.2.1, setErase r v.2.2) else v))]
      · rw [foldl_map_cond (fun v => (v.1, v.2.1, setErase r v.2.2))
            (fun v => by simp only [setErase_idem]),
          foldl_map_cond (fun v => (v.1, setErase r v.2.1, v.2.2))
            (fun v => by simp only [setErase_idem]),
          List.map_map]
        apply List.map_congr_left
        intro v _
        simp only [Function.comp, severNode]
        show _ = (v.1, (if v.1 ∈ List.filter (fun x => decide (x ∉ S)) e.m_children then
            setErase r v.2.1 else v.2.1),
          if v.1 ∈ List.filter (fun x => decide (x ∉ S)) e.m_parents then
            setErase r v.2.2 else v.2.2)
        by_cases h1 : v.1 ∈ List.filter (fun x => decide (x ∉ S)) e.m_parents
        · rw [if_pos h1]
          by_cases h2 : v.1 ∈ List.filter (fun x => decide (x ∉ S)) e.m_children
          · rw [if_pos h2, if_pos h1, if_pos h2]
          · rw [if_neg h2, if_pos h1, if_neg h2]
        · rw [if_neg h1]
          by_cases h2 : v.1 ∈ List.filter (fun x => decide (x ∉ S)) e.m_children
          · rw [if_pos h2, if_pos h2, if_neg h1]
          · rw [if_neg h2, if_neg h2, if_neg h1]
      · intro p a
        rw [graph_UpdateChild]
        apply List.map_congr_left
        intro v _
        by_cases h : v.1 = a
        · simp [h]
        · simp [h]
    · intro p a
      rw [graph_UpdateParent]
      apply List.map_congr_left
      intro v _
      by_cases h : v.1 = a
      · simp [h]
      · simp [h]

end SeverLemmas
section RemoveLemmas

open CTxMemPool

theorem severed_refl (G : List Node) (S : List TxId) :
    Severed G S [] G := by
  refine ⟨id, by simp, fun v => ⟨rfl, fun _ => rfl, fun y => ?_, fun y => ?_⟩⟩
  · simp
  · simp

theorem findNode_map (G : List Node)
    (F : Node → Node)
    (hF : ∀ v, (F v).1 = v.1) (r : TxId) :
    findNode (G.map F) r = (findNode G r).map F := by
  unfold findNode
  rw [List.find?_map]
  congr 2
  funext v
  simp only [Function.comp, hF]

theorem findNode_some (G : List Node) (r : TxId)
    (w : Node) (h : findNode G r = some w) : w ∈ G ∧ w.1 = r := by
  unfold findNode at h
  refine ⟨List.mem_of_find?_eq_some h, ?_⟩
  have := List.find?_some h
  simpa using this

theorem findNode_of_mem (G : List Node) (r : TxId)
    (h : ∃ v ∈ G, v.1 = r) : ∃ w, findNode G r = some w := by
  unfold findNode
  cases hf : G.find? (fun v => v.1 == r) with
  | some w => exact ⟨w, rfl⟩
  | none =>
    rw [List.find?_eq_none] at hf
    obtain ⟨v, hv, hv2⟩ := h
    exact absurd (by simpa using hv2) (hf v hv)

theorem severed_step (G : List Node) (S done : List TxId)
    (G' : List Node) (r : TxId) (hr : r ∈ S)
    (h : Severed G S done G') : Severed G S (r :: done) (severGraph S G' r) := by
  obtain ⟨F, rfl, hF⟩ := h
  have hfind : findNode (G.map F) r = findNode G r := by
    rw [findNode_map G F (fun v => (hF v).1)]
    cases hw : findNode G r with
    | none => rfl
    | some w =>
      have := (findNode_some G r w hw).2
      simp only [Option.map_some']
      rw [(hF w).2.1 (by rw [this]; exact hr)]
  unfold severGraph
  rw [hfind]
  cases hw : findNode G r with
  | none =>
    refine ⟨F, rfl, fun v => ⟨(hF v).1, (hF v).2.1, fun y => ?_, fun y => ?_⟩⟩
    · rw [(hF v).2.2.1 y]
      constructor
      · rintro ⟨h1, h2⟩
        refine ⟨h1, fun r' hr' w hw' => ?_⟩
        rcases List.mem_cons.mp hr' with rfl | hr'
        · rw [hw] at hw'; exact absurd hw' (by simp)
        · exact h2 r' hr' w hw'
      · rintro ⟨h1, h2⟩
        exact ⟨h1, fun r' hr' => h2 r' (List.mem_cons_of_mem _ hr')⟩
    · rw [(hF v).2.2.2 y]
      constructor
      · rintro ⟨h1, h2⟩
        refine ⟨h1, fun r' hr' w hw' => ?_⟩
        rcases List.mem_cons.mp hr' with rfl | hr'
        · rw [hw] at hw'; exact absurd hw' (by simp)
        · exact h2 r' hr' w hw'
      · rintro ⟨h1, h2⟩
        exact ⟨h1, fun r' hr' => h2 r' (List.mem_cons_of_mem _ hr')⟩
  | some w =>
    simp only
    refine ⟨fun v =>
      severNode (w.2.1.filter (fun x => x ∉ S)) (w.2.2.filter (fun x => x ∉ S)) r (F v),
      by rw [List.map_map]; rfl, fun v => ⟨(hF v).1, ?_, fun y => ?_, fun y => ?_⟩⟩
    · intro hv
      beta_reduce
      rw [(hF v).2.1 hv]
      have h1 : ¬ v.1 ∈ List.filter (fun x => decide (x ∉ S)) w.2.1 := by
        intro hm; rw [List.mem_filter] at hm; simp at hm; exact hm.2 hv
      have h2 : ¬ v.1 ∈ List.filter (fun x => decide (x ∉ S)) w.2.2 := by
        intro hm; rw [List.mem_filter] at hm; simp at hm; exact hm.2 hv
      unfold severNode
      rw [if_neg h1, if_neg h2]
    · show y ∈ (if (F v).1 ∈ List.filter (fun x => decide (x ∉ S)) w.2.2 then
          setErase r (F v).2.1 else (F v).2.1) ↔ _
      rw [(hF v).1]
      by_cases hc : v.1 ∈ List.filter (fun x => decide (x ∉ S)) w.2.2
      · rw [if_pos hc, mem_setErase, (hF v).2.2.1 y]
        rw [List.mem_filter] at hc
        simp only [decide_eq_true_eq] at hc
        constructor
        · rintro ⟨⟨h1, h2⟩, h3⟩
          refine ⟨h1, fun r' hr' w' hw' => ?_⟩
          rcases List.mem_cons.mp hr' with rfl | hr'
          · intro _ _; exact h3
          · exact h2 r' hr' w' hw'
        · rintro ⟨h1, h2⟩
          exact ⟨⟨h1, fun r' hr' => h2 r' (List.mem_cons_of_mem _ hr')⟩,
            h2 r (List.mem_cons_self _ _) w hw hc.1 hc.2⟩
      · rw [if_neg hc, (hF v).2.2.1 y]
        rw [List.mem_filter] at hc
        simp only [decide_eq_true_eq] at hc
        constructor
        · rintro ⟨h1, h2⟩
          refine ⟨h1, fun r' hr' w' hw' => ?_⟩
          rcases List.mem_cons.mp hr' with rfl | hr'
          · rw [hw] at hw'
            injection hw' with hw'
            subst hw'
            intro h4 h5
            exact absurd ⟨h4, h5⟩ hc
          · exact h2 r' hr' w' hw'
        · rintro ⟨h1, h2⟩
          exact ⟨h1, fun r' hr' => h2 r' (List.mem_cons_of_mem _ hr')⟩
    · show y ∈ (if (F v).1 ∈ List.filter (fun x => decide (x ∉ S)) w.2.1 then
          setErase r (F v).2.2 else (F v).2.2) ↔ _
      rw [(hF v).1]
      by_cases hc : v.1 ∈ List.filter (fun x => decide (x ∉ S)) w.2.1
      · rw [if_pos hc, mem_setErase, (hF v).2.2.2 y]
        rw [List.mem_filter] at hc
        simp only [decide_eq_true_eq] at hc
        constructor
        · rintro ⟨⟨h1, h2⟩, h3⟩
          refine ⟨h1, fun r' hr' w' hw' => ?_⟩
          rcases List.mem_cons.mp hr' with rfl | hr'
          · intro _ _; exact h3
          · exact h2 r' hr' w' hw'
        · rintro ⟨h1, h2⟩
          exact ⟨⟨h1, fun r' hr' => h2 r' (List.mem_cons_of_mem _ hr')⟩,
            h2 r (List.mem_cons_self _ _) w hw hc.1 hc.2⟩
      · rw [if_neg hc, (hF v).2.2.2 y]
        rw [List.mem_filter] at hc
        simp only [decide_eq_true_eq] at hc
        constructor
        · rintro ⟨h1, h2⟩
          refine ⟨h1, fun r' hr' w' hw' => ?_⟩
          rcases List.mem_cons.mp hr' with rfl | hr'
          · rw [hw] at hw'
            injection hw' with hw'
            subst hw'
            intro h4 h5
            exact absurd ⟨h4, h5⟩ hc
          · exact h2 r' hr' w' hw'
        · rintro ⟨h1, h2⟩
          exact ⟨h1, fun r' hr' => h2 r' (List.mem_cons_of_mem _ hr')⟩

theorem severed_foldl (G : List Node) (S : List TxId)
    (l done : List TxId) (G' : List Node)
    (hl : ∀ r ∈ l, r ∈ S) (h : Severed G S done G') :
    ∃ done', (∀ r, r ∈ done' ↔ r ∈ done ∨ r ∈ l) ∧
      Severed G S done' (l.foldl (severGraph S) G') := by
  induction l generalizing done G' with
  | nil => exact ⟨done, by simp, h⟩
  | cons a l ih =>
    obtain ⟨done', hd, hs⟩ := ih (a :: done) (severGraph S G' a)
      (fun r hr => hl r (List.mem_cons_of_mem _ hr))
      (severed_step G S done G' a (hl a (List.mem_cons_self _ _)) h)
    refine ⟨done', fun r => ?_, hs⟩
    rw [hd r, List.mem_cons, List.mem_cons]
    tauto

theorem wellLinkedGraph_remove (G : List Node) (S done : List TxId)
    (G' : List Node) (hdone : ∀ r, r ∈ done ↔ r ∈ S)
    (hw : WellLinkedGraph G) (h : Severed G S done G') :
    WellLinkedGraph (G'.filter (fun v => v.1 ∉ S)) := by
  obtain ⟨F, rfl, hF⟩ := h
  obtain ⟨hs, hd⟩ := hw
  have hmem : ∀ e, e ∈ (G.map F).filter (fun v => v.1 ∉ S) ↔
      ∃ e0 ∈ G, e = F e0 ∧ e0.1 ∉ S := by
    intro e
    rw [List.mem_filter, List.mem_map]
    simp only [decide_eq_true_eq]
    constructor
    · rintro ⟨⟨e0, he0, rfl⟩, h2⟩
      exact ⟨e0, he0, rfl, by rw [← (hF e0).1]; exact h2⟩
    · rintro ⟨e0, he0, rfl, h2⟩
      exact ⟨⟨e0, he0, rfl⟩, by rw [(hF e0).1]; exact h2⟩
  constructor
  · intro e he p hp
    obtain ⟨e0, he0, rfl, heS⟩ := (hmem e).mp he
    obtain ⟨p0, hp0, rfl, hpS⟩ := (hmem p).mp hp
    rw [(hF p0).1, (hF e0).1, (hF e0).2.2.1, (hF p0).2.2.2]
    have hne : ∀ (x : TxId), x ∉ S → ∀ r ∈ done, x ≠ r := by
      intro x hx r hr hxr
      rw [hxr] at hx
      exact hx ((hdone r).mp hr)
    constructor
    · rintro ⟨h1, _⟩
      exact ⟨(hs e0 he0 p0 hp0).mp h1, fun r hr _ _ _ _ => hne _ heS r hr⟩
    · rintro ⟨h1, _⟩
      exact ⟨(hs e0 he0 p0 hp0).mpr h1, fun r hr _ _ _ _ => hne _ hpS r hr⟩
  · intro e he
    obtain ⟨e0, he0, rfl, heS⟩ := (hmem e).mp he
    constructor
    · intro x hx
      rw [(hF e0).2.2.1] at hx
      obtain ⟨hx1, hx2⟩ := hx
      obtain ⟨q, hq, hq2⟩ := (hd e0 he0).1 x hx1
      by_cases hxS : x ∈ S
      · exfalso
        obtain ⟨w, hw⟩ := findNode_of_mem G x ⟨q, hq, hq2⟩
        obtain ⟨hwG, hw1⟩ := findNode_some G x w hw
        have h3 : e0.1 ∈ w.2.2 := (hs e0 he0 w hwG).mp (by rw [hw1]; exact hx1)
        exact hx2 x ((hdone x).mpr hxS) w hw h3 heS rfl
      · exact ⟨F q, (hmem _).mpr ⟨q, hq, rfl, by rw [hq2]; exact hxS⟩,
          by rw [(hF q).1]; exact hq2⟩
    · intro x hx
      rw [(hF e0).2.2.2] at hx
      obtain ⟨hx1, hx2⟩ := hx
      obtain ⟨q, hq, hq2⟩ := (hd e0 he0).2 x hx1
      by_cases hxS : x ∈ S
      · exfalso
        obtain ⟨w, hw⟩ := findNode_of_mem G x ⟨q, hq, hq2⟩
        obtain ⟨hwG, hw1⟩ := findNode_some G x w hw
        have h3 : e0.1 ∈ w.2.1 := (hs w hwG e0 he0).mpr (by rw [hw1]; exact hx1)
        exact hx2 x ((hdone x).mpr hxS) w hw h3 heS rfl
      · exact ⟨F q, (hmem _).mpr ⟨q, hq, rfl, by rw [hq2]; exact hxS⟩,
          by rw [(hF q).1]; exact hq2⟩

end RemoveLemmas
section RemoveStagedLemmas

open CTxMemPool

theorem graph_removeUnchecked (Q : CTxMemPool) (it : TxId) (reason : MemPoolRemovalReason) :
    graph (Q.removeUnchecked it reason) = (graph Q).filter (fun v => v.1 ≠ it) := by
  unfold CTxMemPool.removeUnchecked
  cases hq : Q.GetIter it with
  | none =>
    simp only
    symm
    rw [List.filter_eq_self]
    intro v hv
    unfold CTxMemPool.GetIter at hq
    rw [List.find?_eq_none] at hq
    unfold graph at hv
    rw [List.mem_map] at hv
    obtain ⟨e, he, rfl⟩ := hv
    have := hq e he
    simpa [linkView] using this
  | some e =>
    show graph (Q.erase it) = _
    unfold graph CTxMemPool.erase
    simp only [List.filter_map]
    rfl

theorem graph_foldl_removeUnchecked (l : List TxId) (reason : MemPoolRemovalReason)
    (Q : CTxMemPool) :
    graph (l.foldl (fun p it => p.removeUnchecked it reason) Q) =
      (graph Q).filter (fun v => v.1 ∉ l) := by
  induction l generalizing Q with
  | nil => simp
  | cons a l ih =>
    rw [List.foldl_cons, ih, graph_removeUnchecked, List.filter_filter]
    apply List.filter_congr
    intro v _
    simp only [List.mem_cons, not_or, Bool.decide_and, ne_eq]
    rw [Bool.and_comm]

theorem graph_UpdateForRemoveFromMempool (Q : CTxMemPool) (batch : List TxId) (upd : Bool) :
    graph (Q.UpdateForRemoveFromMempool batch upd) =
      batch.foldl (severGraph batch) (graph Q) := by
  unfold CTxMemPool.UpdateForRemoveFromMempool
  simp only
  rw [graph_foldl_commute (severLinks batch) (severGraph batch) (graph_severLinks batch),
    graph_foldl_of_step _ (graph_removeFromAncestors batch)]
  cases upd with
  | false => rfl
  | true =>
    simp only [if_true]
    rw [graph_foldl_of_step _ (graph_removeFromDescendants batch)]

theorem wellLinked_RemoveStaged (Q : CTxMemPool) (stage : List TxId) (upd : Bool)
    (reason : MemPoolRemovalReason) (hw : WellLinkedGraph (graph Q)) :
    WellLinkedGraph (graph (Q.RemoveStaged stage upd reason)) := by
  unfold CTxMemPool.RemoveStaged
  simp only
  rw [graph_foldl_removeUnchecked, graph_UpdateForRemoveFromMempool]
  obtain ⟨done, hdone, hsev⟩ := severed_foldl (graph Q) ((stage.filter Q.exists_).dedup)
    ((stage.filter Q.exists_).dedup) [] (graph Q) (fun _ h => h) (severed_refl _ _)
  exact wellLinkedGraph_remove (graph Q) _ done _ (fun r => by rw [hdone]; simp) hw hsev

theorem wellLinked_removeRecursive (Q : CTxMemPool) (tx : CTransaction)
    (reason : MemPoolRemovalReason) (hw : WellLinkedGraph (graph Q)) :
    WellLinkedGraph (graph (Q.removeRecursive tx reason)) :=
  wellLinked_RemoveStaged Q _ false reason hw

theorem foldl_preserves {α : Type} (P : CTxMemPool → Prop)
    (step : CTxMemPool → α → CTxMemPool)
    (h : ∀ p a, P p → P (step p a)) (l : List α) (Q : CTxMemPool) (hQ : P Q) :
    P (l.foldl step Q) := by
  induction l generalizing Q with
  | nil => exact hQ
  | cons a l ih => exact ih _ (h Q a hQ)

theorem wellLinked_removeConflicts (Q : CTxMemPool) (tx : CTransaction)
    (hw : WellLinkedGraph (graph Q)) : WellLinkedGraph (graph (Q.removeConflicts tx)) := by
  unfold CTxMemPool.removeConflicts
  apply foldl_preserves (fun p => WellLinkedGraph (graph p)) _ _ _ _ hw
  intro p prevout hp
  split
  · exact hp
  · split
    · exact hp
    · split
      · exact hp
      · exact wellLinked_removeRecursive p _ _ hp

theorem wellLinked_removeForBlock (Q : CTxMemPool) (vtx : List CTransaction) (height : Nat)
    (hw : WellLinkedGraph (graph Q)) :
    WellLinkedGraph (graph (Q.removeForBlock vtx height)) := by
  unfold CTxMemPool.removeForBlock
  simp only
  apply foldl_preserves (fun p => WellLinkedGraph (graph p))
  · intro p tx hp
    exact wellLinked_removeConflicts p tx hp
  · apply foldl_preserves (fun p => WellLinkedGraph (graph p))
    · intro p tx hp
      exact wellLinked_RemoveStaged p _ true _ hp
    · exact hw

end RemoveStagedLemmas

section GraphClaim

open CTxMemPool

/-- C10. Graph symmetry, property P1.  The empty pool is symmetric, a constructed
entry has no links, and from every pool whose parent and child sets are
symmetric and refer to in-pool entries only, each of `addUnchecked` (of an entry
without links), `removeRecursive`, `removeForBlock` and `RemoveStaged` returns a
pool in which, for all entries `e` and `p`, `p` is in the parent set of `e` if and
only if `e` is in the child set of `p`; the parent and child sets again refer to
in-pool entries only. -/
theorem graph_symmetry_preserved :
    (GraphSymmetric ({} : CTxMemPool) ∧ NoDangling ({} : CTxMemPool)) ∧
    (∀ (tx : CTransaction) (fee : Amount) (txSize usageSize : Nat) (time : Int) (height : Nat)
        (spendsCoinbase : Bool) (sigchecks : Int) (lp : LockPoints),
      (CTxMemPoolEntry.create tx fee txSize usageSize time height spendsCoinbase sigchecks
        lp).Unlinked) ∧
    ∀ pool : CTxMemPool, GraphSymmetric pool → NoDangling pool →
      (∀ (entry : CTxMemPoolEntry) (setAncestors : List TxId), entry.Unlinked →
        GraphSymmetric (pool.addUnchecked entry setAncestors) ∧
        NoDangling (pool.addUnchecked entry setAncestors)) ∧
      (∀ (tx : CTransaction) (reason : MemPoolRemovalReason),
        GraphSymmetric (pool.removeRecursive tx reason) ∧
        NoDangling (pool.removeRecursive tx reason)) ∧
      (∀ (vtx : List CTransaction) (nBlockHeight : Nat),
        GraphSymmetric (pool.removeForBlock vtx nBlockHeight) ∧
        NoDangling (pool.removeForBlock vtx nBlockHeight)) ∧
      (∀ (stage : List TxId) (updateDescendants : Bool) (reason : MemPoolRemovalReason),
        GraphSymmetric (pool.RemoveStaged stage updateDescendants reason) ∧
        NoDangling (pool.RemoveStaged stage updateDescendants reason)) := by
  refine ⟨⟨by decide, by decide⟩, fun _ _ _ _ _ _ _ _ _ => ⟨rfl, rfl⟩, ?_⟩
  intro pool hs hd
  have hw : WellLinkedGraph (graph pool) := (wellLinked_iff_graph pool).mp ⟨hs, hd⟩
  refine ⟨?_, ?_, ?_, ?_⟩
  · intro entry setAncestors hu
    exact (wellLinked_iff_graph _).mpr (wellLinked_addUnchecked pool entry setAncestors hu hw)
  · intro tx reason
    exact (wellLinked_iff_graph _).mpr (wellLinked_removeRecursive pool tx reason hw)
  · intro vtx h
    exact (wellLinked_iff_graph _).mpr (wellLinked_removeForBlock pool vtx h hw)
  · intro stage upd reason
    exact (wellLinked_iff_graph _).mpr (wellLinked_RemoveStaged pool stage upd reason hw)

/-- Witness for C10: the pool of the chain scenario is symmetric and without
dangling references, and so it is after adding a fourth entry, after removing B
recursively, after a block that contains A, and after removing the staged
entry C. -/
theorem graph_symmetry_preserved_witness :
    GraphSymmetric chainPool ∧ NoDangling chainPool ∧
    (CTxMemPoolEntry.create txD 700 100 500 13 0 false 1 {}).Unlinked ∧
    (GraphSymmetric
        (chainPool.addUnchecked (CTxMemPoolEntry.create txD 700 100 500 13 0 false 1 {}) []) ∧
      NoDangling
        (chainPool.addUnchecked (CTxMemPoolEntry.create txD 700 100 500 13 0 false 1 {}) [])) ∧
    (GraphSymmetric (chainPool.removeRecursive txB MemPoolRemovalReason.EXPIRY) ∧
      NoDangling (chainPool.removeRecursive txB MemPoolRemovalReason.EXPIRY)) ∧
    (GraphSymmetric (chainPool.removeForBlock [txA] 1) ∧
      NoDangling (chainPool.removeForBlock [txA] 1)) ∧
    (GraphSymmetric (chainPool.RemoveStaged [3] false MemPoolRemovalReason.SIZELIMIT) ∧
      NoDangling (chainPool.RemoveStaged [3] false MemPoolRemovalReason.SIZELIMIT)) :=
  have hs : GraphSymmetric chainPool := by decide
  have hd : NoDangling chainPool := by decide
  ⟨hs, hd, by decide,
    (graph_symmetry_preserved.2.2 chainPool hs hd).1 _ [] (by decide),
    (graph_symmetry_preserved.2.2 chainPool hs hd).2.1 txB MemPoolRemovalReason.EXPIRY,
    (graph_symmetry_preserved.2.2 chainPool hs hd).2.2.1 [txA] 1,
    (graph_symmetry_preserved.2.2 chainPool hs hd).2.2.2 [3] false MemPoolRemovalReason.SIZELIMIT⟩

end GraphClaim

/-! ## Claims on the sequence counter and the unbroadcast set -/

section SequenceClaims

theorem sequenceCalls_eq_range (n : Nat) : ∀ pool : CTxMemPool,
    pool.m_sequence_number + n ≤ 2 ^ 64 →
    (pool.sequenceCalls n).1 = List.range' pool.m_sequence_number n := by
  induction n with
  | zero => intro pool _; rfl
  | succ n ih =>
    intro pool h
    cases n with
    | zero => rfl
    | succ m =>
      have hlt : pool.m_sequence_number + 1 < 2 ^ 64 := by omega
      have hnext : pool.GetAndIncrementSequence.2.m_sequence_number
          = pool.m_sequence_number + 1 := by
        show (pool.m_sequence_number + 1) % 2 ^ 64 = _
        exact Nat.mod_eq_of_lt hlt
      have h2 := ih pool.GetAndIncrementSequence.2 (by rw [hnext]; omega)
      show pool.m_sequence_number :: (pool.GetAndIncrementSequence.2.sequenceCalls (m + 1)).1 = _
      rw [h2, hnext]
      rfl

/-- C20: on a new pool the first `GetAndIncrementSequence` returns 1; when the
counter is below 2^64 - 1 a call returns one more than the call before it; the
first `n` calls on a new pool return 1, 2, ..., n (for n below 2^64), a
strictly increasing sequence without repetition; and `GetSequence` returns
what the next `GetAndIncrementSequence` returns. -/
theorem sequence_counter :
    (({} : CTxMemPool).GetAndIncrementSequence).1 = 1 ∧
    (∀ pool : CTxMemPool, pool.m_sequence_number + 1 < 2 ^ 64 →
      (pool.GetAndIncrementSequence.2.GetAndIncrementSequence).1
        = pool.GetAndIncrementSequence.1 + 1 ∧
      pool.GetAndIncrementSequence.2.GetSequence = pool.GetSequence + 1) ∧
    (∀ n : Nat, n < 2 ^ 64 →
      (({} : CTxMemPool).sequenceCalls n).1 = List.range' 1 n ∧
      List.Pairwise (fun a b => a < b) (({} : CTxMemPool).sequenceCalls n).1 ∧
      (({} : CTxMemPool).sequenceCalls n).1.Nodup) ∧
    (∀ pool : CTxMemPool, pool.GetSequence = pool.GetAndIncrementSequence.1) := by
  refine ⟨rfl, ?_, ?_, fun _ => rfl⟩
  · intro pool h
    have hnext : (pool.m_sequence_number + 1) % 2 ^ 64 = pool.m_sequence_number + 1 :=
      Nat.mod_eq_of_lt h
    exact ⟨hnext, hnext⟩
  · intro n hn
    have h := sequenceCalls_eq_range n ({} : CTxMemPool)
      (by show 1 + n ≤ 2 ^ 64; omega)
    have h1 : (({} : CTxMemPool).sequenceCalls n).1 = List.range' 1 n := h
    rw [h1]
    exact ⟨rfl, List.pairwise_lt_range' 1 n, List.nodup_range' 1 n⟩

/-- Witness for C20: the pool of the chain scenario has counter 1, and three
calls on a new pool return 1, 2, 3. -/
theorem sequence_counter_witness :
    ((chainPool.GetAndIncrementSequence.2.GetAndIncrementSequence).1
        = chainPool.GetAndIncrementSequence.1 + 1 ∧
      chainPool.GetAndIncrementSequence.2.GetSequence = chainPool.GetSequence + 1) ∧
    (({} : CTxMemPool).sequenceCalls 3).1 = [1, 2, 3] :=
  ⟨sequence_counter.2.1 chainPool (by decide),
    (sequence_counter.2.2.1 3 (by norm_num)).1⟩

/-- C19: `AddUnbroadcastTx` puts the txid in the unbroadcast set exactly when
the pool holds it, leaves the set as it is otherwise, and never changes the
entries; afterwards `IsUnbroadcastTx` holds for the txid exactly when it was
in the pool or already in the set, and `IsUnbroadcastTx` is membership in
`GetUnbroadcastTxs`. -/
theorem AddUnbroadcastTx_spec (pool : CTxMemPool) (txid : TxId) :
    (∀ x, x ∈ (pool.AddUnbroadcastTx txid).m_unbroadcast_txids ↔
      x ∈ pool.m_unbroadcast_txids ∨ (x = txid ∧ pool.exists_ txid = true)) ∧
    (pool.exists_ txid = false → pool.AddUnbroadcastTx txid = pool) ∧
    (pool.AddUnbroadcastTx txid).mapTx = pool.mapTx ∧
    ((pool.AddUnbroadcastTx txid).IsUnbroadcastTx txid = true ↔
      (pool.exists_ txid = true ∨ pool.IsUnbroadcastTx txid = true)) ∧
    (∀ x, (pool.AddUnbroadcastTx txid).IsUnbroadcastTx x = true ↔
      x ∈ (pool.AddUnbroadcastTx txid).GetUnbroadcastTxs) := by
  have hmem : ∀ x, x ∈ (pool.AddUnbroadcastTx txid).m_unbroadcast_txids ↔
      x ∈ pool.m_unbroadcast_txids ∨ (x = txid ∧ pool.exists_ txid = true) := by
    intro x
    unfold CTxMemPool.AddUnbroadcastTx
    by_cases h : pool.exists_ txid = true
    · rw [if_pos h]
      show x ∈ setInsert txid pool.m_unbroadcast_txids ↔ _
      rw [mem_setInsert]
      constructor
      · rintro (h1 | h1)
        · exact Or.inr ⟨h1, h⟩
        · exact Or.inl h1
      · rintro (h1 | ⟨h1, _⟩)
        · exact Or.inr h1
        · exact Or.inl h1
    · rw [if_neg h]
      constructor
      · exact fun h1 => Or.inl h1
      · rintro (h1 | ⟨_, h1⟩)
        · exact h1
        · exact absurd h1 h
  refine ⟨hmem, ?_, ?_, ?_, ?_⟩
  · intro h
    unfold CTxMemPool.AddUnbroadcastTx
    rw [if_neg (by simp [h])]
  · unfold CTxMemPool.AddUnbroadcastTx
    by_cases h : pool.exists_ txid = true
    · rw [if_pos h]
    · rw [if_neg h]
  · unfold CTxMemPool.IsUnbroadcastTx
    rw [decide_eq_true_iff, decide_eq_true_iff, hmem txid]
    constructor
    · rintro (h1 | ⟨_, h1⟩)
      · exact Or.inr h1
      · exact Or.inl h1
    · rintro (h1 | h1)
      · exact Or.inr ⟨rfl, h1⟩
      · exact Or.inl h1
  · intro x
    unfold CTxMemPool.IsUnbroadcastTx CTxMemPool.GetUnbroadcastTxs
    rw [decide_eq_true_iff]

/-- Witness for C19: txid 9 is not in the pool of the chain scenario, and
adding it to the unbroadcast set changes nothing. -/
theorem AddUnbroadcastTx_spec_witness :
    chainPool.exists_ 9 = false ∧ chainPool.AddUnbroadcastTx 9 = chainPool :=
  ⟨by decide, (AddUnbroadcastTx_spec chainPool 9).2.1 (by decide)⟩

end SequenceClaims

/-! ## Claims on the script-check budget -/

section LimiterClaims

open CheckInputsLimiter

theorem wrapInt64_of_range (z : Int) (h1 : -2 ^ 63 ≤ z) (h2 : z < 2 ^ 63) :
    wrapInt64 z = z := by
  unfold wrapInt64
  rw [Int.emod_eq_of_lt (by omega) (by omega)]
  omega

theorem limiter_exhausted_aux (calls : List Int) : ∀ s : CheckInputsLimiter,
    (∀ x ∈ calls, 0 ≤ x) → s.remaining < 0 → -2 ^ 63 ≤ s.remaining - calls.sum →
    ∀ k : Nat, (s.after (calls.take k)).check = false ∧
      ∀ d : Int, calls.get? k = some d →
        ((s.after (calls.take k)).consume_and_check d).1 = false := by
  induction calls with
  | nil =>
    intro s _ hneg _ k
    rw [List.take_nil]
    refine ⟨?_, ?_⟩
    · show decide (s.remaining ≥ 0) = false
      simp [hneg]
    · intro d hd
      simp at hd
  | cons c rest ih =>
    intro s hnn hneg hno k
    have hc : 0 ≤ c := hnn c (List.mem_cons_self _ _)
    have hrest : 0 ≤ rest.sum := List.sum_nonneg (fun x hx => hnn x (List.mem_cons_of_mem _ hx))
    rw [List.sum_cons] at hno
    have hw : wrapInt64 (s.remaining - c) = s.remaining - c :=
      wrapInt64_of_range _ (by omega) (by omega)
    cases k with
    | zero =>
      refine ⟨?_, ?_⟩
      · show decide (s.remaining ≥ 0) = false
        simp [hneg]
      · intro d hd
        have hd' : c = d := by simpa using hd
        subst hd'
        show decide (wrapInt64 (s.remaining - c) ≥ 0) = false
        rw [hw]
        simp
        omega
    | succ k =>
      have h := ih (s.consume_and_check c).2 (fun x hx => hnn x (List.mem_cons_of_mem _ hx))
        (by show wrapInt64 (s.remaining - c) < 0; rw [hw]; omega)
        (by show -2 ^ 63 ≤ wrapInt64 (s.remaining - c) - rest.sum; rw [hw]; omega) k
      exact h

/-- C18: once a `consume_and_check` call has returned false, every later
`check` and every later `consume_and_check` returns false, whatever the calls
before it were, as long as the later amounts are non-negative and the budget
stays within 64 bits. -/
theorem limiter_stays_exhausted (l : CheckInputsLimiter) (c : Int) (calls : List Int)
    (hnn : ∀ x ∈ calls, 0 ≤ x)
    (hno : -2 ^ 63 ≤ (l.consume_and_check c).2.remaining - calls.sum)
    (hfalse : (l.consume_and_check c).1 = false) :
    ∀ k : Nat, ((l.consume_and_check c).2.after (calls.take k)).check = false ∧
      ∀ d : Int, calls.get? k = some d →
        (((l.consume_and_check c).2.after (calls.take k)).consume_and_check d).1 = false := by
  have hneg : (l.consume_and_check c).2.remaining < 0 := by
    have h : decide (wrapInt64 (l.remaining - c) ≥ 0) = false := hfalse
    have h2 : ¬ (wrapInt64 (l.remaining - c) ≥ 0) := by simpa using h
    show wrapInt64 (l.remaining - c) < 0
    omega
  exact limiter_exhausted_aux calls _ hnn hneg hno

/-- Witness for C18: with a budget of 5, consuming 3 succeeds and consuming 4
fails; after that consuming 0 and 2 fails and `check` fails. -/
theorem limiter_stays_exhausted_witness :
    ((CheckInputsLimiter.create 5).consume_and_check 3).1 = true ∧
    ((((CheckInputsLimiter.create 5).consume_and_check 3).2.consume_and_check 4).2.after
        ([0, 2].take 1)).check = false ∧
    (((((CheckInputsLimiter.create 5).consume_and_check 3).2.consume_and_check 4).2.after
        ([0, 2].take 1)).consume_and_check 2).1 = false :=
  ⟨by decide,
    (limiter_stays_exhausted ((CheckInputsLimiter.create 5).consume_and_check 3).2 4 [0, 2]
      (by decide) (by decide) (by decide) 1).1,
    (limiter_stays_exhausted ((CheckInputsLimiter.create 5).consume_and_check 3).2 4 [0, 2]
      (by decide) (by decide) (by decide) 1).2 2 rfl⟩

end LimiterClaims

/-! ## Claims on the disconnected-block buffer -/

section BufferClaims

open DisconnectedBlockTransactions

theorem eraseP_txid_eq_filter (x : TxId) : ∀ l : List CTransaction,
    (l.map (fun t => t.id)).Nodup →
    l.eraseP (fun t => t.id == x) = l.filter (fun t => decide (t.id ≠ x)) := by
  intro l
  induction l with
  | nil => intro _; rfl
  | cons a l ih =>
    intro hn
    rw [List.map_cons, List.nodup_cons] at hn
    by_cases h : a.id = x
    · have hp : (a.id == x) = true := by simp [h]
      rw [List.eraseP_cons, List.filter_cons_of_neg (by simp [h])]
      simp only [hp, cond_true]
      symm
      rw [List.filter_eq_self]
      intro t ht
      have : t.id ≠ x := by
        intro hx
        apply hn.1
        rw [h, ← hx]
        exact List.mem_map_of_mem _ ht
      simp [this]
    · have hp : (a.id == x) = false := by simp [h]
      rw [List.eraseP_cons, List.filter_cons_of_pos (by simp [h]), ih hn.2]
      simp only [hp, cond_false]

theorem removeForBlockStep_queuedTx (U : CTransaction → Nat)
    (d : DisconnectedBlockTransactions) (tx : CTransaction) :
    (removeForBlockStep U d tx).queuedTx = d.queuedTx.eraseP (fun t => t.id == tx.id) := by
  unfold removeForBlockStep
  cases hf : d.queuedTx.find? (fun t => t.id == tx.id) with
  | none =>
    symm
    apply List.eraseP_of_forall_not
    intro t ht
    have := List.find?_eq_none.mp hf t ht
    exact this
  | some it => rfl

theorem nodup_txids_filter (p : CTransaction → Bool) (l : List CTransaction)
    (h : (l.map (fun t => t.id)).Nodup) : ((l.filter p).map (fun t => t.id)).Nodup :=
  List.Nodup.sublist (List.Sublist.map _ (List.filter_sublist l)) h

theorem removeForBlock_foldl_queuedTx (U : CTransaction → Nat) (vtx : List CTransaction) :
    ∀ d : DisconnectedBlockTransactions, d.UniqueTxIds →
    (vtx.foldl (removeForBlockStep U) d).queuedTx
      = d.queuedTx.filter (fun t => decide (t.id ∉ vtx.map (fun v => v.id))) := by
  induction vtx with
  | nil =>
    intro d _
    symm
    rw [List.foldl_nil, List.filter_eq_self]
    intro t _
    simp
  | cons v vtx ih =>
    intro d hu
    have hstep : (removeForBlockStep U d v).queuedTx
        = d.queuedTx.filter (fun t => decide (t.id ≠ v.id)) := by
      rw [removeForBlockStep_queuedTx, eraseP_txid_eq_filter v.id d.queuedTx hu]
    have hu2 : (removeForBlockStep U d v).UniqueTxIds := by
      unfold UniqueTxIds
      rw [hstep]
      exact nodup_txids_filter _ _ hu
    rw [List.foldl_cons, ih _ hu2, hstep, List.filter_filter]
    apply List.filter_congr
    intro t _
    simp [List.mem_cons, not_or]
    exact Bool.and_comm _ _

theorem removeForBlock_queuedTx (U : CTransaction → Nat) (d : DisconnectedBlockTransactions)
    (vtx : List CTransaction) (hu : d.UniqueTxIds) :
    (removeForBlock U d vtx).queuedTx
      = d.queuedTx.filter (fun t => decide (t.id ∉ vtx.map (fun v => v.id))) := by
  unfold removeForBlock
  by_cases h : d.queuedTx.isEmpty = true
  · rw [if_pos h]
    have : d.queuedTx = [] := List.isEmpty_iff.mp h
    rw [this]
    rfl
  · rw [if_neg h]
    exact removeForBlock_foldl_queuedTx U vtx d hu

/-- C15: the assertion of the destructor holds exactly when `isEmpty` is
true, and it holds right after `clear`. -/
theorem destroy_iff_isEmpty (d : DisconnectedBlockTransactions) :
    (d.destroy = some () ↔ d.isEmpty = true) ∧ d.clear.destroy = some () := by
  refine ⟨?_, rfl⟩
  unfold destroy isEmpty
  by_cases h : d.queuedTx.isEmpty = true
  · rw [if_pos h]; simp [h]
  · rw [if_neg h]; simp [h]

/-- C16: after `removeForBlock` the queue is the old queue without the
transactions whose txid occurs in `vtx`: none of those is left, every other
queued transaction is still queued, and the survivors keep their order; on an
empty buffer the call changes nothing. -/
theorem buffer_removeForBlock (U : CTransaction → Nat) (d : DisconnectedBlockTransactions)
    (vtx : List CTransaction) (hu : d.UniqueTxIds) :
    (removeForBlock U d vtx).queuedTx
      = d.queuedTx.filter (fun t => decide (t.id ∉ vtx.map (fun v => v.id))) ∧
    (∀ t ∈ (removeForBlock U d vtx).queuedTx, ∀ v ∈ vtx, t.id ≠ v.id) ∧
    (∀ t ∈ d.queuedTx, (∀ v ∈ vtx, t.id ≠ v.id) → t ∈ (removeForBlock U d vtx).queuedTx) ∧
    (removeForBlock U d vtx).queuedTx.Sublist d.queuedTx ∧
    (d.queuedTx = [] → removeForBlock U d vtx = d) := by
  have hq := removeForBlock_queuedTx U d vtx hu
  refine ⟨hq, ?_, ?_, ?_, ?_⟩
  · intro t ht v hv heq
    rw [hq, List.mem_filter] at ht
    have h2 : t.id ∉ vtx.map (fun v => v.id) := by simpa using ht.2
    exact h2 (List.mem_map.mpr ⟨v, hv, heq.symm⟩)
  · intro t ht hv
    rw [hq, List.mem_filter]
    refine ⟨ht, ?_⟩
    have : t.id ∉ vtx.map (fun v => v.id) := by
      intro hm
      obtain ⟨v, hv1, hv2⟩ := List.mem_map.mp hm
      exact hv v hv1 hv2.symm
    simpa using this
  · rw [hq]
    exact List.filter_sublist _
  · intro he
    unfold removeForBlock
    rw [if_pos (by rw [he]; rfl)]

/-- Witness for C16: a block with B and a transaction that is not queued
leaves A and C, in this order, in the buffer that held A, B, C. -/
theorem buffer_removeForBlock_witness :
    chainBuffer.UniqueTxIds ∧
    (removeForBlock sampleUsage chainBuffer [txB, txD]).queuedTx = [txA, txC] :=
  ⟨by decide,
    (buffer_removeForBlock sampleUsage chainBuffer [txB, txD] (by decide)).1.trans
      (by decide)⟩

/-- C17: the buffer never holds two transactions with the same txid: the empty
buffer does not, and `addTransaction`, `removeForBlock`, `removeEntry` and
`clear` keep it so; `addTransaction` of a txid that is not queued appends the
transaction at the end of the sequence, and `addTransaction` of a queued txid
leaves the sequence as it is. -/
theorem buffer_unique_in_order :
    ({} : DisconnectedBlockTransactions).UniqueTxIds ∧
    ∀ (U : CTransaction → Nat) (d : DisconnectedBlockTransactions), d.UniqueTxIds →
      (∀ tx, (addTransaction U d tx).UniqueTxIds) ∧
      (∀ vtx, (removeForBlock U d vtx).UniqueTxIds) ∧
      (∀ entry, (removeEntry U d entry).UniqueTxIds) ∧
      d.clear.UniqueTxIds ∧
      (∀ tx, (∀ t ∈ d.queuedTx, t.id ≠ tx.id) →
        (addTransaction U d tx).queuedTx = d.queuedTx ++ [tx]) ∧
      (∀ tx, (∃ t ∈ d.queuedTx, t.id = tx.id) →
        (addTransaction U d tx).queuedTx = d.queuedTx) := by
  refine ⟨by decide, ?_⟩
  intro U d hu
  have hany : ∀ tx : CTransaction, d.queuedTx.any (fun t => t.id == tx.id) = true ↔
      ∃ t ∈ d.queuedTx, t.id = tx.id := by
    intro tx
    simp [List.any_eq_true]
  refine ⟨?_, ?_, ?_, ?_, ?_, ?_⟩
  · intro tx
    show ((if d.queuedTx.any (fun t => t.id == tx.id) then d.queuedTx
      else d.queuedTx ++ [tx]).map (fun t => t.id)).Nodup
    by_cases h : d.queuedTx.any (fun t => t.id == tx.id) = true
    · rw [if_pos h]; exact hu
    · rw [if_neg h, List.map_append, List.nodup_append]
      refine ⟨hu, List.nodup_singleton _, ?_⟩
      intro a ha hb
      have hb' : a = tx.id := by simpa using hb
      obtain ⟨t, ht, hta⟩ := List.mem_map.mp ha
      exact h ((hany tx).mpr ⟨t, ht, hta.trans hb'⟩)
  · intro vtx
    unfold UniqueTxIds
    rw [removeForBlock_queuedTx U d vtx hu]
    exact nodup_txids_filter _ _ hu
  · intro entry
    unfold removeEntry
    cases d.queuedTx.get? entry with
    | none => exact hu
    | some tx =>
      exact List.Nodup.sublist (List.Sublist.map _ (List.eraseIdx_sublist _ _)) hu
  · exact List.nodup_nil
  · intro tx h
    show (if d.queuedTx.any (fun t => t.id == tx.id) then d.queuedTx
      else d.queuedTx ++ [tx]) = _
    rw [if_neg]
    intro hc
    obtain ⟨t, ht, hte⟩ := (hany tx).mp hc
    exact h t ht hte
  · intro tx h
    show (if d.queuedTx.any (fun t => t.id == tx.id) then d.queuedTx
      else d.queuedTx ++ [tx]) = _
    rw [if_pos ((hany tx).mpr h)]

/-- Witness for C17: in the buffer that holds A, B, C, adding D appends it and
adding B again changes nothing. -/
theorem buffer_unique_in_order_witness :
    (addTransaction sampleUsage chainBuffer txD).UniqueTxIds ∧
    (addTransaction sampleUsage chainBuffer txD).queuedTx = [txA, txB, txC, txD] ∧
    (addTransaction sampleUsage chainBuffer txB).queuedTx = [txA, txB, txC] :=
  ⟨(buffer_unique_in_order.2 sampleUsage chainBuffer (by decide)).1 txD,
    ((buffer_unique_in_order.2 sampleUsage chainBuffer (by decide)).2.2.2.2.1 txD
      (by decide)).trans (by decide),
    ((buffer_unique_in_order.2 sampleUsage chainBuffer (by decide)).2.2.2.2.2 txB
      (by decide)).trans (by decide)⟩

end BufferClaims

/-! ## Lemmas on lookups -/

section LookupLemmas

theorem GetIter_some_id {pool : CTxMemPool} {x : TxId} {e : CTxMemPoolEntry}
    (h : pool.GetIter x = some e) : e.tx.id = x := by
  have := List.find?_some h
  simpa using this

theorem GetIter_eq_none_iff (pool : CTxMemPool) (x : TxId) :
    pool.GetIter x = none ↔ pool.exists_ x = false := by
  unfold CTxMemPool.GetIter CTxMemPool.exists_
  rw [List.find?_eq_none, List.any_eq_false]

theorem GetIter_isSome_of_exists {pool : CTxMemPool} {x : TxId}
    (h : pool.exists_ x = true) : ∃ e, pool.GetIter x = some e := by
  cases hg : pool.GetIter x with
  | some e => exact ⟨e, rfl⟩
  | none =>
    rw [GetIter_eq_none_iff] at hg
    rw [hg] at h
    exact absurd h (by decide)

theorem find_map_of_id (f : CTxMemPoolEntry → CTxMemPoolEntry)
    (hid : ∀ e, (f e).tx.id = e.tx.id) (x : TxId) : ∀ l : List CTxMemPoolEntry,
    (l.map f).find? (fun e => e.tx.id == x) = (l.find? (fun e => e.tx.id == x)).map f := by
  intro l
  induction l with
  | nil => rfl
  | cons a l ih =>
    rw [List.map_cons, List.find?_cons, List.find?_cons, hid a]
    cases (a.tx.id == x) with
    | true => rfl
    | false => exact ih

theorem GetIter_modify (pool : CTxMemPool) (it : TxId)
    (f : CTxMemPoolEntry → CTxMemPoolEntry) (hid : ∀ e, (f e).tx.id = e.tx.id) (x : TxId) :
    (pool.modify it f).GetIter x
      = if x = it then (pool.GetIter x).map f else pool.GetIter x := by
  have hid2 : ∀ e : CTxMemPoolEntry, ((fun e => if e.tx.id = it then f e else e) e).tx.id
      = e.tx.id := by
    intro e
    by_cases h : e.tx.id = it
    · simp only [if_pos h, hid]
    · simp only [if_neg h]
  have h1 : (pool.modify it f).GetIter x
      = (pool.GetIter x).map (fun e => if e.tx.id = it then f e else e) :=
    find_map_of_id _ hid2 x pool.mapTx
  rw [h1]
  cases hg : pool.GetIter x with
  | none => simp
  | some e =>
    have he := GetIter_some_id hg
    by_cases h : x = it
    · rw [if_pos h]
      simp only [Option.map_some', he, h, if_true]
    · rw [if_neg h]
      simp only [Option.map_some', he, h, if_false]

theorem GetIter_foldl_modify_of_not_mem (f : CTxMemPoolEntry → CTxMemPoolEntry)
    (hid : ∀ e, (f e).tx.id = e.tx.id) (x : TxId) : ∀ (l : List TxId) (pool : CTxMemPool),
    x ∉ l → (l.foldl (fun p a => p.modify a f) pool).GetIter x = pool.GetIter x := by
  intro l
  induction l with
  | nil => intro pool _; rfl
  | cons a l ih =>
    intro pool hx
    rw [List.foldl_cons, ih _ (fun h => hx (List.mem_cons_of_mem _ h)),
      GetIter_modify pool a f hid x, if_neg (fun h : x = a => hx (by rw [h]; exact List.mem_cons_self _ _))]

theorem GetIter_foldl_modify_of_mem (f : CTxMemPoolEntry → CTxMemPoolEntry)
    (hid : ∀ e, (f e).tx.id = e.tx.id) (x : TxId) : ∀ (l : List TxId) (pool : CTxMemPool),
    l.Nodup → x ∈ l →
    (l.foldl (fun p a => p.modify a f) pool).GetIter x = (pool.GetIter x).map f := by
  intro l
  induction l with
  | nil => intro pool _ hx; exact absurd hx (List.not_mem_nil _)
  | cons a l ih =>
    intro pool hn hx
    rw [List.nodup_cons] at hn
    rw [List.foldl_cons]
    by_cases h : x = a
    · subst h
      rw [GetIter_foldl_modify_of_not_mem f hid x l _ hn.1, GetIter_modify pool x f hid x,
        if_pos rfl]
    · have hx2 : x ∈ l := by
        rcases List.mem_cons.mp hx with h1 | h1
        · exact absurd h1 h
        · exact h1
      rw [ih _ hn.2 hx2, GetIter_modify pool a f hid x, if_neg h]

theorem GetIter_map_modify {α : Type} (π : CTxMemPoolEntry → α) (pool : CTxMemPool)
    (it : TxId) (f : CTxMemPoolEntry → CTxMemPoolEntry) (hid : ∀ e, (f e).tx.id = e.tx.id)
    (hπ : ∀ e, π (f e) = π e) (x : TxId) :
    ((pool.modify it f).GetIter x).map π = (pool.GetIter x).map π := by
  rw [GetIter_modify pool it f hid x]
  by_cases h : x = it
  · rw [if_pos h, Option.map_map]
    congr 1
    funext e
    exact hπ e
  · rw [if_neg h]

theorem GetIter_map_linkParents {α : Type} (π : CTxMemPoolEntry → α)
    (hp : ∀ e id add, π (e.updateParents id add) = π e)
    (hc : ∀ e id add, π (e.updateChildren id add) = π e) (it x : TxId) :
    ∀ (parents : List TxId) (pool : CTxMemPool),
    ((pool.linkParents it parents).GetIter x).map π = (pool.GetIter x).map π := by
  intro parents
  induction parents with
  | nil => intro pool; rfl
  | cons p ps ih =>
    intro pool
    unfold CTxMemPool.linkParents
    rw [List.foldl_cons]
    have h := ih ((pool.UpdateChild p it true).UpdateParent it p true)
    unfold CTxMemPool.linkParents at h
    rw [h]
    unfold CTxMemPool.UpdateParent CTxMemPool.UpdateChild
    rw [GetIter_map_modify π _ it (fun e => e.updateParents p true) (fun _ => rfl)
        (fun e => hp e p true) x,
      GetIter_map_modify π _ p (fun e => e.updateChildren it true) (fun _ => rfl)
        (fun e => hc e it true) x]

theorem GetIter_insert (pool : CTxMemPool) (entry : CTxMemPoolEntry)
    (hfresh : pool.exists_ entry.tx.id = false) (x : TxId) :
    (pool.insert entry).GetIter x
      = if x = entry.tx.id then some entry else pool.GetIter x := by
  unfold CTxMemPool.insert
  rw [hfresh]
  show (pool.mapTx ++ [entry]).find? (fun e => e.tx.id == x) = _
  rw [List.find?_append]
  by_cases h : x = entry.tx.id
  · rw [if_pos h]
    have hn : pool.GetIter x = none := by
      rw [GetIter_eq_none_iff, h]; exact hfresh
    have hn2 : pool.mapTx.find? (fun e => e.tx.id == x) = none := hn
    rw [hn2]
    simp [h]
  · rw [if_neg h]
    have : [entry].find? (fun e => e.tx.id == x) = none := by
      rw [List.find?_cons]
      have hne : (entry.tx.id == x) = false := by
        simp only [beq_eq_false_iff_ne]
        exact fun h2 => h h2.symm
      rw [hne]
      rfl
    rw [this]
    show (pool.GetIter x).or none = _
    simp

end LookupLemmas

/-! ## Claims on the aggregates after an insertion -/

section AggregateClaims

open CTxMemPoolEntry

theorem insertLinked_GetIter_map {α : Type} (π : CTxMemPoolEntry → α)
    (hp : ∀ e id add, π (e.updateParents id add) = π e)
    (hc : ∀ e id add, π (e.updateChildren id add) = π e)
    (pool : CTxMemPool) (entry : CTxMemPoolEntry)
    (hfresh : pool.exists_ entry.tx.id = false) (x : TxId) :
    ((pool.insertLinked entry).GetIter x).map π
      = if x = entry.tx.id then some (π entry) else (pool.GetIter x).map π := by
  unfold CTxMemPool.insertLinked
  rw [GetIter_map_linkParents π hp hc, GetIter_insert pool entry hfresh x]
  by_cases h : x = entry.tx.id
  · rw [if_pos h, if_pos h]; rfl
  · rw [if_neg h, if_neg h]

theorem option_map_eq_some {α β : Type} {f : α → β} {o : Option α} {b : β}
    (h : o.map f = some b) : ∃ a, o = some a ∧ f a = b := by
  cases o with
  | none => exact absurd h (by simp)
  | some a => exact ⟨a, rfl, by simpa using h⟩

theorem addUnchecked_GetIter (pool : CTxMemPool) (entry : CTxMemPoolEntry) (S : List TxId)
    (hfresh : pool.exists_ entry.tx.id = false) (hS : S.Nodup)
    (hin : ∀ a ∈ S, pool.exists_ a = true) :
    ∃ e, (pool.insertLinked entry).GetIter entry.tx.id = some e ∧ e.own = entry.own ∧
      ∀ x, (pool.addUnchecked entry S).GetIter x
        = ((((pool.insertLinked entry).addToAncestors e S).UpdateEntryForAncestors
            entry.tx.id S).GetIter x) := by
  have h1 := insertLinked_GetIter_map CTxMemPoolEntry.own (fun _ _ _ => rfl)
    (fun _ _ _ => rfl) pool entry hfresh entry.tx.id
  rw [if_pos rfl] at h1
  obtain ⟨e, he, hown⟩ := option_map_eq_some h1
  refine ⟨e, he, hown, ?_⟩
  intro x
  have hS2 : (S.filter pool.exists_).dedup = S := by
    rw [List.filter_eq_self.mpr hin, List.dedup_eq_self.mpr hS]
  have he2 : ((pool.insert entry).linkParents entry.tx.id
      ((pool.insert entry).inPoolParents entry.tx)).GetIter entry.tx.id = some e := he
  unfold CTxMemPool.addUnchecked
  simp only [hS2, he2]
  rfl

theorem filterMap_map_congr {α β γ : Type} (π : β → γ) (f g : α → Option β) :
    ∀ l : List α, (∀ a ∈ l, (f a).map π = (g a).map π) →
    (l.filterMap f).map π = (l.filterMap g).map π := by
  intro l
  induction l with
  | nil => intro _; rfl
  | cons a l ih =>
    intro h
    have ha := h a (List.mem_cons_self _ _)
    have hl := ih (fun b hb => h b (List.mem_cons_of_mem _ hb))
    cases hf : f a with
    | none =>
      cases hg : g a with
      | none => rw [List.filterMap_cons_none hf, List.filterMap_cons_none hg]; exact hl
      | some y => rw [hf, hg] at ha; exact absurd ha (by simp)
    | some x =>
      cases hg : g a with
      | none => rw [hf, hg] at ha; exact absurd ha (by simp)
      | some y =>
        rw [List.filterMap_cons_some hf, List.filterMap_cons_some hg, List.map_cons,
          List.map_cons, hl]
        rw [hf, hg] at ha
        have : π x = π y := by simpa using ha
        rw [this]

theorem addInt64_natCast (x n : Nat) (h : x + n < 2 ^ 64) : addInt64 x (n : Int) = x + n := by
  unfold addInt64
  have h1 : ((x : Int) + (n : Int)) % 2 ^ 64 = ((x + n : Nat) : Int) := by
    rw [Int.emod_eq_of_lt (by omega) (by omega)]
    push_cast
    rfl
  rw [h1]
  exact Int.toNat_ofNat _

theorem not_mem_of_fresh {pool : CTxMemPool} {it : TxId} {S : List TxId}
    (hfresh : pool.exists_ it = false) (hin : ∀ a ∈ S, pool.exists_ a = true) : it ∉ S := by
  intro h
  have := hin it h
  rw [hfresh] at this
  exact absurd this (by decide)

theorem length_entriesOf (pool : CTxMemPool) (S : List TxId)
    (hin : ∀ a ∈ S, pool.exists_ a = true) : (pool.entriesOf S).length = S.length := by
  unfold CTxMemPool.entriesOf
  induction S with
  | nil => rfl
  | cons a S ih =>
    obtain ⟨a0, ha0⟩ := GetIter_isSome_of_exists (hin a (List.mem_cons_self _ _))
    rw [List.filterMap_cons_some ha0, List.length_cons, List.length_cons,
      ih (fun b hb => hin b (List.mem_cons_of_mem _ hb))]

theorem UpdateEntryForAncestors_eq_modify (pool : CTxMemPool) (it : TxId) (S : List TxId) :
    pool.UpdateEntryForAncestors it S
      = pool.modify it (fun e => e.withAncestors (pool.entriesOf S)) := rfl

theorem addToAncestors_GetIter_own (pool : CTxMemPool) (e : CTxMemPoolEntry) (S : List TxId)
    (x : TxId) : ((pool.addToAncestors e S).GetIter x).map CTxMemPoolEntry.own
      = (pool.GetIter x).map CTxMemPoolEntry.own := by
  unfold CTxMemPool.addToAncestors
  induction S generalizing pool with
  | nil => rfl
  | cons a S ih =>
    rw [List.foldl_cons, ih]
    exact GetIter_map_modify CTxMemPoolEntry.own pool a
      (fun y => y.UpdateDescendantState (e.GetTxSize : Int) e.GetModifiedFee 1 e.GetSigChecks)
      (fun _ => rfl) (fun _ => rfl) x

theorem addUnchecked_states (pool : CTxMemPool) (entry : CTxMemPoolEntry) (S : List TxId)
    (hfresh : pool.exists_ entry.tx.id = false) (hS : S.Nodup)
    (hin : ∀ a ∈ S, pool.exists_ a = true) :
    (∀ a ∈ S, ∀ a0, pool.GetIter a = some a0 →
      a0.GetCountWithDescendants + 1 < 2 ^ 64 →
      a0.GetSizeWithDescendants + entry.GetTxSize < 2 ^ 64 →
      ((pool.addUnchecked entry S).GetIter a).map CTxMemPoolEntry.descendantState
        = some (a0.GetCountWithDescendants + 1,
            a0.GetSizeWithDescendants + entry.GetTxSize,
            a0.GetModFeesWithDescendants + entry.GetModifiedFee,
            a0.GetSigChecksWithDescendants + entry.GetSigChecks)) ∧
    (1 + S.length < 2 ^ 64 →
      entry.GetTxSize + ((pool.entriesOf S).map CTxMemPoolEntry.GetTxSize).sum < 2 ^ 64 →
      ((pool.addUnchecked entry S).GetIter entry.tx.id).map CTxMemPoolEntry.ancestorState
        = some (1 + S.length,
            entry.GetTxSize + ((pool.entriesOf S).map CTxMemPoolEntry.GetTxSize).sum,
            entry.GetModifiedFee + ((pool.entriesOf S).map CTxMemPoolEntry.GetModifiedFee).sum,
            entry.GetSigChecks + ((pool.entriesOf S).map CTxMemPoolEntry.GetSigChecks).sum)) ∧
    ((pool.addUnchecked entry S).GetIter entry.tx.id).map CTxMemPoolEntry.descendantState
      = some entry.descendantState := by
  obtain ⟨e, he, hown, hget⟩ := addUnchecked_GetIter pool entry S hfresh hS hin
  have hnot : entry.tx.id ∉ S := not_mem_of_fresh hfresh hin
  have hsize : e.GetTxSize = entry.GetTxSize := congrArg (fun p => p.1) hown
  have hfee : e.GetModifiedFee = entry.GetModifiedFee := congrArg (fun p => p.2.1) hown
  have hsig : e.GetSigChecks = entry.GetSigChecks := congrArg (fun p => p.2.2) hown
  refine ⟨?_, ?_, ?_⟩
  · intro a ha a0 ha0 hc hs
    have hne : a ≠ entry.tx.id := fun h => hnot (h ▸ ha)
    have h4 := insertLinked_GetIter_map CTxMemPoolEntry.descendantState (fun _ _ _ => rfl)
      (fun _ _ _ => rfl) pool entry hfresh a
    rw [if_neg hne, ha0] at h4
    obtain ⟨a4, ha4, hd4⟩ := option_map_eq_some h4
    have h5 : ((pool.insertLinked entry).addToAncestors e S).GetIter a
        = some (a4.UpdateDescendantState (e.GetTxSize : Int) e.GetModifiedFee 1
            e.GetSigChecks) := by
      unfold CTxMemPool.addToAncestors
      rw [GetIter_foldl_modify_of_mem _ ?_ a S _ hS ha, ha4]
      · rfl
      · exact fun _ => rfl
    have h6 : (((pool.insertLinked entry).addToAncestors e S).UpdateEntryForAncestors
        entry.tx.id S).GetIter a
        = ((pool.insertLinked entry).addToAncestors e S).GetIter a := by
      unfold CTxMemPool.UpdateEntryForAncestors
      rw [GetIter_modify _ _ _ ?_ a, if_neg hne]
      exact fun _ => rfl
    rw [hget, h6, h5]
    have e1 : a4.nCountWithDescendants = a0.nCountWithDescendants :=
      congrArg (fun p => p.1) hd4
    have e2 : a4.nSizeWithDescendants = a0.nSizeWithDescendants :=
      congrArg (fun p => p.2.1) hd4
    have e3 : a4.nModFeesWithDescendants = a0.nModFeesWithDescendants :=
      congrArg (fun p => p.2.2.1) hd4
    have e4 : a4.nSigChecksWithDescendants = a0.nSigChecksWithDescendants :=
      congrArg (fun p => p.2.2.2) hd4
    show some (addInt64 a4.nCountWithDescendants 1,
      addInt64 a4.nSizeWithDescendants (e.GetTxSize : Int),
      a4.nModFeesWithDescendants + e.GetModifiedFee,
      a4.nSigChecksWithDescendants + e.GetSigChecks) = _
    have h1 : addInt64 a0.nCountWithDescendants 1 = a0.nCountWithDescendants + 1 :=
      addInt64_natCast _ 1 hc
    have h2 : addInt64 a0.nSizeWithDescendants (entry.GetTxSize : Int)
        = a0.nSizeWithDescendants + entry.GetTxSize := addInt64_natCast _ _ hs
    rw [e1, e2, e3, e4, hsize, hfee, hsig, h1, h2]
    rfl
  · intro hc hs
    have h5 : ((pool.insertLinked entry).addToAncestors e S).GetIter entry.tx.id = some e := by
      unfold CTxMemPool.addToAncestors
      rw [GetIter_foldl_modify_of_not_mem _ ?_ _ S _ hnot, he]
      exact fun _ => rfl
    have hanc : (((pool.insertLinked entry).addToAncestors e S).entriesOf S).map
        CTxMemPoolEntry.own = (pool.entriesOf S).map CTxMemPoolEntry.own := by
      apply filterMap_map_congr
      intro a ha
      have hne : a ≠ entry.tx.id := fun h => hnot (h ▸ ha)
      rw [addToAncestors_GetIter_own,
        insertLinked_GetIter_map CTxMemPoolEntry.own (fun _ _ _ => rfl) (fun _ _ _ => rfl)
          pool entry hfresh a, if_neg hne]
    have hlen : (((pool.insertLinked entry).addToAncestors e S).entriesOf S).length
        = S.length := by
      have h1 := congrArg List.length hanc
      rw [List.length_map, List.length_map] at h1
      rw [h1]
      exact length_entriesOf pool S hin
    have hsz : (((pool.insertLinked entry).addToAncestors e S).entriesOf S).map
        CTxMemPoolEntry.GetTxSize = (pool.entriesOf S).map CTxMemPoolEntry.GetTxSize := by
      have h1 := congrArg (List.map (fun p : Nat × Amount × Int => p.1)) hanc
      rw [List.map_map, List.map_map] at h1
      exact h1
    have hfe : (((pool.insertLinked entry).addToAncestors e S).entriesOf S).map
        CTxMemPoolEntry.GetModifiedFee
        = (pool.entriesOf S).map CTxMemPoolEntry.GetModifiedFee := by
      have h1 := congrArg (List.map (fun p : Nat × Amount × Int => p.2.1)) hanc
      rw [List.map_map, List.map_map] at h1
      exact h1
    have hsg : (((pool.insertLinked entry).addToAncestors e S).entriesOf S).map
        CTxMemPoolEntry.GetSigChecks = (pool.entriesOf S).map CTxMemPoolEntry.GetSigChecks := by
      have h1 := congrArg (List.map (fun p : Nat × Amount × Int => p.2.2)) hanc
      rw [List.map_map, List.map_map] at h1
      exact h1
    have h6 : (((pool.insertLinked entry).addToAncestors e S).UpdateEntryForAncestors
        entry.tx.id S).GetIter entry.tx.id
        = some (e.withAncestors (((pool.insertLinked entry).addToAncestors e S).entriesOf S)) := by
      rw [UpdateEntryForAncestors_eq_modify, GetIter_modify _ _ _ ?_ _, if_pos rfl, h5]
      · rfl
      · exact fun _ => rfl
    rw [hget, h6]
    show some ((1 + (((pool.insertLinked entry).addToAncestors e S).entriesOf S).length)
        % 2 ^ 64,
      (e.GetTxSize + ((((pool.insertLinked entry).addToAncestors e S).entriesOf S).map
        CTxMemPoolEntry.GetTxSize).sum) % 2 ^ 64,
      e.GetModifiedFee + ((((pool.insertLinked entry).addToAncestors e S).entriesOf S).map
        CTxMemPoolEntry.GetModifiedFee).sum,
      e.GetSigChecks + ((((pool.insertLinked entry).addToAncestors e S).entriesOf S).map
        CTxMemPoolEntry.GetSigChecks).sum) = _
    rw [hlen, hsz, hfe, hsg, hsize, hfee, hsig, Nat.mod_eq_of_lt hc, Nat.mod_eq_of_lt hs]
  · have h4 := insertLinked_GetIter_map CTxMemPoolEntry.descendantState (fun _ _ _ => rfl)
      (fun _ _ _ => rfl) pool entry hfresh entry.tx.id
    rw [if_pos rfl, he] at h4
    have h5 : ((pool.insertLinked entry).addToAncestors e S).GetIter entry.tx.id = some e := by
      unfold CTxMemPool.addToAncestors
      rw [GetIter_foldl_modify_of_not_mem _ ?_ _ S _ hnot, he]
      exact fun _ => rfl
    have h6 : (((pool.insertLinked entry).addToAncestors e S).UpdateEntryForAncestors
        entry.tx.id S).GetIter entry.tx.id
        = some (e.withAncestors (((pool.insertLinked entry).addToAncestors e S).entriesOf S)) := by
      rw [UpdateEntryForAncestors_eq_modify, GetIter_modify _ _ _ ?_ _, if_pos rfl, h5]
      · rfl
      · exact fun _ => rfl
    rw [hget, h6]
    exact h4

/-- C11: after `addUnchecked` of a new entry with the ancestor set `S` (ids of
pool entries, each once), the descendant count, size, modified fee and
signature checks of every ancestor have grown by 1 and by the entry's size,
modified fee and signature checks, and the entry's ancestor aggregates are
the sums over `S` plus the entry itself, as long as the 64-bit counters do not
overflow; in the chain A, B, C the ancestor aggregates of C and the descendant
aggregates of A are count 3, size 300, modified fee 3500. -/
theorem addUnchecked_aggregates (pool : CTxMemPool) (entry : CTxMemPoolEntry) (S : List TxId)
    (hfresh : pool.exists_ entry.tx.id = false) (hS : S.Nodup)
    (hin : ∀ a ∈ S, pool.exists_ a = true) :
    (∀ a ∈ S, ∀ a0, pool.GetIter a = some a0 →
      a0.GetCountWithDescendants + 1 < 2 ^ 64 →
      a0.GetSizeWithDescendants + entry.GetTxSize < 2 ^ 64 →
      ((pool.addUnchecked entry S).GetIter a).map CTxMemPoolEntry.descendantState
        = some (a0.GetCountWithDescendants + 1,
            a0.GetSizeWithDescendants + entry.GetTxSize,
            a0.GetModFeesWithDescendants + entry.GetModifiedFee,
            a0.GetSigChecksWithDescendants + entry.GetSigChecks)) ∧
    (1 + S.length < 2 ^ 64 →
      entry.GetTxSize + ((pool.entriesOf S).map CTxMemPoolEntry.GetTxSize).sum < 2 ^ 64 →
      ((pool.addUnchecked entry S).GetIter entry.tx.id).map CTxMemPoolEntry.ancestorState
        = some (1 + S.length,
            entry.GetTxSize + ((pool.entriesOf S).map CTxMemPoolEntry.GetTxSize).sum,
            entry.GetModifiedFee + ((pool.entriesOf S).map CTxMemPoolEntry.GetModifiedFee).sum,
            entry.GetSigChecks + ((pool.entriesOf S).map CTxMemPoolEntry.GetSigChecks).sum)) ∧
    (chainPool.GetIter 3).map CTxMemPoolEntry.ancestorState = some (3, 300, 3500, 3) ∧
    (chainPool.GetIter 1).map CTxMemPoolEntry.descendantState = some (3, 300, 3500, 3) :=
  ⟨(addUnchecked_states pool entry S hfresh hS hin).1,
    (addUnchecked_states pool entry S hfresh hS hin).2.1, by decide, by decide⟩

/-- Witness for C11: D spends B, and it is added to the chain A, B, C with
the ancestor set A, B. -/
theorem addUnchecked_aggregates_witness :
    ((chainPool.addUnchecked (CTxMemPoolEntry.create ⟨5, [⟨2, 1⟩]⟩ 700 100 500 13 0 false 1 {})
        [1, 2]).GetIter 1).map CTxMemPoolEntry.descendantState = some (4, 400, 4200, 4) ∧
    ((chainPool.addUnchecked (CTxMemPoolEntry.create ⟨5, [⟨2, 1⟩]⟩ 700 100 500 13 0 false 1 {})
        [1, 2]).GetIter 5).map CTxMemPoolEntry.ancestorState = some (3, 300, 3700, 3) :=
  ⟨((addUnchecked_aggregates chainPool
      (CTxMemPoolEntry.create ⟨5, [⟨2, 1⟩]⟩ 700 100 500 13 0 false 1 {}) [1, 2]
      (by decide) (by decide) (by decide)).1 1 (by decide) _ rfl (by decide) (by decide)).trans
      (by decide),
    ((addUnchecked_aggregates chainPool
      (CTxMemPoolEntry.create ⟨5, [⟨2, 1⟩]⟩ 700 100 500 13 0 false 1 {}) [1, 2]
      (by decide) (by decide) (by decide)).2.1 (by decide) (by decide)).trans (by decide)⟩

end AggregateClaims

/-! ## Lemmas on the traversal -/

section ReachLemmas

open CTxMemPool

theorem mem_expand (next : TxId → List TxId) (acc : List TxId) (y : TxId) :
    y ∈ expand next acc ↔ y ∈ acc ∨ ∃ x ∈ acc, y ∈ next x := by
  unfold expand
  rw [List.mem_dedup, List.mem_append, List.mem_flatMap]

theorem subset_reach (next : TxId → List TxId) (n : Nat) : ∀ acc : List TxId,
    ∀ x ∈ acc, x ∈ reach next n acc := by
  induction n with
  | zero => intro acc x hx; exact hx
  | succ n ih =>
    intro acc x hx
    exact ih (expand next acc) x ((mem_expand next acc x).mpr (Or.inl hx))

theorem reach_sound (next : TxId → List TxId) (P : TxId → Prop)
    (hstep : ∀ x, P x → ∀ c ∈ next x, P c) (n : Nat) : ∀ acc : List TxId,
    (∀ x ∈ acc, P x) → ∀ y ∈ reach next n acc, P y := by
  induction n with
  | zero => intro acc h y hy; exact h y hy
  | succ n ih =>
    intro acc h y hy
    refine ih (expand next acc) ?_ y hy
    intro x hx
    rcases (mem_expand next acc x).mp hx with h1 | ⟨z, hz, hxz⟩
    · exact h x h1
    · exact hstep z (h z hz) x hxz

theorem reach_of_closed (next : TxId → List TxId) (n : Nat) : ∀ acc : List TxId,
    (∀ x ∈ acc, ∀ c ∈ next x, c ∈ acc) → ∀ y, y ∈ reach next n acc ↔ y ∈ acc := by
  induction n with
  | zero => intro acc _ y; exact Iff.rfl
  | succ n ih =>
    intro acc hc y
    have hsame : ∀ z, z ∈ expand next acc ↔ z ∈ acc := by
      intro z
      rw [mem_expand]
      constructor
      · rintro (h | ⟨x, hx, hzx⟩)
        · exact h
        · exact hc x hx z hzx
      · exact fun h => Or.inl h
    have hc2 : ∀ x ∈ expand next acc, ∀ c ∈ next x, c ∈ expand next acc := by
      intro x hx c hcx
      exact (hsame c).mpr (hc x ((hsame x).mp hx) c hcx)
    show y ∈ reach next n (expand next acc) ↔ _
    rw [ih (expand next acc) hc2 y, hsame]

theorem length_lt_of_nodup_subset {acc acc2 : List TxId} (hn : acc.Nodup)
    (hsub : ∀ x ∈ acc, x ∈ acc2) {y : TxId} (hy : y ∈ acc2) (hny : y ∉ acc) :
    acc.length < acc2.length := by
  have hn2 : (y :: acc).Nodup := List.nodup_cons.mpr ⟨hny, hn⟩
  have hsub2 : (y :: acc) ⊆ acc2 := by
    intro x hx
    rcases List.mem_cons.mp hx with h | h
    · rw [h]; exact hy
    · exact hsub x h
  have := (List.subperm_of_subset hn2 hsub2).length_le
  rw [List.length_cons] at this
  omega

theorem reach_closed (next : TxId → List TxId) (U : List TxId)
    (hU : ∀ x ∈ U, ∀ c ∈ next x, c ∈ U) (n : Nat) : ∀ acc : List TxId,
    acc.Nodup → (∀ x ∈ acc, x ∈ U) → U.length ≤ acc.length + n →
    ∀ x ∈ reach next n acc, ∀ c ∈ next x, c ∈ reach next n acc := by
  induction n with
  | zero =>
    intro acc hn hsub hlen x hx c hc
    have hperm : acc.Perm U :=
      (List.subperm_of_subset hn hsub).perm_of_length_le (by omega)
    exact hperm.mem_iff.mpr (hU x (hsub x hx) c hc)
  | succ n ih =>
    intro acc hn hsub hlen
    have hn2 : (expand next acc).Nodup := List.nodup_dedup _
    have hsub2 : ∀ x ∈ expand next acc, x ∈ U := by
      intro x hx
      rcases (mem_expand next acc x).mp hx with h | ⟨z, hz, hxz⟩
      · exact hsub x h
      · exact hU z (hsub z hz) x hxz
    by_cases hfix : ∀ y ∈ expand next acc, y ∈ acc
    · have hclosed : ∀ x ∈ expand next acc, ∀ c ∈ next x, c ∈ expand next acc := by
        intro x hx c hc
        exact (mem_expand next acc c).mpr (Or.inr ⟨x, hfix x hx, hc⟩)
      intro x hx c hc
      have hx2 := (reach_of_closed next n _ hclosed x).mp hx
      exact (reach_of_closed next n _ hclosed c).mpr (hclosed x hx2 c hc)
    · push_neg at hfix
      obtain ⟨y, hy, hny⟩ := hfix
      have hlt := length_lt_of_nodup_subset hn
        (fun x hx => (mem_expand next acc x).mpr (Or.inl hx)) hy hny
      exact ih (expand next acc) hn2 hsub2 (by omega)

theorem childrenOf_exists (pool : CTxMemPool) (x c : TxId) (h : c ∈ pool.childrenOf x) :
    pool.exists_ c = true := by
  unfold CTxMemPool.childrenOf at h
  cases hg : pool.GetIter x with
  | none => rw [hg] at h; exact absurd h (List.not_mem_nil _)
  | some e =>
    rw [hg] at h
    exact (List.mem_filter.mp h).2

theorem mem_ids_of_exists (pool : CTxMemPool) (c : TxId) (h : pool.exists_ c = true) :
    c ∈ pool.mapTx.map (fun e => e.tx.id) := by
  obtain ⟨e, he, hid⟩ := (exists_iff pool c).mp h
  exact List.mem_map.mpr ⟨e, he, hid⟩

theorem mem_CalculateDescendants (pool : CTxMemPool) (t d : TxId) :
    d ∈ pool.CalculateDescendants t [] ↔ pool.IsDescendant t d := by
  unfold CTxMemPool.CalculateDescendants
  rw [List.nil_append, List.mem_dedup]
  constructor
  · intro h
    exact reach_sound pool.childrenOf (pool.IsDescendant t)
      (fun x hx c hc => Relation.ReflTransGen.tail hx hc) _ [t]
      (fun x hx => by rw [List.mem_singleton.mp hx]; exact Relation.ReflTransGen.refl) d h
  · intro h
    have hclosed := reach_closed pool.childrenOf (t :: pool.mapTx.map (fun e => e.tx.id))
      (fun x _ c hc => List.mem_cons_of_mem _
        (mem_ids_of_exists pool c (childrenOf_exists pool x c hc)))
      pool.mapTx.length [t] (List.nodup_singleton t)
      (fun x hx => by rw [List.mem_singleton.mp hx]; exact List.mem_cons_self _ _)
      (by rw [List.length_cons, List.length_map, List.length_singleton]; omega)
    induction h with
    | refl => exact subset_reach _ _ _ t (List.mem_singleton.mpr rfl)
    | tail _ hc ih => exact hclosed _ ih _ hc

end ReachLemmas

/-! ## Claims on recursive removal -/

section RemoveRecursiveClaims

theorem exists_RemoveStaged (Q : CTxMemPool) (stage : List TxId) (upd : Bool)
    (reason : MemPoolRemovalReason) (x : TxId) :
    (Q.RemoveStaged stage upd reason).exists_ x = true ↔
      Q.exists_ x = true ∧ x ∉ stage := by
  rw [exists_iff_graph, exists_iff_graph]
  unfold CTxMemPool.RemoveStaged
  simp only
  rw [graph_foldl_removeUnchecked, graph_UpdateForRemoveFromMempool]
  obtain ⟨done, _, F, hF, hprop⟩ := severed_foldl (graph Q) ((stage.filter Q.exists_).dedup)
    ((stage.filter Q.exists_).dedup) [] (graph Q) (fun _ h => h) (severed_refl _ _)
  rw [hF]
  constructor
  · rintro ⟨v, hv, hvx⟩
    rw [List.mem_filter, List.mem_map] at hv
    obtain ⟨⟨v0, hv0, hFv⟩, hnot⟩ := hv
    have hid : v0.1 = x := by rw [← (hprop v0).1, hFv, hvx]
    have hex : Q.exists_ x = true := (exists_iff_graph Q x).mpr ⟨v0, hv0, hid⟩
    refine ⟨⟨v0, hv0, hid⟩, ?_⟩
    intro hst
    have hnot2 : v.1 ∉ (stage.filter Q.exists_).dedup := of_decide_eq_true hnot
    apply hnot2
    rw [List.mem_dedup, List.mem_filter, hvx]
    exact ⟨hst, hex⟩
  · rintro ⟨⟨v0, hv0, hid⟩, hst⟩
    refine ⟨F v0, ?_, by rw [(hprop v0).1, hid]⟩
    rw [List.mem_filter]
    refine ⟨List.mem_map_of_mem _ hv0, ?_⟩
    have : (F v0).1 ∉ (stage.filter Q.exists_).dedup := by
      rw [(hprop v0).1, hid, List.mem_dedup, List.mem_filter]
      exact fun h => hst h.1
    exact decide_eq_true this

theorem exists_removeRecursive (pool : CTxMemPool) (tx : CTransaction)
    (reason : MemPoolRemovalReason) (x : TxId) :
    (pool.removeRecursive tx reason).exists_ x = true ↔
      pool.exists_ x = true ∧ ¬ pool.IsDescendant tx.id x := by
  unfold CTxMemPool.removeRecursive
  rw [exists_RemoveStaged, mem_CalculateDescendants]

/-- C13: after `removeRecursive` of `t` the pool holds exactly the former
entries that are neither `t` nor an in-pool descendant of `t`, so neither `t`
nor a descendant is left; and in a pool whose links are symmetric and without
dangling references, no surviving entry lists a removed entry as parent or
child. -/
theorem removeRecursive_closed (pool : CTxMemPool) (tx : CTransaction)
    (reason : MemPoolRemovalReason) (hs : GraphSymmetric pool) (hd : NoDangling pool) :
    (∀ d, pool.IsDescendant tx.id d → (pool.removeRecursive tx reason).exists_ d = false) ∧
    (pool.removeRecursive tx reason).exists_ tx.id = false ∧
    (∀ x, (pool.removeRecursive tx reason).exists_ x = true ↔
      pool.exists_ x = true ∧ ¬ pool.IsDescendant tx.id x) ∧
    (∀ e ∈ (pool.removeRecursive tx reason).mapTx, ∀ r, pool.exists_ r = true →
      (pool.removeRecursive tx reason).exists_ r = false →
      r ∉ e.m_parents ∧ r ∉ e.m_children) := by
  have hgone : ∀ d, pool.IsDescendant tx.id d →
      (pool.removeRecursive tx reason).exists_ d = false := by
    intro d hdesc
    cases h : (pool.removeRecursive tx reason).exists_ d with
    | false => rfl
    | true => exact absurd hdesc ((exists_removeRecursive pool tx reason d).mp h).2
  refine ⟨hgone, hgone tx.id Relation.ReflTransGen.refl, exists_removeRecursive pool tx reason,
    ?_⟩
  have hw := (wellLinked_iff_graph _).mpr
    (wellLinked_removeRecursive pool tx reason ((wellLinked_iff_graph pool).mp ⟨hs, hd⟩))
  intro e he r _ hr
  refine ⟨?_, ?_⟩
  · intro hmem
    have := (hw.2 e he).1 r hmem
    rw [hr] at this
    exact absurd this (by decide)
  · intro hmem
    have := (hw.2 e he).2 r hmem
    rw [hr] at this
    exact absurd this (by decide)

/-- Witness for C13: removing B from the chain A, B, C removes B and its
descendant C and leaves A, which lists no child any more. -/
theorem removeRecursive_closed_witness :
    (chainPool.removeRecursive txB MemPoolRemovalReason.EXPIRY).exists_ 2 = false ∧
    (chainPool.removeRecursive txB MemPoolRemovalReason.EXPIRY).exists_ 3 = false ∧
    (chainPool.removeRecursive txB MemPoolRemovalReason.EXPIRY).mapTx.map linkView
      = [(1, [], [])] :=
  ⟨(removeRecursive_closed chainPool txB MemPoolRemovalReason.EXPIRY (by decide)
      (by decide)).2.1,
    (removeRecursive_closed chainPool txB MemPoolRemovalReason.EXPIRY (by decide)
      (by decide)).1 3
      (Relation.ReflTransGen.single (by decide)),
    by decide⟩

end RemoveRecursiveClaims

/-! ## Lemmas on the ancestor calculation -/

section AncestorLemmas

open CTxMemPool

variable (pool : CTxMemPool) (es ec lAC lAS lDC lDS : Nat)

theorem ancestorLoop_nil (fuel : Nat) (SA : List TxId) (total : Nat) :
    pool.ancestorLoop es ec lAC lAS lDC lDS fuel [] SA total = Except.ok SA := by
  cases fuel <;> rfl

theorem ancestorLoop_run (fuel : Nat) : ∀ (staged SA : List TxId) (total : Nat) (A : List TxId),
    pool.ancestorLoop es ec lAC lAS lDC lDS fuel staged SA total = Except.ok A →
    AncestorRun pool es ec lAC lAS lDC lDS staged SA total A := by
  induction fuel with
  | zero =>
    intro staged SA total A h
    cases staged with
    | nil =>
      rw [ancestorLoop_nil] at h
      rw [← Except.ok.inj h]
      exact AncestorRun.done SA total
    | cons x xs => exact absurd h (by simp [ancestorLoop])
  | succ fuel ih =>
    intro staged SA total A h
    cases staged with
    | nil =>
      rw [ancestorLoop_nil] at h
      rw [← Except.ok.inj h]
      exact AncestorRun.done SA total
    | cons stage staged =>
      unfold ancestorLoop at h
      cases hg : pool.GetIter stage with
      | none =>
        rw [hg] at h
        exact AncestorRun.skip stage staged SA total A hg (ih _ _ _ _ h)
      | some s =>
        rw [hg] at h
        simp only at h
        split at h
        · exact absurd h (by simp)
        · split at h
          · exact absurd h (by simp)
          · split at h
            · exact absurd h (by simp)
            · split at h
              · exact absurd h (by simp)
              · exact AncestorRun.visit stage staged SA total A s hg (by omega) (by omega)
                  (by omega) (by omega) (ih _ _ _ _ h)

theorem mem_newParents (stage : TxId) (SA staged : List TxId) (p : TxId) :
    p ∈ pool.newParents stage SA staged ↔
      p ∈ pool.parentsOf stage ∧ p ∉ SA ∧ p ∉ staged := by
  unfold newParents
  rw [List.mem_filter, List.mem_dedup, Bool.and_eq_true, decide_eq_true_iff,
    decide_eq_true_iff]

theorem parentsOf_exists (x p : TxId) (h : p ∈ pool.parentsOf x) :
    pool.exists_ p = true := by
  unfold CTxMemPool.parentsOf at h
  cases hg : pool.GetIter x with
  | none => rw [hg] at h; exact absurd h (List.not_mem_nil _)
  | some e =>
    rw [hg] at h
    exact (List.mem_filter.mp h).2

theorem run_ext {staged SA : List TxId} {total : Nat} {A : List TxId}
    (h : AncestorRun pool es ec lAC lAS lDC lDS staged SA total A) :
    ∃ ext, A = SA ++ ext ∧
      (∀ x ∈ staged, pool.exists_ x = true → x ∈ A) ∧
      (∀ x ∈ ext, ∀ p ∈ pool.parentsOf x, p ∈ A) ∧
      (∀ x ∈ ext, ∃ s, pool.GetIter x = some s ∧
        (s.GetSizeWithDescendants + es) % 2 ^ 64 ≤ lDS ∧
        (s.GetCountWithDescendants + ec) % 2 ^ 64 ≤ lDC) := by
  induction h with
  | done SA total =>
    exact ⟨[], (List.append_nil _).symm, fun x hx => absurd hx (List.not_mem_nil _),
      fun x hx => absurd hx (List.not_mem_nil _), fun x hx => absurd hx (List.not_mem_nil _)⟩
  | skip stage staged SA total A hg _ ih =>
    obtain ⟨ext, hA, h3, h4, h6⟩ := ih
    refine ⟨ext, hA, ?_, h4, h6⟩
    intro x hx hex
    rcases List.mem_cons.mp hx with h1 | h1
    · rw [h1] at hex
      rw [(GetIter_eq_none_iff pool stage).mp hg] at hex
      exact absurd hex (by decide)
    · exact h3 x h1 hex
  | visit stage staged SA total A s hg c1 c2 _ _ _ ih =>
    obtain ⟨ext, hA, h3, h4, h6⟩ := ih
    have hA2 : A = SA ++ (stage :: ext) := by rw [hA, List.append_assoc]; rfl
    have hstage : stage ∈ A := by
      rw [hA2]; exact List.mem_append_right _ (List.mem_cons_self _ _)
    refine ⟨stage :: ext, hA2, ?_, ?_, ?_⟩
    · intro x hx hex
      rcases List.mem_cons.mp hx with h1 | h1
      · rw [h1]; exact hstage
      · exact h3 x (List.mem_append_left _ h1) hex
    · intro x hx p hp
      rcases List.mem_cons.mp hx with h1 | h1
      · rw [h1] at hp
        by_cases hsa : p ∈ SA ++ [stage]
        · rw [hA]; exact List.mem_append_left _ hsa
        · by_cases hst : p ∈ staged
          · exact h3 p (List.mem_append_left _ hst) (parentsOf_exists pool stage p hp)
          · exact h3 p (List.mem_append_right _
              ((mem_newParents pool stage _ _ p).mpr ⟨hp, hsa, hst⟩))
              (parentsOf_exists pool stage p hp)
      · exact h4 x h1 p hp
    · intro x hx
      rcases List.mem_cons.mp hx with h1 | h1
      · rw [h1]; exact ⟨s, hg, c1, c2⟩
      · exact h6 x h1

theorem run_sound (P : TxId → Prop) (hP : ∀ x, P x → ∀ p ∈ pool.parentsOf x, P p)
    {staged SA : List TxId} {total : Nat} {A : List TxId}
    (h : AncestorRun pool es ec lAC lAS lDC lDS staged SA total A) :
    (∀ x ∈ staged, P x) → (∀ x ∈ SA, P x) → ∀ x ∈ A, P x := by
  induction h with
  | done SA total => exact fun _ h2 => h2
  | skip stage staged SA total A _ _ ih =>
    exact fun h1 h2 => ih (fun x hx => h1 x (List.mem_cons_of_mem _ hx)) h2
  | visit stage staged SA total A s _ _ _ _ _ _ ih =>
    intro h1 h2
    have hstage : P stage := h1 stage (List.mem_cons_self _ _)
    apply ih
    · intro x hx
      rcases List.mem_append.mp hx with h3 | h3
      · exact h1 x (List.mem_cons_of_mem _ h3)
      · exact hP stage hstage x ((mem_newParents pool stage _ _ x).mp h3).1
    · intro x hx
      rcases List.mem_append.mp hx with h3 | h3
      · exact h2 x h3
      · rw [List.mem_singleton.mp h3]; exact hstage

theorem run_nodup {staged SA : List TxId} {total : Nat} {A : List TxId}
    (h : AncestorRun pool es ec lAC lAS lDC lDS staged SA total A) :
    (staged ++ SA).Nodup → (∀ x ∈ staged ++ SA, pool.exists_ x = true) →
    A.Nodup ∧ ∀ x ∈ A, pool.exists_ x = true := by
  induction h with
  | done SA total => exact fun h1 h2 => ⟨h1, h2⟩
  | skip stage staged SA total A _ _ ih =>
    intro h1 h2
    exact ih (List.nodup_cons.mp h1).2 (fun x hx => h2 x (List.mem_cons_of_mem _ hx))
  | visit stage staged SA total A s _ _ _ _ _ _ ih =>
    intro h1 h2
    apply ih
    · have hN : (pool.newParents stage (SA ++ [stage]) staged).Nodup :=
        List.Nodup.filter _ (List.nodup_dedup _)
      have hperm : ((staged ++ pool.newParents stage (SA ++ [stage]) staged)
          ++ (SA ++ [stage])).Perm
          (pool.newParents stage (SA ++ [stage]) staged ++ (stage :: staged ++ SA)) := by
        rw [List.perm_iff_count]
        intro a
        simp only [List.count_append, List.count_cons, List.count_nil]
        omega
      rw [hperm.nodup_iff, List.nodup_append]
      refine ⟨hN, h1, ?_⟩
      intro p hp hp2
      obtain ⟨_, hn1, hn2⟩ := (mem_newParents pool stage _ _ p).mp hp
      rcases List.mem_cons.mp hp2 with h3 | h3
      · exact hn1 (List.mem_append_right _ (List.mem_singleton.mpr h3))
      · rcases List.mem_append.mp h3 with h4 | h4
        · exact hn2 h4
        · exact hn1 (List.mem_append_left _ h4)
    · intro x hx
      rcases List.mem_append.mp hx with h3 | h3
      · rcases List.mem_append.mp h3 with h4 | h4
        · exact h2 x (List.mem_cons_of_mem _ (List.mem_append_left _ h4))
        · exact parentsOf_exists pool stage x ((mem_newParents pool stage _ _ x).mp h4).1
      · rcases List.mem_append.mp h3 with h4 | h4
        · exact h2 x (List.mem_cons_of_mem _ (List.mem_append_right _ h4))
        · rw [List.mem_singleton.mp h4]; exact h2 stage (List.mem_cons_self _ _)

theorem run_nil {SA : List TxId} {total : Nat} {A : List TxId}
    (h : AncestorRun pool es ec lAC lAS lDC lDS [] SA total A) : A = SA := by
  cases h
  rfl

theorem run_limits {staged SA : List TxId} {total : Nat} {A : List TxId}
    (h : AncestorRun pool es ec lAC lAS lDC lDS staged SA total A) :
    (∀ x ∈ staged, pool.exists_ x = true) → staged ≠ [] →
    ∃ ext, A = SA ++ ext ∧ (A.length + ec) % 2 ^ 64 ≤ lAC ∧
      ((pool.entriesOf ext).map CTxMemPoolEntry.GetTxSize).foldl
        (fun t x => (t + x) % 2 ^ 64) total ≤ lAS := by
  induction h with
  | done SA total => exact fun _ h2 => absurd rfl h2
  | skip stage staged SA total A hg _ _ =>
    intro h1 _
    have := h1 stage (List.mem_cons_self _ _)
    rw [(GetIter_eq_none_iff pool stage).mp hg] at this
    exact absurd this (by decide)
  | visit stage staged SA total A s hg _ _ c3 c4 hrun ih =>
    intro h1 _
    have hent : ∀ ext : List TxId, pool.entriesOf (stage :: ext) = s :: pool.entriesOf ext :=
      fun ext => List.filterMap_cons_some hg
    by_cases hempty : staged ++ pool.newParents stage (SA ++ [stage]) staged = []
    · rw [hempty] at hrun c4
      have hA := run_nil pool es ec lAC lAS lDC lDS hrun
      refine ⟨[stage], hA, ?_, ?_⟩
      · rw [hA]
        rw [List.length_nil, Nat.zero_add] at c4
        exact c4
      · rw [hent []]
        exact c3
    · have hin : ∀ x ∈ staged ++ pool.newParents stage (SA ++ [stage]) staged,
          pool.exists_ x = true := by
        intro x hx
        rcases List.mem_append.mp hx with h3 | h3
        · exact h1 x (List.mem_cons_of_mem _ h3)
        · exact parentsOf_exists pool stage x ((mem_newParents pool stage _ _ x).mp h3).1
      obtain ⟨ext, hA, hc, hs⟩ := ih hin hempty
      refine ⟨stage :: ext, by rw [hA, List.append_assoc]; rfl, hc, ?_⟩
      rw [hent ext]
      exact hs

theorem wrapped_sum_eq (l : List Nat) : ∀ t : Nat, t + l.sum < 2 ^ 64 →
    l.foldl (fun t x => (t + x) % 2 ^ 64) t = t + l.sum := by
  induction l with
  | nil => intro t _; rfl
  | cons a l ih =>
    intro t h
    rw [List.sum_cons] at h
    rw [List.foldl_cons, Nat.mod_eq_of_lt (by omega), ih (t + a) (by omega), List.sum_cons]
    omega

end AncestorLemmas

section AncestorFuel

open CTxMemPool

variable (pool : CTxMemPool) (es ec lAC lAS lDC lDS : Nat)

theorem unmet_step (stage : TxId) (staged SA : List TxId) (D : List TxId) (hD : D.Nodup)
    (hpool : ∀ x, pool.exists_ x = true → x ∈ D) :
    (pool.newParents stage (SA ++ [stage]) staged).length
      + (D.filter (fun x => decide (x ∉ SA ++ [stage])
          && decide (x ∉ staged ++ pool.newParents stage (SA ++ [stage]) staged))).length
      ≤ (D.filter (fun x => decide (x ∉ SA) && decide (x ∉ stage :: staged))).length := by
  rw [← List.length_append]
  apply List.Subperm.length_le
  apply List.subperm_of_subset
  · rw [List.nodup_append]
    refine ⟨List.Nodup.filter _ (List.nodup_dedup _), List.Nodup.filter _ hD, ?_⟩
    intro p hp hp2
    have h2 := (List.mem_filter.mp hp2).2
    rw [Bool.and_eq_true, decide_eq_true_iff, decide_eq_true_iff] at h2
    exact h2.2 (List.mem_append_right _ hp)
  · intro p hp
    rw [List.mem_filter, Bool.and_eq_true, decide_eq_true_iff, decide_eq_true_iff]
    rcases List.mem_append.mp hp with h | h
    · obtain ⟨h1, h2, h3⟩ := (mem_newParents pool stage _ _ p).mp h
      refine ⟨hpool p (parentsOf_exists pool stage p h1),
        fun h4 => h2 (List.mem_append_left _ h4), ?_⟩
      intro h4
      rcases List.mem_cons.mp h4 with h5 | h5
      · exact h2 (List.mem_append_right _ (List.mem_singleton.mpr h5))
      · exact h3 h5
    · have h2 := List.mem_filter.mp h
      rw [Bool.and_eq_true, decide_eq_true_iff, decide_eq_true_iff] at h2
      refine ⟨h2.1, fun h4 => h2.2.1 (List.mem_append_left _ h4), ?_⟩
      intro h4
      rcases List.mem_cons.mp h4 with h5 | h5
      · exact h2.2.1 (List.mem_append_right _ (List.mem_singleton.mpr h5))
      · exact h2.2.2 (List.mem_append_left _ h5)

theorem ancestorLoop_error (D : List TxId) (hD : D.Nodup)
    (hpool : ∀ x, pool.exists_ x = true ↔ x ∈ D) (fuel : Nat) :
    ∀ (staged SA : List TxId) (total : Nat) (msg : String),
    staged.length
      + (D.filter (fun x => decide (x ∉ SA) && decide (x ∉ staged))).length ≤ fuel →
    pool.ancestorLoop es ec lAC lAS lDC lDS fuel staged SA total = Except.error msg →
    msg = "ancestor-limit" ∨ msg = "descendant-limit" := by
  induction fuel with
  | zero =>
    intro staged SA total msg hle h
    cases staged with
    | nil => rw [ancestorLoop_nil] at h; exact absurd h (by simp)
    | cons x xs => rw [List.length_cons] at hle; omega
  | succ fuel ih =>
    intro staged SA total msg hle h
    cases staged with
    | nil => rw [ancestorLoop_nil] at h; exact absurd h (by simp)
    | cons stage staged =>
      unfold ancestorLoop at h
      rw [List.length_cons] at hle
      cases hg : pool.GetIter stage with
      | none =>
        rw [hg] at h
        refine ih staged SA total msg ?_ h
        have hsame : D.filter (fun x => decide (x ∉ SA) && decide (x ∉ staged))
            = D.filter (fun x => decide (x ∉ SA) && decide (x ∉ stage :: staged)) := by
          apply List.filter_congr
          intro x hx
          have hne : x ≠ stage := by
            intro hxs
            have := (hpool x).mpr hx
            rw [hxs, (GetIter_eq_none_iff pool stage).mp hg] at this
            exact absurd this (by decide)
          simp [List.mem_cons, hne]
        rw [hsame]
        omega
      | some s =>
        rw [hg] at h
        simp only at h
        split at h
        · exact Or.inr (Except.error.inj h).symm
        · split at h
          · exact Or.inr (Except.error.inj h).symm
          · split at h
            · exact Or.inl (Except.error.inj h).symm
            · split at h
              · exact Or.inl (Except.error.inj h).symm
              · refine ih _ _ _ msg ?_ h
                have := unmet_step pool stage staged SA D hD (fun x hx => (hpool x).mp hx)
                rw [List.length_append]
                omega

theorem CalculateAncestorsAndCheckLimits_error (SA staged : List TxId) (msg : String)
    (h : pool.CalculateAncestorsAndCheckLimits es ec SA staged lAC lAS lDC lDS
      = Except.error msg) :
    msg = "ancestor-limit" ∨ msg = "descendant-limit" := by
  unfold CalculateAncestorsAndCheckLimits at h
  refine ancestorLoop_error pool es ec lAC lAS lDC lDS
    (pool.mapTx.map (fun e => e.tx.id)).dedup (List.nodup_dedup _) ?_ _ _ _ _ msg ?_ h
  · intro x
    rw [List.mem_dedup, exists_iff, List.mem_map]
  · have h1 := List.length_filter_le
      (fun x => decide (x ∉ SA) && decide (x ∉ staged))
      (pool.mapTx.map (fun e => e.tx.id)).dedup
    have h2 := (List.dedup_sublist (pool.mapTx.map (fun e => e.tx.id))).length_le
    rw [List.length_map] at h2
    omega

end AncestorFuel

section AncestorResult

open CTxMemPool

theorem entriesOf_ids (pool : CTxMemPool) (S : List TxId)
    (hin : ∀ a ∈ S, pool.exists_ a = true) :
    (pool.entriesOf S).map (fun e => e.tx.id) = S := by
  unfold CTxMemPool.entriesOf
  induction S with
  | nil => rfl
  | cons a S ih =>
    obtain ⟨a0, ha0⟩ := GetIter_isSome_of_exists (hin a (List.mem_cons_self _ _))
    rw [List.filterMap_cons_some ha0, List.map_cons, GetIter_some_id ha0,
      ih (fun b hb => hin b (List.mem_cons_of_mem _ hb))]

theorem entriesOf_subperm (pool : CTxMemPool) (S : List TxId) (hS : S.Nodup)
    (hin : ∀ a ∈ S, pool.exists_ a = true) : (pool.entriesOf S).Subperm pool.mapTx := by
  apply List.subperm_of_subset
  · apply List.Nodup.of_map (fun e => e.tx.id)
    rw [entriesOf_ids pool S hin]
    exact hS
  · intro e he
    unfold CTxMemPool.entriesOf at he
    obtain ⟨a, _, ha⟩ := List.mem_filterMap.mp he
    exact List.mem_of_find?_eq_some ha

theorem length_le_of_nodup_exists (pool : CTxMemPool) (S : List TxId) (hS : S.Nodup)
    (hin : ∀ a ∈ S, pool.exists_ a = true) : S.length ≤ pool.mapTx.length := by
  rw [← length_entriesOf pool S hin]
  exact (entriesOf_subperm pool S hS hin).length_le

theorem sum_entriesOf_le (pool : CTxMemPool) (S : List TxId) (hS : S.Nodup)
    (hin : ∀ a ∈ S, pool.exists_ a = true) :
    ((pool.entriesOf S).map CTxMemPoolEntry.GetTxSize).sum
      ≤ (pool.mapTx.map CTxMemPoolEntry.GetTxSize).sum := by
  obtain ⟨l, hperm, hsub⟩ := entriesOf_subperm pool S hS hin
  rw [← (hperm.map CTxMemPoolEntry.GetTxSize).sum_eq]
  exact (hsub.map CTxMemPoolEntry.GetTxSize).sum_le_sum (fun _ _ => Nat.zero_le _)

theorem inPoolParents_exists (pool : CTxMemPool) (tx : CTransaction) :
    ∀ x ∈ pool.inPoolParents tx, pool.exists_ x = true := by
  intro x hx
  unfold CTxMemPool.inPoolParents at hx
  exact (List.mem_filter.mp (List.mem_dedup.mp hx)).2

theorem CalculateMemPoolAncestors_ok (pool : CTxMemPool) (entry : CTxMemPoolEntry)
    (lAC lAS lDC lDS : Nat) (A : List TxId)
    (h : pool.CalculateMemPoolAncestors entry lAC lAS lDC lDS true = Except.ok A) :
    A.Nodup ∧ (∀ a ∈ A, pool.exists_ a = true) ∧
    (∀ a, a ∈ A ↔ pool.IsAncestorFrom (pool.inPoolParents entry.tx) a) ∧
    (∀ a ∈ A, ∃ s, pool.GetIter a = some s ∧
      (s.GetSizeWithDescendants + entry.GetTxSize) % 2 ^ 64 ≤ lDS ∧
      (s.GetCountWithDescendants + 1) % 2 ^ 64 ≤ lDC) ∧
    (pool.inPoolParents entry.tx ≠ [] →
      (A.length + 1) % 2 ^ 64 ≤ lAC ∧
      ((pool.entriesOf A).map CTxMemPoolEntry.GetTxSize).foldl
        (fun t x => (t + x) % 2 ^ 64) entry.GetTxSize ≤ lAS) := by
  have hrun := ancestorLoop_run pool entry.GetTxSize 1 lAC lAS lDC lDS _ _ _ _ _ h
  have hstaged := inPoolParents_exists pool entry.tx
  have hnd : (pool.inPoolParents entry.tx).Nodup := List.nodup_dedup _
  obtain ⟨ext, hA, h3, h4, h6⟩ := run_ext pool entry.GetTxSize 1 lAC lAS lDC lDS hrun
  rw [List.nil_append] at hA
  subst hA
  have hinv := run_nodup pool entry.GetTxSize 1 lAC lAS lDC lDS hrun
    (by rw [List.append_nil]; exact hnd)
    (by rw [List.append_nil]; exact hstaged)
  refine ⟨hinv.1, hinv.2, ?_, h6, ?_⟩
  · intro a
    constructor
    · intro ha
      exact run_sound pool entry.GetTxSize 1 lAC lAS lDC lDS
        (pool.IsAncestorFrom (pool.inPoolParents entry.tx))
        (fun x ⟨p, hp, hr⟩ y hy => ⟨p, hp, Relation.ReflTransGen.tail hr hy⟩) hrun
        (fun x hx => ⟨x, hx, Relation.ReflTransGen.refl⟩)
        (fun x hx => absurd hx (List.not_mem_nil _)) a ha
    · rintro ⟨p, hp, hr⟩
      induction hr with
      | refl => exact h3 p hp (hstaged p hp)
      | tail _ hy ih => exact h4 _ ih _ hy
  · intro hne
    obtain ⟨ext2, hA2, hc, hs⟩ := run_limits pool entry.GetTxSize 1 lAC lAS lDC lDS hrun
      hstaged hne
    rw [List.nil_append] at hA2
    subst hA2
    exact ⟨hc, hs⟩

end AncestorResult

/-! ## Claims on the ancestor limits -/

section AncestorClaims

open CTxMemPool

theorem CalculateMemPoolAncestors_pre (pool : CTxMemPool) (entry : CTxMemPoolEntry)
    (lAC lAS lDC lDS : Nat)
    (hparent : pool.inPoolParents entry.tx ≠ [])
    (hno1 : ∀ s ∈ pool.mapTx, s.GetCountWithDescendants + 1 < 2 ^ 64 ∧
      s.GetSizeWithDescendants + entry.GetTxSize < 2 ^ 64)
    (hno2 : entry.GetTxSize + (pool.mapTx.map CTxMemPoolEntry.GetTxSize).sum < 2 ^ 64)
    (hno3 : pool.mapTx.length + 1 < 2 ^ 64) (A : List TxId)
    (h : pool.CalculateMemPoolAncestors entry lAC lAS lDC lDS true = Except.ok A) :
    A.Nodup ∧ (∀ a ∈ A, pool.exists_ a = true) ∧
    (∀ a, a ∈ A ↔ pool.IsAncestorFrom (pool.inPoolParents entry.tx) a) ∧
    1 + A.length ≤ lAC ∧
    entry.GetTxSize + ((pool.entriesOf A).map CTxMemPoolEntry.GetTxSize).sum ≤ lAS ∧
    (∀ a ∈ A, ∀ s, pool.GetIter a = some s →
      s.GetCountWithDescendants + 1 ≤ lDC ∧ s.GetSizeWithDescendants + entry.GetTxSize ≤ lDS) ∧
    1 ≤ lDC ∧ entry.GetTxSize ≤ lDS := by
  obtain ⟨hnd, hex, hanc, hchk, hlim⟩ := CalculateMemPoolAncestors_ok pool entry lAC lAS lDC
    lDS A h
  obtain ⟨hc, hsz⟩ := hlim hparent
  have hlen := length_le_of_nodup_exists pool A hnd hex
  have hsum := sum_entriesOf_le pool A hnd hex
  rw [Nat.mod_eq_of_lt (by omega)] at hc
  rw [wrapped_sum_eq _ _ (by omega)] at hsz
  have hpre : ∀ a ∈ A, ∀ s, pool.GetIter a = some s →
      s.GetCountWithDescendants + 1 ≤ lDC ∧
      s.GetSizeWithDescendants + entry.GetTxSize ≤ lDS := by
    intro a ha s hs
    obtain ⟨s2, hs2, c1, c2⟩ := hchk a ha
    rw [hs] at hs2
    rw [← Option.some.inj hs2] at c1 c2
    have hb := hno1 s (List.mem_of_find?_eq_some hs)
    rw [Nat.mod_eq_of_lt hb.2] at c1
    rw [Nat.mod_eq_of_lt hb.1] at c2
    exact ⟨c2, c1⟩
  obtain ⟨p, hp⟩ := List.exists_mem_of_ne_nil _ hparent
  have hpA : p ∈ A := (hanc p).mpr ⟨p, hp, Relation.ReflTransGen.refl⟩
  obtain ⟨s, hs⟩ := GetIter_isSome_of_exists (hex p hpA)
  have hb := hpre p hpA s hs
  exact ⟨hnd, hex, hanc, by omega, hsz, hpre, by omega, by omega⟩

end AncestorClaims

/-! ## Claims on trimming -/

section TrimClaims

open CTxMemPool

theorem length_RemoveStaged_lt (Q : CTxMemPool) (stage : List TxId) (upd : Bool)
    (reason : MemPoolRemovalReason) (x : TxId) (hx : x ∈ stage) (hex : Q.exists_ x = true) :
    (Q.RemoveStaged stage upd reason).mapTx.length < Q.mapTx.length := by
  have h1 : (Q.RemoveStaged stage upd reason).mapTx.length
      = (graph (Q.RemoveStaged stage upd reason)).length := by
    unfold graph; rw [List.length_map]
  have h2 : Q.mapTx.length = (graph Q).length := by
    unfold graph; rw [List.length_map]
  rw [h1, h2]
  unfold CTxMemPool.RemoveStaged
  simp only
  rw [graph_foldl_removeUnchecked, graph_UpdateForRemoveFromMempool]
  obtain ⟨done, _, F, hF, hprop⟩ := severed_foldl (graph Q) ((stage.filter Q.exists_).dedup)
    ((stage.filter Q.exists_).dedup) [] (graph Q) (fun _ h => h) (severed_refl _ _)
  rw [hF]
  have hlen : ((graph Q).map F).length = (graph Q).length := List.length_map _ _
  rw [← hlen]
  rw [List.length_filter_lt_length_iff_exists]
  obtain ⟨v0, hv0, hid⟩ := (exists_iff_graph Q x).mp hex
  refine ⟨F v0, List.mem_map_of_mem _ hv0, ?_⟩
  have : (F v0).1 ∈ (stage.filter Q.exists_).dedup := by
    rw [(hprop v0).1, hid, List.mem_dedup, List.mem_filter]
    exact ⟨hx, hex⟩
  simpa using this

theorem lowest_foldl_mem (V : VirtualSizes) (l : List CTxMemPoolEntry) :
    ∀ (init : Option CTxMemPoolEntry) (it : CTxMemPoolEntry),
    l.foldl
      (fun best x =>
        match best with
        | none => some x
        | some b => if descendantScore V x < descendantScore V b then some x else some b)
      init = some it → init = some it ∨ it ∈ l := by
  induction l with
  | nil => intro init it h; exact Or.inl h
  | cons a l ih =>
    intro init it h
    rw [List.foldl_cons] at h
    rcases ih _ it h with h1 | h1
    · cases init with
      | none =>
        exact Or.inr (by rw [← Option.some.inj h1]; exact List.mem_cons_self _ _)
      | some b =>
        by_cases hc : descendantScore V a < descendantScore V b
        · simp only [hc, if_true] at h1
          exact Or.inr (by rw [← Option.some.inj h1]; exact List.mem_cons_self _ _)
        · simp only [hc, if_false] at h1
          exact Or.inl h1
    · exact Or.inr (List.mem_cons_of_mem _ h1)

theorem lowest_foldl_some (V : VirtualSizes) (l : List CTxMemPoolEntry) :
    ∀ (b : CTxMemPoolEntry), ∃ it,
    l.foldl
      (fun best x =>
        match best with
        | none => some x
        | some b => if descendantScore V x < descendantScore V b then some x else some b)
      (some b) = some it := by
  induction l with
  | nil => intro b; exact ⟨b, rfl⟩
  | cons a l ih =>
    intro b
    rw [List.foldl_cons]
    by_cases hc : descendantScore V a < descendantScore V b
    · simp only [hc, if_true]; exact ih a
    · simp only [hc, if_false]; exact ih b

theorem lowest_foldl_min (V : VirtualSizes) (l : List CTxMemPoolEntry) :
    ∀ (init : Option CTxMemPoolEntry) (it : CTxMemPoolEntry),
    l.foldl
      (fun best x =>
        match best with
        | none => some x
        | some b => if descendantScore V x < descendantScore V b then some x else some b)
      init = some it →
    (∀ b, init = some b → descendantScore V it ≤ descendantScore V b) ∧
    (∀ x ∈ l, descendantScore V it ≤ descendantScore V x) := by
  induction l with
  | nil =>
    intro init it h
    refine ⟨?_, fun x hx => absurd hx (List.not_mem_nil _)⟩
    intro b hb
    rw [hb] at h
    rw [Option.some.inj h]
  | cons a l ih =>
    intro init it h
    rw [List.foldl_cons] at h
    cases init with
    | none =>
      obtain ⟨h1, h2⟩ := ih (some a) it h
      refine ⟨fun b hb => absurd hb (by simp), ?_⟩
      intro x hx
      rcases List.mem_cons.mp hx with h3 | h3
      · rw [h3]; exact h1 a rfl
      · exact h2 x h3
    | some b =>
      by_cases hc : descendantScore V a < descendantScore V b
      · simp only [hc, if_true] at h
        obtain ⟨h1, h2⟩ := ih (some a) it h
        have hia := h1 a rfl
        refine ⟨?_, ?_⟩
        · intro b2 hb2
          rw [← Option.some.inj hb2]
          exact le_trans hia (le_of_lt hc)
        · intro x hx
          rcases List.mem_cons.mp hx with h3 | h3
          · rw [h3]; exact hia
          · exact h2 x h3
      · simp only [hc, if_false] at h
        obtain ⟨h1, h2⟩ := ih (some b) it h
        have hib := h1 b rfl
        refine ⟨?_, ?_⟩
        · intro b2 hb2
          rw [← Option.some.inj hb2]
          exact hib
        · intro x hx
          rcases List.mem_cons.mp hx with h3 | h3
          · rw [h3]; exact le_trans hib (not_lt.mp hc)
          · exact h2 x h3

theorem lowestDescendantScore_mem (V : VirtualSizes) (pool : CTxMemPool)
    (it : CTxMemPoolEntry) (h : pool.lowestDescendantScore V = some it) : it ∈ pool.mapTx := by
  rcases lowest_foldl_mem V pool.mapTx none it h with h1 | h1
  · exact absurd h1 (by simp)
  · exact h1

theorem lowestDescendantScore_some (V : VirtualSizes) (pool : CTxMemPool)
    (h : pool.mapTx ≠ []) : ∃ it, pool.lowestDescendantScore V = some it := by
  unfold lowestDescendantScore
  cases hm : pool.mapTx with
  | nil => exact absurd hm h
  | cons a l => rw [List.foldl_cons]; exact lowest_foldl_some V l a

theorem lowestDescendantScore_min (V : VirtualSizes) (pool : CTxMemPool)
    (it : CTxMemPoolEntry) (h : pool.lowestDescendantScore V = some it) :
    ∀ x ∈ pool.mapTx, descendantScore V it ≤ descendantScore V x :=
  (lowest_foldl_min V pool.mapTx none it h).2

theorem trimStep_length_lt (V : VirtualSizes) (pool : CTxMemPool) (h : pool.mapTx ≠ []) :
    (pool.trimStep V).mapTx.length < pool.mapTx.length := by
  obtain ⟨it, hit⟩ := lowestDescendantScore_some V pool h
  unfold trimStep
  rw [hit]
  have hmem := lowestDescendantScore_mem V pool it hit
  exact length_RemoveStaged_lt pool _ false _ it.tx.id
    ((mem_CalculateDescendants pool it.tx.id it.tx.id).mpr Relation.ReflTransGen.refl)
    ((exists_iff pool it.tx.id).mpr ⟨it, hmem, rfl⟩)

theorem trimLoop_post (V : VirtualSizes) (usage : CTxMemPool → Nat) (sizelimit : Nat)
    (fuel : Nat) : ∀ pool : CTxMemPool, pool.mapTx.length ≤ fuel →
    usage (trimLoop V usage sizelimit fuel pool) ≤ sizelimit ∨
      (trimLoop V usage sizelimit fuel pool).mapTx = [] := by
  induction fuel with
  | zero =>
    intro pool h
    exact Or.inr (List.length_eq_zero.mp (Nat.le_zero.mp h))
  | succ fuel ih =>
    intro pool h
    unfold trimLoop
    by_cases hc : pool.mapTx ≠ [] ∧ usage pool > sizelimit
    · rw [if_pos hc]
      have := trimStep_length_lt V pool hc.1
      exact ih _ (by omega)
    · rw [if_neg hc]
      by_cases he : pool.mapTx = []
      · exact Or.inr he
      · exact Or.inl (by
          have : ¬ usage pool > sizelimit := fun h2 => hc ⟨he, h2⟩
          omega)

end TrimClaims

section TrimClaims2

open CTxMemPool

theorem trimLoop_fuel (V : VirtualSizes) (usage : CTxMemPool → Nat) (sizelimit : Nat)
    (fuel : Nat) : ∀ (fuel2 : Nat) (pool : CTxMemPool),
    pool.mapTx.length ≤ fuel → pool.mapTx.length ≤ fuel2 →
    trimLoop V usage sizelimit fuel pool = trimLoop V usage sizelimit fuel2 pool := by
  induction fuel with
  | zero =>
    intro fuel2 pool h _
    have he : pool.mapTx = [] := List.length_eq_zero.mp (Nat.le_zero.mp h)
    cases fuel2 with
    | zero => rfl
    | succ f =>
      unfold trimLoop
      rw [if_neg (fun hc => hc.1 he)]
  | succ fuel ih =>
    intro fuel2 pool h h2
    by_cases hc : pool.mapTx ≠ [] ∧ usage pool > sizelimit
    · have hlt := trimStep_length_lt V pool hc.1
      cases fuel2 with
      | zero => exact absurd (List.length_eq_zero.mp (Nat.le_zero.mp h2)) hc.1
      | succ f =>
        unfold trimLoop
        rw [if_pos hc, if_pos hc]
        exact ih f _ (by omega) (by omega)
    · cases fuel2 with
      | zero =>
        unfold trimLoop
        rw [if_neg hc]
      | succ f =>
        unfold trimLoop
        rw [if_neg hc, if_neg hc]

theorem TrimToSize_unfold (V : VirtualSizes) (usage : CTxMemPool → Nat) (pool : CTxMemPool)
    (sizelimit : Nat) :
    pool.TrimToSize V usage sizelimit
      = if pool.mapTx ≠ [] ∧ usage pool > sizelimit then
          (pool.trimStep V).TrimToSize V usage sizelimit
        else pool := by
  unfold TrimToSize
  by_cases hc : pool.mapTx ≠ [] ∧ usage pool > sizelimit
  · rw [if_pos hc]
    have hlt := trimStep_length_lt V pool hc.1
    cases hn : pool.mapTx.length with
    | zero => exact absurd (List.length_eq_zero.mp hn) hc.1
    | succ n =>
      rw [trimLoop]
      rw [if_pos hc]
      exact trimLoop_fuel V usage sizelimit n _ _ (by omega) (le_refl _)
  · rw [if_neg hc]
    cases pool.mapTx.length with
    | zero => rfl
    | succ n => rw [trimLoop, if_neg hc]

theorem descendant_call_consistent (V : VirtualSizes) (a b : CTxMemPoolEntry)
    (ha : 0 < V.GetTxVirtualSize a ∧ 0 < V.GetVirtualSizeWithDescendants a ∧
      0 ≤ a.GetModifiedFee ∧ 0 ≤ a.GetModFeesWithDescendants)
    (hb : 0 < V.GetTxVirtualSize b ∧ 0 < V.GetVirtualSizeWithDescendants b ∧
      0 ≤ b.GetModifiedFee ∧ 0 ≤ b.GetModFeesWithDescendants)
    (hex : CompareTxMemPoolEntryByDescendantScore.ExactProducts V a b) :
    (CompareTxMemPoolEntryByDescendantScore.call V a b = true →
      descendantScore V a ≤ descendantScore V b) ∧
    (CompareTxMemPoolEntryByDescendantScore.call V a b = false →
      descendantScore V b ≤ descendantScore V a) := by
  have heq := descendant_call_eq_callExact V a b ha.2.2.1 ha.2.2.2 hb.2.2.1 hb.2.2.2 hex
  have hspec := descendant_callExact_spec V a b ha.1 ha.2.1 hb.1 hb.2.1
  rw [heq]
  constructor
  · intro h
    by_contra hlt
    rw [not_le] at hlt
    rw [hspec.2.1 hlt] at h
    exact absurd h (by decide)
  · intro h
    by_contra hlt
    rw [not_le] at hlt
    rw [hspec.1 hlt] at h
    exact absurd h (by decide)

theorem chainPool_scores :
    chainPool.mapTx = [chainPool.mapTx.getD 0 chainEntryCNew,
      chainPool.mapTx.getD 1 chainEntryCNew, chainPool.mapTx.getD 2 chainEntryCNew] ∧
    descendantScore plainSizes (chainPool.mapTx.getD 0 chainEntryCNew) = 35 / 3 ∧
    descendantScore plainSizes (chainPool.mapTx.getD 1 chainEntryCNew) = 20 ∧
    descendantScore plainSizes (chainPool.mapTx.getD 2 chainEntryCNew) = 5 := by
  refine ⟨by decide, ?_, ?_, ?_⟩
  · have h1 : (chainPool.mapTx.getD 0 chainEntryCNew).GetModifiedFee = 1000 := by decide
    have h2 : plainSizes.GetTxVirtualSize (chainPool.mapTx.getD 0 chainEntryCNew) = 100 := by
      decide
    have h3 : (chainPool.mapTx.getD 0 chainEntryCNew).GetModFeesWithDescendants = 3500 := by
      decide
    have h4 : plainSizes.GetVirtualSizeWithDescendants (chainPool.mapTx.getD 0 chainEntryCNew)
        = 300 := by decide
    unfold descendantScore
    rw [h1, h2, h3, h4]
    norm_num
  · have h1 : (chainPool.mapTx.getD 1 chainEntryCNew).GetModifiedFee = 2000 := by decide
    have h2 : plainSizes.GetTxVirtualSize (chainPool.mapTx.getD 1 chainEntryCNew) = 100 := by
      decide
    have h3 : (chainPool.mapTx.getD 1 chainEntryCNew).GetModFeesWithDescendants = 2500 := by
      decide
    have h4 : plainSizes.GetVirtualSizeWithDescendants (chainPool.mapTx.getD 1 chainEntryCNew)
        = 200 := by decide
    unfold descendantScore
    rw [h1, h2, h3, h4]
    norm_num
  · have h1 : (chainPool.mapTx.getD 2 chainEntryCNew).GetModifiedFee = 500 := by decide
    have h2 : plainSizes.GetTxVirtualSize (chainPool.mapTx.getD 2 chainEntryCNew) = 100 := by
      decide
    have h3 : (chainPool.mapTx.getD 2 chainEntryCNew).GetModFeesWithDescendants = 500 := by
      decide
    have h4 : plainSizes.GetVirtualSizeWithDescendants (chainPool.mapTx.getD 2 chainEntryCNew)
        = 100 := by decide
    unfold descendantScore
    rw [h1, h2, h3, h4]
    norm_num

theorem chainPool_lowest :
    chainPool.lowestDescendantScore plainSizes
      = some (chainPool.mapTx.getD 2 chainEntryCNew) := by
  obtain ⟨hm, hA, hB, hC⟩ := chainPool_scores
  unfold CTxMemPool.lowestDescendantScore
  generalize chainPool.mapTx.getD 0 chainEntryCNew = a at hm hA
  generalize chainPool.mapTx.getD 1 chainEntryCNew = b at hm hB
  generalize chainPool.mapTx.getD 2 chainEntryCNew = c at hm hC
  have h1 : ¬ descendantScore plainSizes b < descendantScore plainSizes a := by
    rw [hA, hB]; norm_num
  have h2 : descendantScore plainSizes c < descendantScore plainSizes a := by
    rw [hA, hC]; norm_num
  rw [hm]
  simp only [List.foldl, h1, h2, if_true, if_false]

theorem chainPool_trimStep :
    chainPool.trimStep plainSizes
      = chainPool.RemoveStaged (chainPool.CalculateDescendants 3 []) false
          MemPoolRemovalReason.SIZELIMIT := by
  unfold CTxMemPool.trimStep
  rw [chainPool_lowest]
  rfl

theorem chainPool_trim :
    (chainPool.TrimToSize plainSizes (fun p => p.cachedInnerUsage) 1200).mapTx.map
      (fun e => e.tx.id) = [1, 2] := by
  rw [TrimToSize_unfold, if_pos (by decide), chainPool_trimStep, TrimToSize_unfold,
    if_neg (by set_option maxRecDepth 20000 in decide)]
  set_option maxRecDepth 20000 in decide

end TrimClaims2

/-! ## Claims on constants, new entries and acceptance results -/

section SmallClaims

/-- C24: `ROLLING_FEE_HALFLIFE` is 12 hours in seconds, 43200. -/
theorem rolling_fee_halflife :
    CTxMemPool.ROLLING_FEE_HALFLIFE = 43200 ∧
    CTxMemPool.ROLLING_FEE_HALFLIFE = 12 * 3600 := by
  refine ⟨by decide, by decide⟩

/-- C25: an entry as the constructor leaves it has descendant count 1 and
ancestor count 1, so both counts are at least 1 before any update of the
aggregates. -/
theorem new_entry_counts (tx : CTransaction) (fee : Amount) (txSize usageSize : Nat)
    (time : Int) (height : Nat) (spendsCoinbase : Bool) (sigchecks : Int) (lp : LockPoints) :
    (CTxMemPoolEntry.create tx fee txSize usageSize time height spendsCoinbase sigchecks
      lp).GetCountWithDescendants = 1 ∧
    (CTxMemPoolEntry.create tx fee txSize usageSize time height spendsCoinbase sigchecks
      lp).GetCountWithAncestors = 1 ∧
    1 ≤ (CTxMemPoolEntry.create tx fee txSize usageSize time height spendsCoinbase sigchecks
      lp).GetCountWithDescendants ∧
    1 ≤ (CTxMemPoolEntry.create tx fee txSize usageSize time height spendsCoinbase sigchecks
      lp).GetCountWithAncestors :=
  ⟨rfl, rfl, le_refl _, le_refl _⟩

/-- C23: `Failure(state)` gives type `INVALID`, the state, and neither size nor
fees, whenever its `Assume` lets the program go on; `Success(v, f)` gives type
`VALID` and `MempoolTx(v, f)` type `MEMPOOL_ENTRY`, both with size `v` and fees
`f`; so a result made by the three static methods carries size and fees exactly
when its type is `VALID` or `MEMPOOL_ENTRY`, and carries neither otherwise. -/
theorem accept_result_fields (S : Type) (Assume : Bool → Option Unit) (IsValid : S → Bool)
    (fresh : S) :
    (∀ state, Assume (!IsValid state) = some () →
      MempoolAcceptResult.Failure Assume IsValid state
        = some { m_result_type := ResultType.INVALID, m_state := state, m_vsize := none,
                 m_base_fees := none }) ∧
    (∀ vsize fees,
      (MempoolAcceptResult.Success fresh vsize fees).m_result_type = ResultType.VALID ∧
      (MempoolAcceptResult.Success fresh vsize fees).m_vsize = some vsize ∧
      (MempoolAcceptResult.Success fresh vsize fees).m_base_fees = some fees) ∧
    (∀ vsize fees,
      (MempoolAcceptResult.MempoolTx fresh vsize fees).m_result_type
        = ResultType.MEMPOOL_ENTRY ∧
      (MempoolAcceptResult.MempoolTx fresh vsize fees).m_vsize = some vsize ∧
      (MempoolAcceptResult.MempoolTx fresh vsize fees).m_base_fees = some fees) ∧
    (∀ r, MempoolAcceptResult.Constructed Assume IsValid fresh r →
      ((r.m_vsize.isSome = true ∧ r.m_base_fees.isSome = true) ↔
        (r.m_result_type = ResultType.VALID ∨ r.m_result_type = ResultType.MEMPOOL_ENTRY)) ∧
      ((r.m_vsize = none ∧ r.m_base_fees = none) ↔ r.m_result_type = ResultType.INVALID)) := by
  refine ⟨?_, fun _ _ => ⟨rfl, rfl, rfl⟩, fun _ _ => ⟨rfl, rfl, rfl⟩, ?_⟩
  · intro state h
    unfold MempoolAcceptResult.Failure
    rw [h]
    rfl
  · intro r hr
    rcases hr with ⟨state, h⟩ | ⟨v, f, h⟩ | ⟨v, f, h⟩
    · unfold MempoolAcceptResult.Failure at h
      cases ha : Assume (!IsValid state) with
      | none => rw [ha] at h; exact absurd h (by simp)
      | some u =>
        rw [ha] at h
        have hr := Option.some.inj h
        rw [← hr]
        simp
    · rw [h]
      simp [MempoolAcceptResult.Success]
    · rw [h]
      simp [MempoolAcceptResult.MempoolTx]

/-- Witness for C23: with an `Assume` that stops the program on a false
condition and a state that is not valid, `Failure` returns the `INVALID`
result with that state. -/
theorem accept_result_fields_witness :
    MempoolAcceptResult.Failure (fun b => if b then some () else none) (fun s : Nat => s == 0) 7
      = some { m_result_type := ResultType.INVALID, m_state := 7, m_vsize := none,
               m_base_fees := none } :=
  (accept_result_fields Nat (fun b => if b then some () else none) (fun s => s == 0) 0).1 7 rfl

/-- C22: `visited` on an optional iterator fails its assertion whenever no
guard is active, also for `nullopt`; with an active guard it returns true for
`nullopt` and leaves the pool as it is, and for an iterator it is `visited` on
the entry. -/
theorem visitedOptional_spec (pool : CTxMemPool) :
    (pool.m_epoch.guarded = false → ∀ it, pool.visitedOptional it = none) ∧
    (pool.m_epoch.guarded = true →
      pool.visitedOptional none = some (true, pool) ∧
      ∀ i, pool.visitedOptional (some i) = pool.visited i) := by
  constructor
  · intro h it
    unfold CTxMemPool.visitedOptional
    rw [h]
    rfl
  · intro h
    unfold CTxMemPool.visitedOptional
    rw [h]
    exact ⟨rfl, fun _ => rfl⟩

/-- Witness for C22: the pool of the chain scenario has no active guard, and
`visited` on `nullopt` fails there. -/
theorem visitedOptional_spec_witness :
    chainPool.m_epoch.guarded = false ∧ chainPool.visitedOptional none = none :=
  ⟨by decide, (visitedOptional_spec chainPool).1 (by decide) none⟩

/-- C26: the descendant-score comparator is not asymmetric: it is true of
every entry with itself, and of two different entries with the same
descendant score and entry time in both orders. -/
theorem descendant_compare_not_asymmetric :
    (∀ (V : VirtualSizes) (a : CTxMemPoolEntry),
      CompareTxMemPoolEntryByDescendantScore.call V a a = true) ∧
    (sampleEntry 1 1000 100 5 0 1000 100 1000 100).tx.id
      ≠ (sampleEntry 2 1000 100 5 0 1000 100 1000 100).tx.id ∧
    CompareTxMemPoolEntryByDescendantScore.call plainSizes
      (sampleEntry 1 1000 100 5 0 1000 100 1000 100)
      (sampleEntry 2 1000 100 5 0 1000 100 1000 100) = true ∧
    CompareTxMemPoolEntryByDescendantScore.call plainSizes
      (sampleEntry 2 1000 100 5 0 1000 100 1000 100)
      (sampleEntry 1 1000 100 5 0 1000 100 1000 100) = true := by
  refine ⟨?_, by decide, by decide, by decide⟩
  intro V a
  unfold CompareTxMemPoolEntryByDescendantScore.call doubleMul
  simp only [mul_comm, if_true, ge_iff_le, le_refl, decide_True]

end SmallClaims

/-! ## Claims on the budget of a sequence of calls -/

section LimiterSumClaims

open CheckInputsLimiter

theorem limiter_after_remaining (cs : List Int) : ∀ s : CheckInputsLimiter,
    (∀ k, -2 ^ 63 ≤ s.remaining - (cs.take k).sum ∧ s.remaining - (cs.take k).sum < 2 ^ 63) →
    ∀ k, (s.after (cs.take k)).remaining = s.remaining - (cs.take k).sum := by
  induction cs with
  | nil =>
    intro s _ k
    rw [List.take_nil]
    show s.remaining = s.remaining - 0
    omega
  | cons c rest ih =>
    intro s h k
    cases k with
    | zero =>
      show s.remaining = s.remaining - 0
      omega
    | succ k =>
      have h1 := h 1
      rw [show (c :: rest).take 1 = [c] from rfl, List.sum_singleton] at h1
      have hw : wrapInt64 (s.remaining - c) = s.remaining - c :=
        wrapInt64_of_range _ h1.1 h1.2
      have hs : (s.consume_and_check c).2.remaining = s.remaining - c := hw
      have h2 := ih (s.consume_and_check c).2 (fun j => by
        have hj := h (j + 1)
        rw [List.take_succ_cons, List.sum_cons] at hj
        rw [hs]
        constructor <;> omega) k
      rw [List.take_succ_cons, List.sum_cons]
      show ((s.consume_and_check c).2.after (rest.take k)).remaining = _
      rw [h2, hs]
      omega

/-- C30: for a limiter created with limit `L` and calls with amounts `cs`
that keep the budget within 64 bits, the call number `k + 1` returns true
exactly when `L` minus the first `k + 1` amounts is not negative, `check`
after all calls returns true exactly when `L` minus all amounts is not
negative, and so `check` gives the same for every order of the amounts. -/
theorem limiter_budget (L : Int) (cs : List Int)
    (hno : ∀ k, -2 ^ 63 ≤ L - (cs.take k).sum ∧ L - (cs.take k).sum < 2 ^ 63) :
    (∀ k c, cs.get? k = some c →
      (((CheckInputsLimiter.create L).after (cs.take k)).consume_and_check c).1
        = decide (L - (cs.take (k + 1)).sum ≥ 0)) ∧
    ((CheckInputsLimiter.create L).after cs).check = decide (L - cs.sum ≥ 0) ∧
    (∀ cs2 : List Int, cs2.Perm cs →
      (∀ k, -2 ^ 63 ≤ L - (cs2.take k).sum ∧ L - (cs2.take k).sum < 2 ^ 63) →
      ((CheckInputsLimiter.create L).after cs2).check
        = ((CheckInputsLimiter.create L).after cs).check) := by
  have hrem := limiter_after_remaining cs (CheckInputsLimiter.create L) hno
  have hall : ∀ (l : List Int),
      (∀ k, -2 ^ 63 ≤ L - (l.take k).sum ∧ L - (l.take k).sum < 2 ^ 63) →
      ((CheckInputsLimiter.create L).after l).check = decide (L - l.sum ≥ 0) := by
    intro l hl
    have h := limiter_after_remaining l (CheckInputsLimiter.create L) hl l.length
    rw [List.take_length] at h
    show decide (((CheckInputsLimiter.create L).after l).remaining ≥ 0) = _
    rw [h]
    rfl
  refine ⟨?_, hall cs hno, ?_⟩
  · intro k c hc
    have hk : k < cs.length := by
      by_contra hlt
      rw [List.get?_eq_none.mpr (by omega)] at hc
      exact absurd hc (by simp)
    have hsum : (cs.take (k + 1)).sum = (cs.take k).sum + c := by
      have hc2 : cs[k]? = some c := by rw [← List.get?_eq_getElem?]; exact hc
      rw [List.take_succ, hc2]
      simp
    have hr := hno (k + 1)
    rw [hsum] at hr
    show decide (wrapInt64 (((CheckInputsLimiter.create L).after (cs.take k)).remaining - c)
      ≥ 0) = _
    rw [hrem k, hsum]
    have e : (CheckInputsLimiter.create L).remaining = L := rfl
    rw [e, wrapInt64_of_range _ (by omega) (by omega)]
    congr 1
    apply propext
    constructor <;> intro h <;> omega
  · intro cs2 hperm hno2
    rw [hall cs2 hno2, hall cs hno, hperm.sum_eq]

/-- Witness for C30: with limit 5 the calls 3, 4, -2 return true, false,
true, and `check` returns true afterwards, as it does for the order -2, 3, 4. -/
theorem limiter_budget_witness :
    (((CheckInputsLimiter.create 5).after ([3, 4, -2].take 1)).consume_and_check 4).1 = false ∧
    ((CheckInputsLimiter.create 5).after [3, 4, -2]).check = true ∧
    ((CheckInputsLimiter.create 5).after [-2, 3, 4]).check
      = ((CheckInputsLimiter.create 5).after [3, 4, -2]).check :=
  have hno : ∀ k, -2 ^ 63 ≤ (5 : Int) - (([3, 4, -2] : List Int).take k).sum ∧
      (5 : Int) - (([3, 4, -2] : List Int).take k).sum < 2 ^ 63 := by
    intro k
    rcases k with _ | _ | _ | _ | k <;> simp
  have hno2 : ∀ k, -2 ^ 63 ≤ (5 : Int) - (([-2, 3, 4] : List Int).take k).sum ∧
      (5 : Int) - (([-2, 3, 4] : List Int).take k).sum < 2 ^ 63 := by
    intro k
    rcases k with _ | _ | _ | _ | k <;> simp
  ⟨((limiter_budget 5 [3, 4, -2] hno).1 1 4 rfl).trans (by decide),
    ((limiter_budget 5 [3, 4, -2] hno).2.1).trans (by decide),
    (limiter_budget 5 [3, 4, -2] hno).2.2 [-2, 3, 4] (by decide) hno2⟩

end LimiterSumClaims

/-! ## Claims on the usage counter of the buffer -/

section BufferUsageClaims

open DisconnectedBlockTransactions

theorem addInt64_sub_of_sum (S u : Nat) (h : u ≤ S) :
    addInt64 (S % 2 ^ 64) (-(u : Int)) = (S - u) % 2 ^ 64 := by
  unfold addInt64
  have h1 : (((S % 2 ^ 64 : Nat) : Int) + -(u : Int)) % 2 ^ 64
      = (((S - u : Nat) : Int)) % 2 ^ 64 := by
    rw [Nat.cast_sub h]
    push_cast
    rw [← sub_eq_add_neg, Int.sub_emod, Int.emod_emod_of_dvd _ (dvd_refl _), ← Int.sub_emod]
  rw [h1]
  have h2 : (((S - u : Nat) : Int)) % 2 ^ 64 = (((S - u) % 2 ^ 64 : Nat) : Int) := by
    push_cast
    rfl
  rw [h2]
  exact Int.toNat_ofNat _

theorem sum_eraseP_of_find (U : CTransaction → Nat) (p : CTransaction → Bool) :
    ∀ (l : List CTransaction) (it : CTransaction), l.find? p = some it →
    ((l.eraseP p).map U).sum + U it = (l.map U).sum := by
  intro l
  induction l with
  | nil => intro it h; exact absurd h (by simp)
  | cons a l ih =>
    intro it h
    rw [List.find?_cons] at h
    rw [List.eraseP_cons]
    cases hp : p a with
    | true =>
      rw [hp] at h
      have : a = it := Option.some.inj h
      rw [← this]
      simp only [cond_true, List.map_cons, List.sum_cons]
      omega
    | false =>
      rw [hp] at h
      have := ih it h
      simp only [cond_false, List.map_cons, List.sum_cons]
      omega

theorem sum_eraseIdx_of_get (U : CTransaction → Nat) :
    ∀ (l : List CTransaction) (i : Nat) (tx : CTransaction), l.get? i = some tx →
    ((l.eraseIdx i).map U).sum + U tx = (l.map U).sum := by
  intro l
  induction l with
  | nil => intro i tx h; exact absurd h (by simp)
  | cons a l ih =>
    intro i tx h
    cases i with
    | zero =>
      have : a = tx := by simpa using h
      rw [← this]
      simp only [List.eraseIdx_cons_zero, List.map_cons, List.sum_cons]
      omega
    | succ i =>
      have h2 : l.get? i = some tx := by simpa using h
      have := ih i tx h2
      simp only [List.eraseIdx_cons_succ, List.map_cons, List.sum_cons]
      omega

theorem usageCached_removeForBlockStep (U : CTransaction → Nat)
    (d : DisconnectedBlockTransactions) (tx : CTransaction) (h : d.UsageCached U) :
    (removeForBlockStep U d tx).UsageCached U := by
  unfold removeForBlockStep
  cases hf : d.queuedTx.find? (fun t => t.id == tx.id) with
  | none => exact h
  | some it =>
    have hs := sum_eraseP_of_find U (fun t => t.id == tx.id) d.queuedTx it hf
    unfold UsageCached at h ⊢
    show addInt64 d.cachedInnerUsage (-(U it : Int))
      = ((d.queuedTx.eraseP (fun t => t.id == tx.id)).map U).sum % 2 ^ 64
    rw [h, addInt64_sub_of_sum _ _ (by omega)]
    congr 1
    omega

theorem usageCached_foldl (U : CTransaction → Nat) (vtx : List CTransaction) :
    ∀ d : DisconnectedBlockTransactions, d.UsageCached U →
    (vtx.foldl (removeForBlockStep U) d).UsageCached U := by
  induction vtx with
  | nil => exact fun d h => h
  | cons v vtx ih =>
    intro d h
    exact ih _ (usageCached_removeForBlockStep U d v h)

/-- C29: `addTransaction` does not keep the equality. For a transaction
whose txid is queued already it leaves the queue as it is and still adds the
usage of the transaction to `cachedInnerUsage`, so a counter that was the sum
over the queue is the sum no more (unless that usage is a multiple of 2^64).
In the buffer that holds A, B, C, `addTransaction` of B leaves the queue
A, B, C, and the counter is 560 where the sum over the queue is 420. -/
theorem addTransaction_counts_twice :
    (∀ (U : CTransaction → Nat) (d : DisconnectedBlockTransactions) (tx : CTransaction),
      (∃ t ∈ d.queuedTx, t.id = tx.id) →
      (addTransaction U d tx).queuedTx = d.queuedTx ∧
      (addTransaction U d tx).cachedInnerUsage = (d.cachedInnerUsage + U tx) % 2 ^ 64 ∧
      (d.UsageCached U → U tx % 2 ^ 64 ≠ 0 → ¬ (addTransaction U d tx).UsageCached U)) ∧
    chainBuffer.UsageCached sampleUsage ∧
    (addTransaction sampleUsage chainBuffer txB).queuedTx = [txA, txB, txC] ∧
    (addTransaction sampleUsage chainBuffer txB).cachedInnerUsage = 560 ∧
    (((addTransaction sampleUsage chainBuffer txB).queuedTx).map sampleUsage).sum = 420 ∧
    ¬ (addTransaction sampleUsage chainBuffer txB).UsageCached sampleUsage := by
  refine ⟨?_, by decide, by decide, by decide, by decide, by decide⟩
  intro U d tx hq
  have hqueue : (addTransaction U d tx).queuedTx = d.queuedTx := by
    show (if d.queuedTx.any (fun t => t.id == tx.id) then d.queuedTx
      else d.queuedTx ++ [tx]) = _
    rw [if_pos]
    obtain ⟨t, ht, hte⟩ := hq
    exact List.any_eq_true.mpr ⟨t, ht, by simpa using hte⟩
  refine ⟨hqueue, rfl, ?_⟩
  intro h hne hc
  unfold UsageCached at h hc
  rw [hqueue, ← h] at hc
  have hc2 : (d.cachedInnerUsage + U tx) % 2 ^ 64 = d.cachedInnerUsage := hc
  have hlt : d.cachedInnerUsage < 2 ^ 64 := by
    rw [h]; exact Nat.mod_lt _ (by norm_num)
  have hm := Nat.mod_add_div (U tx) (2 ^ 64)
  have hr : (d.cachedInnerUsage + U tx) % 2 ^ 64
      = (d.cachedInnerUsage + U tx % 2 ^ 64) % 2 ^ 64 := by
    rw [Nat.add_mod_mod]
  rw [hr] at hc2
  have hb : U tx % 2 ^ 64 < 2 ^ 64 := Nat.mod_lt _ (by norm_num)
  by_cases hw : d.cachedInnerUsage + U tx % 2 ^ 64 < 2 ^ 64
  · rw [Nat.mod_eq_of_lt hw] at hc2
    omega
  · have hsub : (d.cachedInnerUsage + U tx % 2 ^ 64) % 2 ^ 64
        = d.cachedInnerUsage + U tx % 2 ^ 64 - 2 ^ 64 := by
      rw [Nat.mod_eq_sub_mod (by omega), Nat.mod_eq_of_lt (by omega)]
    rw [hsub] at hc2
    omega

/-- For transactions whose txid is not queued: `cachedInnerUsage` is the sum
of `RecursiveDynamicUsage` over the queued transactions (as a 64-bit counter
holds it) for the empty buffer, and this is kept by `addTransaction` of a
transaction whose txid is not queued, by `removeForBlock`, by `removeEntry`
and by `clear`; then `DynamicMemoryUsage()` is the overhead per entry times
the queue length plus that sum, and it is 0 after `clear()`. -/
theorem buffer_usage_cached (U : CTransaction → Nat) :
    ({} : DisconnectedBlockTransactions).UsageCached U ∧
    ∀ d : DisconnectedBlockTransactions, d.UsageCached U →
      (∀ tx, (∀ t ∈ d.queuedTx, t.id ≠ tx.id) → (addTransaction U d tx).UsageCached U) ∧
      (∀ vtx, (removeForBlock U d vtx).UsageCached U) ∧
      (∀ entry, (removeEntry U d entry).UsageCached U) ∧
      d.clear.UsageCached U ∧
      ((d.queuedTx.map U).sum < 2 ^ 64 → d.cachedInnerUsage = (d.queuedTx.map U).sum) ∧
      (∀ perEntry, DynamicMemoryUsage perEntry d
        = (perEntry * d.queuedTx.length + (d.queuedTx.map U).sum % 2 ^ 64) % 2 ^ 64) ∧
      (∀ perEntry, DynamicMemoryUsage perEntry d.clear = 0) := by
  refine ⟨rfl, ?_⟩
  intro d h
  refine ⟨?_, ?_, ?_, rfl, ?_, ?_, ?_⟩
  · intro tx hnew
    have hq : (addTransaction U d tx).queuedTx = d.queuedTx ++ [tx] := by
      show (if d.queuedTx.any (fun t => t.id == tx.id) then d.queuedTx
        else d.queuedTx ++ [tx]) = _
      rw [if_neg]
      intro hc
      obtain ⟨t, ht, hte⟩ := List.any_eq_true.mp hc
      exact hnew t ht (by simpa using hte)
    unfold UsageCached at h ⊢
    rw [hq]
    show (d.cachedInnerUsage + U tx) % 2 ^ 64 = _
    rw [h, List.map_append, List.sum_append, List.map_singleton, List.sum_singleton,
      Nat.mod_add_mod]
  · intro vtx
    unfold removeForBlock
    by_cases he : d.queuedTx.isEmpty = true
    · rw [if_pos he]; exact h
    · rw [if_neg he]; exact usageCached_foldl U vtx d h
  · intro entry
    unfold removeEntry
    cases hg : d.queuedTx.get? entry with
    | none => exact h
    | some tx =>
      have hs := sum_eraseIdx_of_get U d.queuedTx entry tx hg
      unfold UsageCached at h ⊢
      show addInt64 d.cachedInnerUsage (-(U tx : Int))
        = ((d.queuedTx.eraseIdx entry).map U).sum % 2 ^ 64
      rw [h, addInt64_sub_of_sum _ _ (by omega)]
      congr 1
      omega
  · intro hlt
    unfold UsageCached at h
    rw [h, Nat.mod_eq_of_lt hlt]
  · intro perEntry
    unfold UsageCached at h
    unfold DynamicMemoryUsage
    rw [h]
  · intro perEntry
    rfl

end BufferUsageClaims

/-! ## Claims on the order of the ancestor-score comparator -/

section AncestorOrderClaims

theorem ancestor_call_iff (V : VirtualSizes) (a b : CTxMemPoolEntry)
    (ha : 0 < V.GetTxVirtualSize a ∧ 0 < V.GetVirtualSizeWithAncestors a ∧
      0 ≤ a.GetModifiedFee ∧ 0 ≤ a.GetModFeesWithAncestors)
    (hb : 0 < V.GetTxVirtualSize b ∧ 0 < V.GetVirtualSizeWithAncestors b ∧
      0 ≤ b.GetModifiedFee ∧ 0 ≤ b.GetModFeesWithAncestors)
    (hex : CompareTxMemPoolEntryByAncestorFee.ExactProducts V a b) :
    CompareTxMemPoolEntryByAncestorFee.call V a b = true ↔
      (ancestorScore V b < ancestorScore V a ∨
        (ancestorScore V a = ancestorScore V b ∧ a.tx.id < b.tx.id)) := by
  rw [ancestor_call_eq_callExact V a b ha.2.2.1 ha.2.2.2 hb.2.2.1 hb.2.2.2 hex]
  obtain ⟨h1, h2, h3⟩ := ancestor_callExact_spec V a b ha.1 ha.2.1 hb.1 hb.2.1
  rcases lt_trichotomy (ancestorScore V a) (ancestorScore V b) with hlt | heq | hgt
  · rw [h2 hlt]
    constructor
    · intro h; exact absurd h (by decide)
    · rintro (h | ⟨h, _⟩)
      · exact absurd h (not_lt.mpr (le_of_lt hlt))
      · exact absurd h (ne_of_lt hlt)
  · rw [h3 heq]
    constructor
    · intro h; exact Or.inr ⟨heq, h⟩
    · rintro (h | ⟨_, h⟩)
      · exact absurd h (by rw [heq]; exact lt_irrefl _)
      · exact h
  · rw [h1 hgt]
    exact ⟨fun _ => Or.inl hgt, fun _ => rfl⟩

/-- C27: on a set of entries with pairwise distinct txids, positive virtual
sizes, non-negative modified fees and exact products, the ancestor-score
comparator is a strict total order: it is false of an entry with itself, it
is transitive, and of two different entries it is true in exactly one
order. -/
theorem ancestor_compare_strict_total_order (V : VirtualSizes) (S : List CTxMemPoolEntry)
    (hpos : ∀ a ∈ S, 0 < V.GetTxVirtualSize a ∧ 0 < V.GetVirtualSizeWithAncestors a ∧
      0 ≤ a.GetModifiedFee ∧ 0 ≤ a.GetModFeesWithAncestors)
    (hex : ∀ a ∈ S, ∀ b ∈ S, CompareTxMemPoolEntryByAncestorFee.ExactProducts V a b)
    (hid : ∀ a ∈ S, ∀ b ∈ S, a.tx.id = b.tx.id → a = b) :
    (∀ a ∈ S, CompareTxMemPoolEntryByAncestorFee.call V a a = false) ∧
    (∀ a ∈ S, ∀ b ∈ S, ∀ c ∈ S,
      CompareTxMemPoolEntryByAncestorFee.call V a b = true →
      CompareTxMemPoolEntryByAncestorFee.call V b c = true →
      CompareTxMemPoolEntryByAncestorFee.call V a c = true) ∧
    (∀ a ∈ S, ∀ b ∈ S, a ≠ b →
      (CompareTxMemPoolEntryByAncestorFee.call V a b = true ↔
        CompareTxMemPoolEntryByAncestorFee.call V b a = false)) := by
  have key : ∀ a ∈ S, ∀ b ∈ S, CompareTxMemPoolEntryByAncestorFee.call V a b = true ↔
      (ancestorScore V b < ancestorScore V a ∨
        (ancestorScore V a = ancestorScore V b ∧ a.tx.id < b.tx.id)) :=
    fun a ha b hb => ancestor_call_iff V a b (hpos a ha) (hpos b hb) (hex a ha b hb)
  refine ⟨?_, ?_, ?_⟩
  · intro a ha
    cases h : CompareTxMemPoolEntryByAncestorFee.call V a a with
    | false => rfl
    | true =>
      rcases (key a ha a ha).mp h with h1 | ⟨_, h1⟩
      · exact absurd h1 (lt_irrefl _)
      · exact absurd h1 (lt_irrefl _)
  · intro a ha b hb c hc hab hbc
    rw [key a ha c hc]
    rcases (key a ha b hb).mp hab with h1 | ⟨h1, h2⟩
    · rcases (key b hb c hc).mp hbc with h3 | ⟨h3, _⟩
      · exact Or.inl (lt_trans h3 h1)
      · exact Or.inl (by rw [← h3]; exact h1)
    · rcases (key b hb c hc).mp hbc with h3 | ⟨h3, h4⟩
      · exact Or.inl (by rw [h1]; exact h3)
      · exact Or.inr ⟨h1.trans h3, lt_trans h2 h4⟩
  · intro a ha b hb hne
    have hidne : a.tx.id ≠ b.tx.id := fun h => hne (hid a ha b hb h)
    constructor
    · intro hab
      cases hba : CompareTxMemPoolEntryByAncestorFee.call V b a with
      | false => rfl
      | true =>
        rcases (key a ha b hb).mp hab with h1 | ⟨h1, h2⟩
        · rcases (key b hb a ha).mp hba with h3 | ⟨h3, _⟩
          · exact absurd h1 (not_lt.mpr (le_of_lt h3))
          · exact absurd h3 (ne_of_lt h1)
        · rcases (key b hb a ha).mp hba with h3 | ⟨_, h4⟩
          · exact absurd h1 (ne_of_lt h3)
          · exact absurd h2 (not_lt.mpr (le_of_lt h4))
    · intro hba
      rw [key a ha b hb]
      rcases lt_trichotomy (ancestorScore V a) (ancestorScore V b) with hlt | heq | hgt
      · have : CompareTxMemPoolEntryByAncestorFee.call V b a = true :=
          (key b hb a ha).mpr (Or.inl hlt)
        rw [hba] at this
        exact absurd this (by decide)
      · rcases lt_trichotomy a.tx.id b.tx.id with h1 | h1 | h1
        · exact Or.inr ⟨heq, h1⟩
        · exact absurd h1 hidne
        · have : CompareTxMemPoolEntryByAncestorFee.call V b a = true :=
            (key b hb a ha).mpr (Or.inr ⟨heq.symm, h1⟩)
          rw [hba] at this
          exact absurd this (by decide)
      · exact Or.inl hgt

/-- Witness for C27: on the entries A and C of the chain scenario the
comparator is false of A with itself, and it sorts A before C and not C
before A. -/
theorem ancestor_compare_strict_total_order_witness :
    CompareTxMemPoolEntryByAncestorFee.call plainSizes chainEntryA chainEntryA = false ∧
    (CompareTxMemPoolEntryByAncestorFee.call plainSizes chainEntryA chainEntryC = true ↔
      CompareTxMemPoolEntryByAncestorFee.call plainSizes chainEntryC chainEntryA = false) :=
  ⟨(ancestor_compare_strict_total_order plainSizes [chainEntryA, chainEntryC] (by decide)
      (by decide) (by decide)).1 chainEntryA (by decide),
    (ancestor_compare_strict_total_order plainSizes [chainEntryA, chainEntryC] (by decide)
      (by decide) (by decide)).2.2 chainEntryA (by decide) chainEntryC (by decide)
      (by decide)⟩

end AncestorOrderClaims

/-! ## Claims on the scores of one entry -/

section ScoreBracketClaims

/-- C28: the claim fails where a product wraps. The entry has positive sizes
and non-negative fees: modified fee 2^48 for size 256, and with its
descendants 2^48 + 1000 for size 2^16. The product of the size with
descendants and the fee is 2^64 and wraps to 0 in 64 bits, so the
descendant-score `GetModFeeAndSize` returns the pair with descendants, whose
ratio is below the entry's own modified feerate 2^40, where its comment says
that it returns the fee and size "for the max". -/
theorem descendant_pair_below_own_feerate :
    0 < plainSizes.GetTxVirtualSize wrappingEntry ∧
    0 < plainSizes.GetVirtualSizeWithDescendants wrappingEntry ∧
    0 ≤ wrappingEntry.GetModifiedFee ∧ 0 ≤ wrappingEntry.GetModFeesWithDescendants ∧
    CompareTxMemPoolEntryByDescendantScore.GetModFeeAndSize plainSizes wrappingEntry
      = (281474976711656, 65536) ∧
    ((CompareTxMemPoolEntryByDescendantScore.GetModFeeAndSize plainSizes wrappingEntry).1 : ℚ)
        / ((CompareTxMemPoolEntryByDescendantScore.GetModFeeAndSize plainSizes
            wrappingEntry).2 : ℚ)
      < (wrappingEntry.GetModifiedFee : ℚ) / (plainSizes.GetTxVirtualSize wrappingEntry : ℚ) := by
  have h1 : CompareTxMemPoolEntryByDescendantScore.GetModFeeAndSize plainSizes wrappingEntry
      = (281474976711656, 65536) := by decide
  have h2 : wrappingEntry.GetModifiedFee = 281474976710656 := by decide
  have h3 : plainSizes.GetTxVirtualSize wrappingEntry = 256 := by decide
  refine ⟨by decide, by decide, by decide, by decide, h1, ?_⟩
  rw [h1, h2, h3]
  norm_num

/-- Where no product wraps or rounds: for an entry with positive virtual sizes
and non-negative modified fees whose products in `GetModFeeAndSize` are within
64 bits and exact, the ratio of the pair that the ancestor-score comparator
returns is at most the entry's own modified feerate, which is at most the
ratio of the pair that the descendant-score comparator returns; and when the
aggregates are the entry's own values, both comparators return (modified fee,
virtual size). -/
theorem scores_bracket_own_feerate (V : VirtualSizes) (e : CTxMemPoolEntry)
    (hs : 0 < V.GetTxVirtualSize e) (hsd : 0 < V.GetVirtualSizeWithDescendants e)
    (hsa : 0 < V.GetVirtualSizeWithAncestors e)
    (hf : 0 ≤ e.GetModifiedFee) (hfd : 0 ≤ e.GetModFeesWithDescendants)
    (hfa : 0 ≤ e.GetModFeesWithAncestors)
    (hed : DescendantExact V e) (hea : AncestorExact V e) :
    ((CompareTxMemPoolEntryByAncestorFee.GetModFeeAndSize V e).1 : ℚ)
        / ((CompareTxMemPoolEntryByAncestorFee.GetModFeeAndSize V e).2 : ℚ)
      ≤ (e.GetModifiedFee : ℚ) / (V.GetTxVirtualSize e : ℚ) ∧
    (e.GetModifiedFee : ℚ) / (V.GetTxVirtualSize e : ℚ)
      ≤ ((CompareTxMemPoolEntryByDescendantScore.GetModFeeAndSize V e).1 : ℚ)
        / ((CompareTxMemPoolEntryByDescendantScore.GetModFeeAndSize V e).2 : ℚ) ∧
    (V.GetVirtualSizeWithDescendants e = V.GetTxVirtualSize e →
      e.GetModFeesWithDescendants = e.GetModifiedFee →
      CompareTxMemPoolEntryByDescendantScore.GetModFeeAndSize V e
        = (e.GetModifiedFee, (V.GetTxVirtualSize e : Int))) ∧
    (V.GetVirtualSizeWithAncestors e = V.GetTxVirtualSize e →
      e.GetModFeesWithAncestors = e.GetModifiedFee →
      CompareTxMemPoolEntryByAncestorFee.GetModFeeAndSize V e
        = (e.GetModifiedFee, (V.GetTxVirtualSize e : Int))) := by
  have ed := CompareTxMemPoolEntryByDescendantScore.descendant_GetModFeeAndSize_eq_exact
    V e hf hfd hed
  have ea := CompareTxMemPoolEntryByAncestorFee.ancestor_GetModFeeAndSize_eq_exact
    V e hf hfa hea
  have rd := CompareTxMemPoolEntryByDescendantScore.descendant_exact_ratio V e hs hsd
  have ra := CompareTxMemPoolEntryByAncestorFee.ancestor_exact_ratio V e hs hsa
  refine ⟨?_, ?_, ?_, ?_⟩
  · rw [ea, ra]
    exact min_le_left _ _
  · rw [ed, rd]
    exact le_max_left _ _
  · intro h1 h2
    rw [ed]
    unfold CompareTxMemPoolEntryByDescendantScore.GetModFeeAndSizeExact
    simp only [h1, h2, gt_iff_lt, lt_self_iff_false, if_false]
  · intro h1 h2
    rw [ea]
    unfold CompareTxMemPoolEntryByAncestorFee.GetModFeeAndSizeExact
    simp only [h1, h2, gt_iff_lt, lt_self_iff_false, if_false]

end ScoreBracketClaims

/-! ## Claims on the visited marking -/

section EpochClaims

open CTxMemPool

theorem exists_modify (pool : CTxMemPool) (it : TxId) (f : CTxMemPoolEntry → CTxMemPoolEntry)
    (hid : ∀ e, (f e).tx.id = e.tx.id) (x : TxId) :
    (pool.modify it f).exists_ x = pool.exists_ x := by
  cases h : pool.exists_ x with
  | false =>
    rw [← GetIter_eq_none_iff] at h ⊢
    rw [GetIter_modify pool it f hid x, h]
    simp
  | true =>
    obtain ⟨e, he⟩ := GetIter_isSome_of_exists h
    cases h2 : (pool.modify it f).exists_ x with
    | true => rfl
    | false =>
      rw [← GetIter_eq_none_iff, GetIter_modify pool it f hid x, he] at h2
      by_cases hx : x = it
      · rw [if_pos hx] at h2; exact absurd h2 (by simp)
      · rw [if_neg hx] at h2; exact absurd h2 (by simp)

theorem mem_modify (pool : CTxMemPool) (it : TxId) (f : CTxMemPoolEntry → CTxMemPoolEntry)
    (e2 : CTxMemPoolEntry) (h : e2 ∈ (pool.modify it f).mapTx) :
    ∃ e ∈ pool.mapTx, e2 = e ∨ e2 = f e := by
  unfold CTxMemPool.modify at h
  obtain ⟨e, he, heq⟩ := List.mem_map.mp h
  refine ⟨e, he, ?_⟩
  by_cases hc : e.tx.id = it
  · rw [if_pos hc] at heq; exact Or.inr heq.symm
  · rw [if_neg hc] at heq; exact Or.inl heq.symm

theorem visited_inGuard (pool : CTxMemPool) (seen : List TxId) (x : TxId)
    (hg : pool.InGuard seen) (hx : pool.exists_ x = true) :
    ∃ p2, pool.visited x = some (decide (x ∈ seen), p2) ∧ p2.InGuard (x :: seen) ∧
      p2.m_epoch = pool.m_epoch ∧ ∀ y, p2.exists_ y = pool.exists_ y := by
  obtain ⟨hguard, hle, hmark⟩ := hg
  obtain ⟨e, he⟩ := GetIter_isSome_of_exists hx
  have hstate : ∀ m : Nat, m = pool.m_epoch.m_raw_epoch →
      (pool.modify x (fun y => y.setEpochMarker m)).InGuard (x :: seen) := by
    intro m hm
    refine ⟨hguard, ?_, ?_⟩
    · intro e2 he2
      obtain ⟨e1, he1, h | h⟩ := mem_modify pool x _ e2 he2
      · rw [h]; exact hle e1 he1
      · rw [h]
        show m ≤ pool.m_epoch.m_raw_epoch
        omega
    · intro y e2 hy
      rw [GetIter_modify pool x (fun z => z.setEpochMarker m) (fun _ => rfl) y] at hy
      by_cases hyx : y = x
      · rw [if_pos hyx] at hy
        obtain ⟨e1, _, h1⟩ := option_map_eq_some hy
        rw [← h1]
        refine ⟨fun _ => hm, fun hn => ?_⟩
        exact absurd (by rw [hyx]; exact List.mem_cons_self _ _) hn
      · rw [if_neg hyx] at hy
        obtain ⟨h1, h2⟩ := hmark y e2 hy
        refine ⟨fun hin => ?_, fun hn => ?_⟩
        · rcases List.mem_cons.mp hin with h3 | h3
          · exact absurd h3 hyx
          · exact h1 h3
        · exact h2 (fun h3 => hn (List.mem_cons_of_mem _ h3))
  have hex : ∀ (m : Nat) (y : TxId),
      (pool.modify x (fun z => z.setEpochMarker m)).exists_ y = pool.exists_ y :=
    fun m y => exists_modify pool x (fun z => z.setEpochMarker m) (fun _ => rfl) y
  obtain ⟨h1, h2⟩ := hmark x e he
  by_cases hs : x ∈ seen
  · refine ⟨pool.modify x (fun y => y.setEpochMarker e.m_epoch_marker), ?_,
      hstate _ (h1 hs), rfl, hex _⟩
    unfold CTxMemPool.visited Epoch.visited
    rw [he]
    simp only [hguard, if_true]
    rw [if_neg (by rw [h1 hs]; exact lt_irrefl _)]
    simp [hs]
  · refine ⟨pool.modify x (fun y => y.setEpochMarker pool.m_epoch.m_raw_epoch), ?_,
      hstate _ rfl, rfl, hex _⟩
    unfold CTxMemPool.visited Epoch.visited
    rw [he]
    simp only [hguard, if_true]
    rw [if_pos (h2 hs)]
    simp [hs]

theorem visitedAll_inGuard (its : List TxId) : ∀ (pool : CTxMemPool) (seen : List TxId),
    pool.InGuard seen → (∀ x ∈ its, pool.exists_ x = true) →
    ∃ p2 seen2, pool.visitedAll its = some (seenBefore seen its, p2) ∧ p2.InGuard seen2 ∧
      p2.m_epoch = pool.m_epoch ∧ ∀ y, p2.exists_ y = pool.exists_ y := by
  induction its with
  | nil => exact fun pool seen hg _ => ⟨pool, seen, rfl, hg, rfl, fun _ => rfl⟩
  | cons x its ih =>
    intro pool seen hg hin
    obtain ⟨p1, hv, hg1, he1, hx1⟩ := visited_inGuard pool seen x hg
      (hin x (List.mem_cons_self _ _))
    obtain ⟨p2, seen2, hv2, hg2, he2, hx2⟩ := ih p1 (x :: seen) hg1
      (fun y hy => by rw [hx1]; exact hin y (List.mem_cons_of_mem _ hy))
    refine ⟨p2, seen2, ?_, hg2, he2.trans he1, fun y => (hx2 y).trans (hx1 y)⟩
    unfold CTxMemPool.visitedAll
    rw [hv]
    simp only [hv2]
    rfl

theorem openGuard_inGuard (pool : CTxMemPool) (hm : pool.MarkersBelowEpoch)
    (hg : pool.m_epoch.guarded = false) (hno : pool.m_epoch.m_raw_epoch + 1 < 2 ^ 64) :
    ∃ p1, pool.openGuard = some p1 ∧ p1.InGuard [] ∧
      p1.m_epoch.m_raw_epoch = pool.m_epoch.m_raw_epoch + 1 ∧
      ∀ y, p1.exists_ y = pool.exists_ y := by
  have hg2 : pool.m_epoch.m_guarded = false := hg
  refine ⟨{ pool with m_epoch := { m_raw_epoch := (pool.m_epoch.m_raw_epoch + 1) % 2 ^ 64,
                                   m_guarded := true } }, ?_, ?_, Nat.mod_eq_of_lt hno,
    fun _ => rfl⟩
  · unfold CTxMemPool.openGuard Epoch.acquire
    rw [hg2]
    rfl
  · refine ⟨rfl, ?_, ?_⟩
    · intro e he
      show e.m_epoch_marker ≤ (pool.m_epoch.m_raw_epoch + 1) % 2 ^ 64
      rw [Nat.mod_eq_of_lt hno]
      exact Nat.le_succ_of_le (hm e he)
    · intro x e hx
      refine ⟨fun h => absurd h (List.not_mem_nil _), fun _ => ?_⟩
      show e.m_epoch_marker < (pool.m_epoch.m_raw_epoch + 1) % 2 ^ 64
      rw [Nat.mod_eq_of_lt hno]
      exact Nat.lt_succ_of_le (hm e (List.mem_of_find?_eq_some hx))

theorem closeGuard_inGuard (pool : CTxMemPool) (seen : List TxId) (hg : pool.InGuard seen)
    (hno : pool.m_epoch.m_raw_epoch + 1 < 2 ^ 64) :
    ∃ p3, pool.closeGuard = some p3 ∧ p3.MarkersBelowEpoch ∧ p3.m_epoch.guarded = false ∧
      p3.m_epoch.m_raw_epoch = pool.m_epoch.m_raw_epoch + 1 ∧
      ∀ y, p3.exists_ y = pool.exists_ y := by
  obtain ⟨hguard, hle, _⟩ := hg
  refine ⟨{ pool with m_epoch := { m_raw_epoch := (pool.m_epoch.m_raw_epoch + 1) % 2 ^ 64,
                                   m_guarded := false } }, ?_, ?_, rfl, Nat.mod_eq_of_lt hno,
    fun _ => rfl⟩
  · unfold CTxMemPool.closeGuard Epoch.release
    rw [hguard]
    rfl
  · intro e he
    show e.m_epoch_marker ≤ (pool.m_epoch.m_raw_epoch + 1) % 2 ^ 64
    rw [Nat.mod_eq_of_lt hno]
    exact Nat.le_succ_of_le (hle e he)

theorem seenBefore_get (its : List TxId) : ∀ (seen : List TxId) (k : Nat) (x : TxId),
    its.get? k = some x →
    (seenBefore seen its).get? k = some (decide (x ∈ seen ∨ x ∈ its.take k)) := by
  induction its with
  | nil => intro seen k x h; exact absurd h (by simp)
  | cons a its ih =>
    intro seen k x h
    cases k with
    | zero =>
      have hax : a = x := by simpa using h
      rw [hax]
      simp [seenBefore]
    | succ k =>
      have h2 : its.get? k = some x := by simpa using h
      have := ih (a :: seen) k x h2
      simp only [seenBefore, List.get?_cons_succ, this, List.take_succ_cons, List.mem_cons]
      congr 2
      apply propext
      constructor
      · rintro ((h3 | h3) | h3)
        · exact Or.inr (Or.inl h3)
        · exact Or.inl h3
        · exact Or.inr (Or.inr h3)
      · rintro (h3 | h3 | h3)
        · exact Or.inl (Or.inr h3)
        · exact Or.inl (Or.inl h3)
        · exact Or.inr h3

/-- C21: from a pool without an active guard whose markers are not above the
epoch counter (and whose counter does not overflow), a guard can be opened,
and within it the answers of `visited` for any sequence of entries of the pool
tell exactly whether the entry has been visited earlier in the sequence: the
first call for an entry returns false and every later one true, whatever the
calls for other entries are; after the guard is closed and a new one is
opened, the answers start again with false. -/
theorem visited_within_guard (pool : CTxMemPool) (its1 its2 : List TxId)
    (hm : pool.MarkersBelowEpoch) (hg : pool.m_epoch.guarded = false)
    (hno : pool.m_epoch.m_raw_epoch + 3 < 2 ^ 64)
    (h1 : ∀ x ∈ its1, pool.exists_ x = true) (h2 : ∀ x ∈ its2, pool.exists_ x = true) :
    (∃ p1 p2 p3 p4 p5, pool.openGuard = some p1 ∧
      p1.visitedAll its1 = some (seenBefore [] its1, p2) ∧
      p2.closeGuard = some p3 ∧ p3.openGuard = some p4 ∧
      p4.visitedAll its2 = some (seenBefore [] its2, p5)) ∧
    (∀ k x, its1.get? k = some x →
      (seenBefore [] its1).get? k = some (decide (x ∈ its1.take k))) ∧
    (∀ k x, its2.get? k = some x →
      (seenBefore [] its2).get? k = some (decide (x ∈ its2.take k))) := by
  have hget : ∀ (its : List TxId) (k : Nat) (x : TxId), its.get? k = some x →
      (seenBefore [] its).get? k = some (decide (x ∈ its.take k)) := by
    intro its k x h
    rw [seenBefore_get its [] k x h]
    simp
  refine ⟨?_, hget its1, hget its2⟩
  obtain ⟨p1, ho1, hg1, hr1, hx1⟩ := openGuard_inGuard pool hm hg (by omega)
  obtain ⟨p2, seen2, hv1, hg2, he2, hx2⟩ := visitedAll_inGuard its1 p1 [] hg1
    (fun x hx => by rw [hx1]; exact h1 x hx)
  have hr2 : p2.m_epoch.m_raw_epoch = pool.m_epoch.m_raw_epoch + 1 := by rw [he2, hr1]
  obtain ⟨p3, hc3, hm3, hgd3, hr3, hx3⟩ := closeGuard_inGuard p2 seen2 hg2 (by omega)
  obtain ⟨p4, ho4, hg4, _, hx4⟩ := openGuard_inGuard p3 hm3 hgd3 (by omega)
  obtain ⟨p5, _, hv5, _, _, _⟩ := visitedAll_inGuard its2 p4 [] hg4
    (fun x hx => by rw [hx4, hx3, hx2, hx1]; exact h2 x hx)
  exact ⟨p1, p2, p3, p4, p5, ho1, hv1, hc3, ho4, hv5⟩

/-- Witness for C21: in the pool of the chain scenario the calls for A, B, A
within one guard answer false, false, true, and the call for A within the
next guard answers false. -/
theorem visited_within_guard_witness :
    (∃ p1 p2 p3 p4 p5, chainPool.openGuard = some p1 ∧
      p1.visitedAll [1, 2, 1] = some (seenBefore [] [1, 2, 1], p2) ∧
      p2.closeGuard = some p3 ∧ p3.openGuard = some p4 ∧
      p4.visitedAll [1] = some (seenBefore [] [1], p5)) ∧
    seenBefore [] [1, 2, 1] = [false, false, true] ∧ seenBefore [] [1] = [false] :=
  ⟨(visited_within_guard chainPool [1, 2, 1] [1] (by decide) (by decide) (by decide)
      (by decide) (by decide)).1,
    by decide, by decide⟩

end EpochClaims

end TxMemPool
